import Mathlib

/-!
# Verification of the promptmanager core

Shallow embedding of the promptmanager evaluation harness (TypeScript) in
Lean 4, together with theorems settling the specification claims.

Conventions used throughout:
* JS `undefined` results are modelled as `Option` (`none` = `undefined`).
* JSON numbers are modelled as `Int`; none of the verified claims depends
  on floating-point behaviour of numbers.
* JS objects are modelled as ordered association lists (JSON parsing
  produces unique keys; lookup takes the first matching key).
* Wall-clock readings (`Date.now()`) are environmental; latencies recorded
  in traces are modelled as `0`.
-/

namespace PromptMgr

/-- JSON value model (`JsonValue` in `src/types.ts`); numbers as `Int`. -/
inductive JsonValue where
  | null
  | bool (b : Bool)
  | num (n : Int)
  | str (s : String)
  | arr (items : List JsonValue)
  | obj (fields : List (String × JsonValue))
deriving Repr, BEq

/-- Key lookup in a JS object (`current[token]`); `none` = `undefined`. -/
def objLookup (fields : List (String × JsonValue)) (key : String) : Option JsonValue :=
  (fields.find? (fun kv => kv.1 = key)).map (fun kv => kv.2)

/-- Top-level keys of a JS object (`Object.keys`). -/
def objKeys (fields : List (String × JsonValue)) : List String :=
  fields.map (fun kv => kv.1)

/-- JS `pathValue.split(".")` (single-character separator), character level. -/
def splitDotChars : List Char → List (List Char)
  | [] => [[]]
  | c :: rest =>
      let r := splitDotChars rest
      if c = '.' then [] :: r
      else (c :: r.headD []) :: r.tail

/-- `pathValue.split(".").filter(Boolean)` from `getByPath` (`src/utils.ts`). -/
def pathTokens (pathValue : String) : List String :=
  ((splitDotChars pathValue.toList).map List.asString).filter (fun t => t ≠ "")

/-- The token-walking loop of `getByPath` (`src/utils.ts` lines 60-73):
returns `undefined` as soon as the current value is `null`, a primitive, or
an array; otherwise follows the key and stops on `undefined`. -/
def getByPathTokens : JsonValue → List String → Option JsonValue
  | current, [] => some current
  | JsonValue.obj fields, token :: rest =>
      match objLookup fields token with
      | some next => getByPathTokens next rest
      | none => none
  | _, _ :: _ => none

/-- `getByPath` from `src/utils.ts`. -/
def getByPath (value : JsonValue) (pathValue : String) : Option JsonValue :=
  getByPathTokens value (pathTokens pathValue)

/-- `asObject` from `src/utils.ts`: non-objects collapse to the empty object. -/
def asObject : JsonValue → List (String × JsonValue)
  | JsonValue.obj fields => fields
  | _ => []

/-! ## Assertion evaluator (`src/assertions.ts`) -/

/-- `FieldMatcher` (`src/types.ts`): `op` is a string at runtime (the TS
union is unchecked), `value` and `expectedPath` are optional. A
`NumericRange` value is itself a JSON object `{min?, max?}`. -/
structure FieldMatcher where
  op : String
  value : Option JsonValue
  expectedPath : Option String
deriving Repr

/-- `AssertionSpec` after `loadAssertionSpec` has applied its defaults
(`allowAdditionalKeys ?? false`, `variableFields ?? []`,
`fieldMatchers ?? {}`); `fieldMatchers` keeps `Object.entries` order. -/
structure AssertionSpec where
  requiredKeys : List String
  allowAdditionalKeys : Bool
  variableFields : List String
  fieldMatchers : List (String × List FieldMatcher)

/-- `AssertionCheckResult` (`src/types.ts`); `expected := none` models the
property being left unset when the resolved value is `undefined`. -/
structure AssertionCheckResult where
  field : String
  op : String
  passed : Bool
  actual : Option JsonValue
  message : String
  expected : Option JsonValue

/-- `AssertionResult` (`src/types.ts`). -/
structure AssertionResult where
  passed : Bool
  checks : List AssertionCheckResult
  missingKeys : List String
  unexpectedKeys : List String

/-- `matcher.expectedPath.replace(/^\$expected\./, "")`: strip one leading
occurrence of `$expected.` when present. -/
def stripExpectedPrefix (p : String) : String :=
  if "$expected.".toList.isPrefixOf p.toList then
    (p.toList.drop "$expected.".toList.length).asString
  else p

/-- `resolveExpectedValue` (`src/assertions.ts` lines 667-682). JS
truthiness of `matcher.expectedPath`: defined and non-empty. -/
def resolveExpectedValue (matcher : FieldMatcher) (fieldPath : String)
    (expectedOutput : JsonValue) : Option JsonValue :=
  match matcher.value with
  | some v => some v
  | none =>
      match matcher.expectedPath with
      | some p =>
          if p ≠ "" then getByPath expectedOutput (stripExpectedPrefix p)
          else getByPath expectedOutput fieldPath
      | none => getByPath expectedOutput fieldPath

/-- `JSON.stringify(a) === JSON.stringify(b)` on (possibly `undefined`)
JSON values; serialization is injective on the modelled values, so this is
structural equality, with `undefined` equal only to itself. -/
def jsonStringifyEq (a b : Option JsonValue) : Bool :=
  match a, b with
  | some x, some y => x == y
  | none, none => true
  | _, _ => false

/-- Property read on an arbitrary JS value (`(v as T).k`); non-objects
have no own properties. -/
def jsGetProp (v : JsonValue) (k : String) : Option JsonValue :=
  match v with
  | JsonValue.obj fields => objLookup fields k
  | _ => none

mutual

/-- JS `String(v)` conversion for the values that occur here. -/
def jsToString : JsonValue → String
  | JsonValue.str s => s
  | JsonValue.num n => toString n
  | JsonValue.bool b => if b then "true" else "false"
  | JsonValue.null => "null"
  | JsonValue.arr items => jsToStringList items
  | JsonValue.obj _ => "[object Object]"

/-- JS array `toString`: elements joined by `','`, `null` rendered empty. -/
def jsToStringList : List JsonValue → String
  | [] => ""
  | [v] => jsToStringElem v
  | v :: rest => jsToStringElem v ++ "," ++ jsToStringList rest

def jsToStringElem : JsonValue → String
  | JsonValue.null => ""
  | v => jsToString v

end

/-- `range.min ?? "-inf"` / `range.max ?? "+inf"` interpolation. -/
def boundStr (fallback : String) : Option JsonValue → String
  | none => fallback
  | some v => jsToString v

/-- The numeric-range bound read `range.min` / `range.max` after the cast
`(expected ?? {}) as NumericRangeMatcher`. -/
def rangeBound (expected : Option JsonValue) (k : String) : Option JsonValue :=
  match expected with
  | none => none
  | some JsonValue.null => none
  | some v => jsGetProp v k

/-- Result pair of `runCheck`. -/
structure CheckOutcome where
  passed : Bool
  message : String

/-- `runCheck` (`src/assertions.ts` lines 684-746). `regexTest pattern
input` stands for the JS `new RegExp(pattern).test(input)` builtin, which
is environmental here. Numeric bounds are honoured when they are numbers
(the `NumericRangeMatcher` type); a non-numeric bound fails the bound. -/
def runCheck (regexTest : String → String → Bool) (op : String)
    (actual : Option JsonValue) (expected : Option JsonValue) : CheckOutcome :=
  if op = "equals" then
    let passed := jsonStringifyEq actual expected
    ⟨passed, if passed then "matches expected value" else "value does not match expected"⟩
  else if op = "oneOf" then
    let pool := match expected with
      | some (JsonValue.arr xs) => xs
      | _ => []
    let passed := pool.any (fun candidate => jsonStringifyEq (some candidate) actual)
    ⟨passed, if passed then "value matches allowed option" else "value not in allowed set"⟩
  else if op = "contains" then
    match actual, expected with
    | some (JsonValue.str a), some (JsonValue.str e) =>
        let passed := decide (e.toList <:+: a.toList)
        ⟨passed, if passed then "substring found" else "substring missing"⟩
    | some (JsonValue.arr xs), _ =>
        let passed := xs.any (fun item => jsonStringifyEq (some item) expected)
        ⟨passed, if passed then "array contains value" else "array does not contain value"⟩
    | _, _ => ⟨false, "contains expects string or array output"⟩
  else if op = "regex" then
    let pattern := match expected with
      | some (JsonValue.str p) => p
      | _ => ""
    let input := match actual with
      | none => ""
      | some JsonValue.null => ""
      | some v => jsToString v
    let passed := regexTest pattern input
    ⟨passed, if passed then "regex matched" else "regex " ++ "'" ++ pattern ++ "'" ++ " did not match"⟩
  else if op = "numericRange" then
    let rmin := rangeBound expected "min"
    let rmax := rangeBound expected "max"
    let value : Option Int := match actual with
      | some (JsonValue.num n) => some n
      | _ => none
    let minOk := match rmin, value with
      | none, _ => true
      | some (JsonValue.num m), some n => m ≤ n
      | _, _ => false
    let maxOk := match rmax, value with
      | none, _ => true
      | some (JsonValue.num m), some n => n ≤ m
      | _, _ => false
    let passed := value.isSome && minOk && maxOk
    ⟨passed, if passed then "value in numeric range"
      else "value outside range [" ++ boundStr "-inf" rmin ++ ", " ++ boundStr "+inf" rmax ++ "]"⟩
  else if op = "exists" then
    let passed := match actual with
      | none => false
      | some JsonValue.null => false
      | some _ => true
    ⟨passed, if passed then "value exists" else "value missing"⟩
  else if op = "absent" then
    let passed := match actual with
      | none => true
      | some JsonValue.null => true
      | some _ => false
    ⟨passed, if passed then "value absent as expected" else "value should be absent"⟩
  else
    ⟨false, "unsupported assertion operator"⟩

/-- `key in outputObj`. -/
def hasKey (fields : List (String × JsonValue)) (key : String) : Bool :=
  fields.any (fun kv => kv.1 = key)

/-- The per-matcher check loop of `evaluateAssertions`. -/
def evalChecks (regexTest : String → String → Bool) (output expectedOutput : JsonValue)
    (entries : List (String × List FieldMatcher)) : List AssertionCheckResult :=
  entries.flatMap (fun entry =>
    let field := entry.1
    let actualValue := getByPath output field
    entry.2.map (fun matcher =>
      let expectedValue := resolveExpectedValue matcher field expectedOutput
      let result := runCheck regexTest matcher.op actualValue expectedValue
      { field := field
        op := matcher.op
        passed := result.passed
        actual := actualValue
        message := result.message
        expected := expectedValue }))

/-- `evaluateAssertions` (`src/assertions.ts` lines 748-798). -/
def evaluateAssertions (regexTest : String → String → Bool)
    (output expectedOutput : JsonValue) (spec : AssertionSpec) : AssertionResult :=
  let outputObj := asObject output
  let missingKeys := spec.requiredKeys.filter (fun key => ¬ hasKey outputObj key)
  let allowedKeys := spec.requiredKeys ++ spec.variableFields ++ spec.fieldMatchers.map (fun kv => kv.1)
  let unexpectedKeys :=
    if spec.allowAdditionalKeys then []
    else (objKeys outputObj).filter (fun key => ¬ allowedKeys.contains key)
  let checks := evalChecks regexTest output expectedOutput spec.fieldMatchers
  { passed := missingKeys.isEmpty && unexpectedKeys.isEmpty && checks.all (fun c => c.passed)
    checks := checks
    missingKeys := missingKeys
    unexpectedKeys := unexpectedKeys }

/-! ## Redaction (`redactSensitive`, `src/utils.ts` lines 37-58)

The three `String.replace` calls use the JS regexes
`/[A-Z0-9._%+-]+@[A-Z0-9.-]+\.[A-Z]{2,}/gi`, `/\+?\d[\d\s().-]{7,}\d/g`
and `/\b\d{12,19}\b/g`. Each matcher below computes the length of the
leftmost match anchored at the start of a character list, following JS
backtracking semantics (greedy quantifiers, longest alternative first);
the scanners implement global replace: try each position left to right,
skip over a match and emit the replacement, else keep the character. -/

/-- JS `\d`. -/
def isDigitChar (c : Char) : Bool := '0' ≤ c && c ≤ '9'

/-- `[A-Z]` under the `i` flag. -/
def isAsciiAlpha (c : Char) : Bool := ('a' ≤ c && c ≤ 'z') || ('A' ≤ c && c ≤ 'Z')

/-- JS word character (`\b` is a `\w`/non-`\w` boundary): `[A-Za-z0-9_]`. -/
def isWordChar (c : Char) : Bool := isAsciiAlpha c || isDigitChar c || c = '_'

/-- JS `\s` (the WhiteSpace and LineTerminator code points). -/
def isJsSpace (c : Char) : Bool :=
  c = ' ' || c = '\t' || c = '\n' || c = '\r' || c.val = 11 || c.val = 12 ||
  c.val = 0x00a0 || c.val = 0x1680 || (0x2000 ≤ c.val && c.val ≤ 0x200a) ||
  c.val = 0x2028 || c.val = 0x2029 || c.val = 0x202f || c.val = 0x205f ||
  c.val = 0x3000 || c.val = 0xfeff

/-- `[A-Z0-9._%+-]` under `i`: the email local part. -/
def isLocalChar (c : Char) : Bool :=
  isAsciiAlpha c || isDigitChar c || c = '.' || c = '_' || c = '%' || c = '+' || c = '-'

/-- `[A-Z0-9.-]` under `i`: the email domain part. -/
def isDomainChar (c : Char) : Bool :=
  isAsciiAlpha c || isDigitChar c || c = '.' || c = '-'

/-- `[\d\s().-]`: the phone inner class. -/
def isPhoneInnerChar (c : Char) : Bool :=
  isDigitChar c || isJsSpace c || c = '(' || c = ')' || c = '.' || c = '-'

/-- Length of the maximal run of characters satisfying `p`. -/
def runLen (p : Char → Bool) : List Char → Nat
  | [] => 0
  | c :: rest => if p c then runLen p rest + 1 else 0

/-- Backtracking search for `[A-Z0-9.-]+\.[A-Z]{2,}` after the `@`: try
the domain-part length `d` from the maximal run downwards; at each `d` the
next character must be the literal dot, followed by at least two letters
(greedy). Returns the total matched length after the `@` on success. -/
def emailDomainSearch (after : List Char) : Nat → Option Nat
  | 0 => none
  | d + 1 =>
      match (after.drop (d + 1)) with
      | '.' :: tl =>
          let t := runLen isAsciiAlpha tl
          if 2 ≤ t then some (d + 1 + 1 + t) else emailDomainSearch after d
      | _ => emailDomainSearch after d

/-- Length of the match of `[A-Z0-9._%+-]+@[A-Z0-9.-]+\.[A-Z]{2,}` (flag
`i`) anchored at the start of `s`, if any. The greedy local part must be
the maximal run (a shorter one is still followed by a local character,
never `@`). -/
def emailLen (s : List Char) : Option Nat :=
  let l := runLen isLocalChar s
  if l = 0 then none
  else
    match s.drop l with
    | '@' :: rest =>
        let dmax := runLen isDomainChar rest
        match emailDomainSearch rest dmax with
        | some n => some (l + 1 + n)
        | none => none
    | _ => none

/-- Backtracking search for the final `\d` of the phone pattern: the inner
class consumed `c` characters (tried from the maximal run downwards, at
least 7), and the character at index `c` must be a digit. Returns the
inner-class length on success. -/
def phoneDigitSearch (after : List Char) : Nat → Option Nat
  | 0 => none
  | c + 1 =>
      if c + 1 < 7 then none
      else
        match after.get? (c + 1) with
        | some ch => if isDigitChar ch then some (c + 1) else phoneDigitSearch after c
        | none => phoneDigitSearch after c

/-- `\d[\d\s().-]{7,}\d` anchored at the start of `s`. -/
def phoneBody (s : List Char) : Option Nat :=
  match s with
  | [] => none
  | c :: rest =>
      if isDigitChar c then
        match phoneDigitSearch rest (runLen isPhoneInnerChar rest) with
        | some inner => some (1 + inner + 1)
        | none => none
      else none

/-- `\+?\d[\d\s().-]{7,}\d` anchored at the start of `s`: with a leading
`+` the optional quantifier consumes it greedily; if the body then fails,
the backtracked alternative starts with `\d` at the `+` and fails too. -/
def phoneLen (s : List Char) : Option Nat :=
  match s with
  | '+' :: rest =>
      match phoneBody rest with
      | some n => some (n + 1)
      | none => none
  | _ => phoneBody s

/-- The right `\b` of the number pattern: end of input or a non-word
character. -/
def boundaryOk : Option Char → Bool
  | none => true
  | some c => ¬ isWordChar c

/-- Backtracking search for `\d{12,19}\b`: digit count `d` tried from
`min run 19` downwards to 12, the character at index `d` must be a word
boundary. -/
def numberSearch (s : List Char) : Nat → Option Nat
  | 0 => none
  | d + 1 =>
      if d + 1 < 12 then none
      else if boundaryOk (s.get? (d + 1)) then some (d + 1)
      else numberSearch s d

/-- `\b\d{12,19}\b` anchored at the start of `s`, where `prevWord` is the
word-status of the character before `s` (`false` at string start). -/
def numberMatch (prevWord : Bool) (s : List Char) : Option Nat :=
  if prevWord then none
  else numberSearch s (min (runLen isDigitChar s) 19)

def emailToken : List Char := "[REDACTED_EMAIL]".toList

def phoneToken : List Char := "[REDACTED_PHONE]".toList

def numberToken : List Char := "[REDACTED_NUMBER]".toList

/-- JS global replace for a context-free matcher `m`: scan positions left
to right; at a match of length `n` emit `tok` and resume after the match,
otherwise keep the character. `hm` records that the embedded matchers
never produce empty matches. -/
def scanReplace (m : List Char → Option Nat) (hm : ∀ s n, m s = some n → 0 < n)
    (tok : List Char) : List Char → List Char
  | [] => []
  | c :: rest =>
      match hmatch : m (c :: rest) with
      | some n => tok ++ scanReplace m hm tok ((c :: rest).drop n)
      | none => c :: scanReplace m hm tok rest
termination_by s => s.length
decreasing_by
  · have hn := hm _ _ hmatch
    simp only [List.length_drop, List.length_cons]
    omega
  · simp

/-- JS global replace for a matcher with a one-character left context
(`\b`): matching happens on the input string, so the context after a match
is the word-status of the match's last character. -/
def scanReplaceCtx (m : Bool → List Char → Option Nat)
    (hm : ∀ pw s n, m pw s = some n → 0 < n) (tok : List Char) :
    Bool → List Char → List Char
  | _, [] => []
  | pw, c :: rest =>
      match hmatch : m pw (c :: rest) with
      | some n =>
          let nextCtx := match (c :: rest).get? (n - 1) with
            | some ch => isWordChar ch
            | none => false
          tok ++ scanReplaceCtx m hm tok nextCtx ((c :: rest).drop n)
      | none => c :: scanReplaceCtx m hm tok (isWordChar c) rest
termination_by _ s => s.length
decreasing_by
  · have hn := hm _ _ _ hmatch
    simp only [List.length_drop, List.length_cons]
    omega
  · simp

theorem emailLen_pos (s : List Char) (n : Nat) (h : emailLen s = some n) : 0 < n := by
  unfold emailLen at h
  by_cases hl : runLen isLocalChar s = 0
  · simp [hl] at h
  · simp only [hl, if_false] at h
    split at h
    · split at h
      · injection h with h
        omega
      · cases h
    · cases h

theorem phoneLen_pos (s : List Char) (n : Nat) (h : phoneLen s = some n) : 0 < n := by
  unfold phoneLen at h
  split at h
  · split at h
    · simp only [Option.some.injEq] at h
      omega
    · exact absurd h (by simp)
  · unfold phoneBody at h
    split at h
    · exact absurd h (by simp)
    · split at h
      · split at h
        · simp only [Option.some.injEq] at h
          omega
        · exact absurd h (by simp)
      · exact absurd h (by simp)

theorem numberSearch_pos (s : List Char) (d n : Nat) (h : numberSearch s d = some n) :
    0 < n := by
  induction d with
  | zero => exact absurd h (by simp [numberSearch])
  | succ d ih =>
      unfold numberSearch at h
      split at h
      · exact absurd h (by simp)
      · split at h
        · simp only [Option.some.injEq] at h
          omega
        · exact ih h

theorem numberMatch_pos (pw : Bool) (s : List Char) (n : Nat)
    (h : numberMatch pw s = some n) : 0 < n := by
  unfold numberMatch at h
  split at h
  · exact absurd h (by simp)
  · exact numberSearch_pos _ _ _ h

/-- `value.replace(emailRe, …).replace(phoneRe, …).replace(numberRe, …)`
on the characters of a string. -/
def redactChars (s : List Char) : List Char :=
  scanReplaceCtx (fun pw t => numberMatch pw t) (fun pw t n h => numberMatch_pos pw t n h)
    numberToken false
    (scanReplace phoneLen phoneLen_pos phoneToken
      (scanReplace emailLen emailLen_pos emailToken s))

/-- The string case of `redactSensitive`. -/
def redactString (s : String) : String :=
  (redactChars s.toList).asString

mutual

/-- `redactSensitive` (`src/utils.ts` lines 37-58): `null`/`undefined`
normalize to `null`, strings are redacted, arrays and objects recurse
structurally, other primitives pass through. -/
def redactSensitive : JsonValue → JsonValue
  | JsonValue.null => JsonValue.null
  | JsonValue.str s => JsonValue.str (redactString s)
  | JsonValue.arr items => JsonValue.arr (redactArr items)
  | JsonValue.obj fields => JsonValue.obj (redactObj fields)
  | JsonValue.bool b => JsonValue.bool b
  | JsonValue.num n => JsonValue.num n

def redactArr : List JsonValue → List JsonValue
  | [] => []
  | v :: rest => redactSensitive v :: redactArr rest

def redactObj : List (String × JsonValue) → List (String × JsonValue)
  | [] => []
  | kv :: rest => (kv.1, redactSensitive kv.2) :: redactObj rest

end

/-! ## Run reports, the per-case pipeline (`src/runner.ts`) and the diff
engine (`src/diffRuns.ts`) -/

/-- Case status (`"pass" | "fail" | "error"`). -/
inductive CaseStatus where
  | pass
  | fail
  | error
deriving Repr, DecidableEq, BEq

/-- `ToolCallTrace` (`src/types.ts`); `latencyMs` is environmental and
modelled as 0. -/
structure ToolCallTrace where
  id : String
  name : String
  args : JsonValue
  result : Option JsonValue
  latencyMs : Nat
  status : String
  errorCode : Option String
  errorMessage : Option String

/-- `AssertionResult` summary plus the remaining `RunCaseResult` fields
(`src/types.ts`). `output`/`redactedOutput` are `JsonValue` (JS `null` is a
JSON value). -/
structure RunCaseResult where
  hashedCaseId : String
  rawCaseId : String
  status : CaseStatus
  schemaValid : Bool
  assertionsPassed : Bool
  assertionResult : AssertionResult
  errors : List String
  output : JsonValue
  redactedOutput : JsonValue
  expected : JsonValue
  latencyMs : Nat
  provider : String
  model : String
  usage : Option JsonValue
  toolTrace : List ToolCallTrace
  tags : List String

/-- The fields of `RunReport` that `diffRuns` reads (`suiteId`, `cases`);
the remaining report fields do not influence the verified claims. -/
structure RunReport where
  suiteId : String
  cases : List RunCaseResult

/-- `EvalCase` (`src/types.ts`). -/
structure EvalCase where
  caseId : String
  input : JsonValue
  expected : JsonValue
  tags : List String

/-- `SchemaValidationResult` (`src/schema.ts`). -/
structure SchemaValidationResult where
  valid : Bool
  errors : List String

/-- The successful provider response fields the orchestrator reads. -/
structure ProviderSuccess where
  finalOutput : JsonValue
  usage : Option JsonValue
  toolTrace : List ToolCallTrace

/-- An exception caught by the per-case pipeline: either a
`ToolRunnerError` (which carries a code) or any other error. -/
inductive ThrownError where
  | toolRunner (code : String) (message : String)
  | other (message : String)

/-- `error instanceof ToolRunnerError ? error.code : "CASE_ERROR"`. -/
def thrownCode : ThrownError → String
  | ThrownError.toolRunner code _ => code
  | ThrownError.other _ => "CASE_ERROR"

/-- `toErrorMessage` on the caught error. -/
def thrownMessage : ThrownError → String
  | ThrownError.toolRunner _ m => m
  | ThrownError.other m => m

/-- `makeEmptyAssertionResult` (`src/runner.ts`). -/
def makeEmptyAssertionResult : AssertionResult :=
  { passed := false, checks := [], missingKeys := [], unexpectedKeys := [] }

/-- `missingKeys.join(",")`. -/
def joinComma : List String → String
  | [] => ""
  | [s] => s
  | s :: rest => s ++ "," ++ joinComma rest

/-- The per-case pipeline of `runSuite` (`src/runner.ts` lines 73-171),
for one dataset item. The environment is explicit: `hash` is the SHA-256
based `hashCaseId`, `validate` the compiled ajv validator for the suite
schema, `regexTest` the JS regex engine, and `outcome` the result of the
provider invocation (`Except.error` = the pipeline threw before producing
an output). `redactInReports` is `config.privacy.redactInReports` and
`includeToolTrace` is `config.reporting.includeToolTrace` (optional in the
config). Latencies are environmental and modelled as 0. -/
def runCase (hash : String → String) (validate : JsonValue → SchemaValidationResult)
    (regexTest : String → String → Bool) (spec : AssertionSpec)
    (redactInReports : Bool) (includeToolTrace : Option Bool)
    (providerId model : String) (item : EvalCase)
    (outcome : Except ThrownError ProviderSuccess) : RunCaseResult :=
  let hashedCaseId := hash item.caseId
  match outcome with
  | Except.ok response =>
      let output := response.finalOutput
      let schemaResult := validate output
      let assertionResult := evaluateAssertions regexTest output item.expected spec
      let errors := schemaResult.errors ++
        (assertionResult.checks.filter (fun check => ¬ check.passed)).map
          (fun check => check.field ++ ":" ++ check.op ++ ":" ++ check.message)
      let errors := if assertionResult.missingKeys.length > 0 then
          errors ++ ["missing keys: " ++ joinComma assertionResult.missingKeys]
        else errors
      let errors := if assertionResult.unexpectedKeys.length > 0 then
          errors ++ ["unexpected keys: " ++ joinComma assertionResult.unexpectedKeys]
        else errors
      let passed := schemaResult.valid && assertionResult.passed
      { hashedCaseId := hashedCaseId
        rawCaseId := "[HASHED]"
        status := if passed then CaseStatus.pass else CaseStatus.fail
        schemaValid := schemaResult.valid
        assertionsPassed := assertionResult.passed
        assertionResult := assertionResult
        errors := errors
        output := output
        redactedOutput := if redactInReports then redactSensitive output else output
        expected := item.expected
        latencyMs := 0
        provider := providerId
        model := model
        usage := response.usage
        toolTrace := if includeToolTrace = some false then [] else response.toolTrace
        tags := item.tags }
  | Except.error e =>
      { hashedCaseId := hashedCaseId
        rawCaseId := "[HASHED]"
        status := CaseStatus.error
        schemaValid := false
        assertionsPassed := false
        assertionResult := makeEmptyAssertionResult
        errors := [thrownCode e ++ ":" ++ thrownMessage e]
        output := JsonValue.null
        redactedOutput := JsonValue.null
        expected := item.expected
        latencyMs := 0
        provider := providerId
        model := model
        usage := none
        toolTrace := []
        tags := item.tags }

/-- `statusRank` (`src/diffRuns.ts`). -/
def statusRank : CaseStatus → Nat
  | CaseStatus.pass => 2
  | CaseStatus.fail => 1
  | CaseStatus.error => 0

structure DiffEntry where
  hashedCaseId : String
  baselineStatus : CaseStatus
  candidateStatus : CaseStatus
deriving Repr, DecidableEq

/-- `DiffReport` without `comparedAt` (wall clock, environmental). -/
structure DiffReport where
  baselineSuiteId : String
  candidateSuiteId : String
  totalCompared : Nat
  regressions : List DiffEntry
  improvements : List DiffEntry
  unchanged : Nat

/-- One `Map.set`: replace the value at an existing key in place, append a
new key. -/
def mapSet (m : List (String × RunCaseResult)) (k : String) (v : RunCaseResult) :
    List (String × RunCaseResult) :=
  if m.any (fun kv => kv.1 = k) then
    m.map (fun kv => if kv.1 = k then (k, v) else kv)
  else m ++ [(k, v)]

/-- `new Map(cases.map(item => [item.hashedCaseId, item]))`. -/
def buildCaseMap (cases : List RunCaseResult) : List (String × RunCaseResult) :=
  cases.foldl (fun m item => mapSet m item.hashedCaseId item) []

/-- `Map.get`. -/
def mapGet (m : List (String × RunCaseResult)) (k : String) : Option RunCaseResult :=
  (m.find? (fun kv => kv.1 = k)).map (fun kv => kv.2)

/-- `Map.keys()` in insertion order. -/
def mapKeys (m : List (String × RunCaseResult)) : List String :=
  m.map (fun kv => kv.1)

/-- One `Set.add`. -/
def setAdd (s : List String) (x : String) : List String :=
  if x ∈ s then s else s ++ [x]

/-- `new Set(list)`: deduplicate keeping first occurrences, in order. -/
def buildSet (l : List String) : List String :=
  l.foldl setAdd []

/-- The `for (const id of ids)` loop of `diffRuns`: classify each id
present in both maps, skip the rest. Returns
(regressions, improvements, unchanged). -/
def diffLoop (bmap cmap : List (String × RunCaseResult)) :
    List String → List DiffEntry × List DiffEntry × Nat
  | [] => ([], [], 0)
  | id :: rest =>
      let r := diffLoop bmap cmap rest
      match mapGet bmap id, mapGet cmap id with
      | some left, some right =>
          if left.status = right.status then (r.1, r.2.1, r.2.2 + 1)
          else if statusRank right.status < statusRank left.status then
            (⟨id, left.status, right.status⟩ :: r.1, r.2.1, r.2.2)
          else
            (r.1, ⟨id, left.status, right.status⟩ :: r.2.1, r.2.2)
      | _, _ => r

/-- `diffRuns` (`src/diffRuns.ts` lines 13-57). -/
def diffRuns (baseline candidate : RunReport) : DiffReport :=
  let baselineMap := buildCaseMap baseline.cases
  let candidateMap := buildCaseMap candidate.cases
  let ids := buildSet (mapKeys baselineMap ++ mapKeys candidateMap)
  let r := diffLoop baselineMap candidateMap ids
  { baselineSuiteId := baseline.suiteId
    candidateSuiteId := candidate.suiteId
    totalCompared := ids.length
    regressions := r.1
    improvements := r.2.1
    unchanged := r.2.2 }

/-- Status of the last case of `cases` carrying a given id — what the JS
`Map` built from `cases` stores for that id. Used to state the diff
claims. -/
def lastWinsStatus (cases : List RunCaseResult) (id : String) : Option CaseStatus :=
  ((cases.reverse).find? (fun c => c.hashedCaseId = id)).map (fun c => c.status)

/-- The ids compared by `diffRuns`, as a finite set. -/
def caseIdFinset (r : RunReport) : Finset String :=
  (r.cases.map (fun c => c.hashedCaseId)).toFinset

/-- The trace accumulated by a `ProcessCalls` helper, on either exit. -/
def pcTrace (r : Except (List ToolCallTrace × String)
    (List ToolCallTrace × List JsonValue)) : List ToolCallTrace :=
  match r with
  | Except.ok (t, _) => t
  | Except.error (t, _) => t

/-- A minimal case result used for concrete diff inputs. -/
def sampleCase (id : String) : RunCaseResult :=
  { hashedCaseId := id
    rawCaseId := "[HASHED]"
    status := CaseStatus.pass
    schemaValid := true
    assertionsPassed := true
    assertionResult := makeEmptyAssertionResult
    errors := []
    output := JsonValue.null
    redactedOutput := JsonValue.null
    expected := JsonValue.null
    latencyMs := 0
    provider := "openai"
    model := "m"
    usage := none
    toolTrace := []
    tags := [] }

/-- A report whose two cases share one `hashedCaseId`. -/
def dupReport : RunReport := { suiteId := "s", cases := [sampleCase "a", sampleCase "a"] }

/-- A report with two distinct `hashedCaseId`s. -/
def selfReport : RunReport := { suiteId := "s", cases := [sampleCase "a", sampleCase "b"] }

/-! ## Tool runner child environment (`src/tools/toolRunner.ts`) -/

/-- `buildSanitizedEnv` (`src/tools/toolRunner.ts` lines 28-41), as the
lookup function of the object it builds: `PATH` is assigned first, then
each allow-listed key whose parent value is defined, later assignments
overriding earlier ones. `parent` is `process.env`. -/
def buildSanitizedEnv (allowlist : List String) (parent : String → Option String) :
    String → Option String :=
  allowlist.foldl
    (fun env key =>
      if (parent key).isSome then (fun k => if k = key then parent key else env k)
      else env)
    (fun k => if k = "PATH" then parent "PATH" else none)

/-- The environment `ToolRunner.execute` spawns the child with
(lines 74-82): `{ ...buildSanitizedEnv(envAllowlist),
PROMPTMGR_BLOCK_NETWORK: "true" }` — the literal binding spreads after
and overrides the sanitized copy. -/
def spawnChildEnv (allowlist : List String) (parent : String → Option String) :
    String → Option String :=
  fun k =>
    if k = "PROMPTMGR_BLOCK_NETWORK" then some "true"
    else buildSanitizedEnv allowlist parent k

/-- A parent environment that sets `PROMPTMGR_BLOCK_NETWORK=false`. -/
def parentWithBlockNetwork : String → Option String :=
  fun k =>
    if k = "PROMPTMGR_BLOCK_NETWORK" then some "false"
    else if k = "HOME" then some "/home/user" else none

/-- The same parent environment without `PROMPTMGR_BLOCK_NETWORK`. -/
def parentWithoutBlockNetwork : String → Option String :=
  fun k => if k = "HOME" then some "/home/user" else none

/-! ## Provider adapters (`src/providers/openai.ts`, `anthropic.ts`,
`google.ts`)

Each adapter's `invokeWithTools` is a loop of HTTP round trips. The HTTP
layer (`postJson`) is environmental: the loop is modelled over a `script`
of its outcomes, one per round trip — `Except.error` is a `postJson`
throw (non-2xx status or invalid JSON), `Except.ok` the parsed response
body. `JsBuiltins` packages the `JSON.parse`/`JSON.stringify` builtins.
Request-body construction (`toOpenAiTools` and friends) only feeds the
wire and is not observable here; the conversation state each adapter
maintains for subsequent bodies is embedded faithfully. -/

structure JsBuiltins where
  jsonParse : String → Option JsonValue
  jsonStringify : JsonValue → String

/-- `item && typeof item === "object"` (arrays are objects, `null` is
falsy). -/
def isObjectLike : JsonValue → Bool
  | JsonValue.obj _ => true
  | JsonValue.arr _ => true
  | _ => false

/-- JS `a ?? b` on property reads. -/
def coalesceJs (a b : Option JsonValue) : Option JsonValue :=
  match a with
  | none => b
  | some JsonValue.null => b
  | some v => some v

/-- `x ?? undefined`: normalize `null` to `undefined` (the `usage` reads). -/
def nullToUndef (a : Option JsonValue) : Option JsonValue :=
  match a with
  | some JsonValue.null => none
  | v => v

/-- `String(a ?? b ?? "fallback")`; `Date.now()`-based fallback ids are
environmental and modelled as `"call_0"`. -/
def jsStringCoalesce (a b : Option JsonValue) (fallback : String) : String :=
  match coalesceJs (coalesceJs a b) (some (JsonValue.str fallback)) with
  | some v => jsToString v
  | none => fallback

/-- `String(a ?? "")`. -/
def jsStringOrEmpty (a : Option JsonValue) : String :=
  match coalesceJs a (some (JsonValue.str "")) with
  | some v => jsToString v
  | none => ""

/-- JS `String.prototype.trim` (same character set as `\s`). -/
def trimString (s : String) : String :=
  (((s.toList.dropWhile isJsSpace).reverse.dropWhile isJsSpace).reverse).asString

/-- `parseMaybeJson` (`src/utils.ts` lines 25-35); `toFinalJson` is the
identity wrapper around it. -/
def parseMaybeJson (jb : JsBuiltins) (text : String) : JsonValue :=
  let trimmed := trimString text
  if trimmed = "" then JsonValue.str ""
  else
    match jb.jsonParse trimmed with
    | some v => v
    | none => JsonValue.str trimmed

/-- Lines joined with `"\n"` then trimmed (the `chunks.join`). -/
def joinLinesTrim (chunks : List String) : String :=
  trimString (match chunks with
    | [] => ""
    | c :: rest => rest.foldl (fun acc s => acc ++ "\n" ++ s) c)

/-- `typeof input === "string" ? input : JSON.stringify(input)`. -/
def inputAsText (jb : JsBuiltins) (input : JsonValue) : String :=
  match input with
  | JsonValue.str s => s
  | v => jb.jsonStringify v

/-- The tool-call view an adapter hands to `req.invokeTool`. -/
structure ProviderToolCall where
  id : String
  name : String
  args : JsonValue

/-- What `runSuite`'s `invokeTool` resolves with. -/
structure InvokeToolResult where
  callId : String
  name : String
  result : JsonValue

/-- `ProviderResponse` (`src/types.ts`). -/
structure ProviderResponse where
  finalText : String
  finalOutput : JsonValue
  usage : Option JsonValue
  rawResponse : JsonValue
  toolTrace : List ToolCallTrace

/-- Result of one `invokeWithTools` run over a response script: success,
a thrown error (missing key, HTTP failure, exceeded `maxToolCalls`, or a
propagated tool failure), or an exhausted script (the loop would issue
another HTTP request). Each carries the `toolTrace` accumulated so far. -/
inductive AdapterOutcome where
  | success (resp : ProviderResponse)
  | failure (message : String) (trace : List ToolCallTrace)
  | pending (trace : List ToolCallTrace)

def outcomeTrace : AdapterOutcome → List ToolCallTrace
  | AdapterOutcome.success r => r.toolTrace
  | AdapterOutcome.failure _ t => t
  | AdapterOutcome.pending t => t

/-- The `status: "ok"` trace entry. -/
def okTrace (id name : String) (args result : JsonValue) : ToolCallTrace :=
  { id := id, name := name, args := args, result := some result, latencyMs := 0
    status := "ok", errorCode := none, errorMessage := none }

/-- The `status: "error"` trace entry pushed before re-throwing. -/
def errTrace (id name : String) (args : JsonValue) (message : String) : ToolCallTrace :=
  { id := id, name := name, args := args, result := none, latencyMs := 0
    status := "error", errorCode := some "TOOL_EXECUTION_ERROR"
    errorMessage := some message }

/-- `result` rendered for conversation state: the raw string if the tool
returned a string, else its JSON serialization. -/
def resultAsText (jb : JsBuiltins) (result : JsonValue) : String :=
  match result with
  | JsonValue.str s => s
  | v => jb.jsonStringify v

/-! ### OpenAI adapter (`src/providers/openai.ts`) -/

/-- `parseArgs` (lines 11-20). -/
def parseArgs (jb : JsBuiltins) (raw : Option JsonValue) : JsonValue :=
  match raw with
  | some (JsonValue.str s) =>
      (match jb.jsonParse s with
       | some v => v
       | none => JsonValue.str s)
  | some v => v
  | none => JsonValue.null

/-- `toInitialInput` (lines 22-34). -/
def toInitialInput (jb : JsBuiltins) (input : JsonValue) : List JsonValue :=
  [JsonValue.obj [("role", JsonValue.str "user"),
    ("content", JsonValue.arr [JsonValue.obj [("type", JsonValue.str "input_text"),
      ("text", JsonValue.str (inputAsText jb input))]])]]

/-- `getOutputItems` (lines 36-41). -/
def getOutputItems (response : JsonValue) : List JsonValue :=
  (match jsGetProp response "output" with
   | some (JsonValue.arr xs) => xs
   | _ => []).filter isObjectLike

/-- `getFunctionCalls` (lines 43-45). -/
def getFunctionCalls (outputItems : List JsonValue) : List JsonValue :=
  outputItems.filter (fun item =>
    jsGetProp item "type" == some (JsonValue.str "function_call"))

/-- `extractOutputText` (lines 47-73). -/
def extractOutputText (response : JsonValue) : String :=
  match jsGetProp response "output_text" with
  | some (JsonValue.str s) => s
  | _ =>
      joinLinesTrim ((getOutputItems response).flatMap (fun item =>
        if jsGetProp item "type" == some (JsonValue.str "message") then
          (match jsGetProp item "content" with
           | some (JsonValue.arr blocks) => blocks
           | _ => []).filterMap (fun block =>
            match jsGetProp block "type", jsGetProp block "text" with
            | some (JsonValue.str "output_text"), some (JsonValue.str t) => some t
            | _, _ => none)
        else []))

/-- The `{type:"function_call_output", call_id, output}` item appended
after a successful tool call. -/
def functionCallOutputItem (jb : JsBuiltins) (callId : String) (result : JsonValue) :
    JsonValue :=
  JsonValue.obj [("type", JsonValue.str "function_call_output"),
    ("call_id", JsonValue.str callId),
    ("output", JsonValue.str (resultAsText jb result))]

/-- The sequential `for (const call of functionCalls)` body of the OpenAI
loop: invoke each tool, append its ok trace and conversation item, or
append the error trace and re-throw. -/
def openAiProcessCalls (jb : JsBuiltins)
    (invokeTool : ProviderToolCall → Except String InvokeToolResult) :
    List JsonValue → List ToolCallTrace → List JsonValue →
    Except (List ToolCallTrace × String) (List ToolCallTrace × List JsonValue)
  | [], trace, inputList => Except.ok (trace, inputList)
  | call :: rest, trace, inputList =>
      let callId := jsStringCoalesce (jsGetProp call "call_id") (jsGetProp call "id") "call_0"
      let toolName := jsStringOrEmpty (jsGetProp call "name")
      let args := parseArgs jb (jsGetProp call "arguments")
      match invokeTool ⟨callId, toolName, args⟩ with
      | Except.ok toolResult =>
          openAiProcessCalls jb invokeTool rest
            (trace ++ [okTrace callId toolName args toolResult.result])
            (inputList ++ [functionCallOutputItem jb callId toolResult.result])
      | Except.error message =>
          Except.error (trace ++ [errTrace callId toolName args message], message)

/-- The `while (true)` loop of `createOpenAiAdapter.invokeWithTools`
(lines 122-196), one script entry per HTTP round trip. -/
def openAiLoop (jb : JsBuiltins)
    (invokeTool : ProviderToolCall → Except String InvokeToolResult)
    (maxToolCalls : Nat) :
    List (Except String JsonValue) → List JsonValue → List ToolCallTrace → Nat →
    AdapterOutcome
  | [], _, trace, _ => AdapterOutcome.pending trace
  | Except.error httpError :: _, _, trace, _ => AdapterOutcome.failure httpError trace
  | Except.ok response :: script, inputList, trace, toolCallsUsed =>
      let outputItems := getOutputItems response
      let inputList := inputList ++ outputItems
      let functionCalls := getFunctionCalls outputItems
      if functionCalls.isEmpty then
        let finalText := extractOutputText response
        AdapterOutcome.success
          { finalText := finalText
            finalOutput := parseMaybeJson jb finalText
            usage := nullToUndef (jsGetProp response "usage")
            rawResponse := response
            toolTrace := trace }
      else if maxToolCalls < toolCallsUsed + functionCalls.length then
        AdapterOutcome.failure
          ("OpenAI tool-calling exceeded maxToolCalls=" ++ toString maxToolCalls ++ ".")
          trace
      else
        match openAiProcessCalls jb invokeTool functionCalls trace inputList with
        | Except.error (trace2, message) => AdapterOutcome.failure message trace2
        | Except.ok (trace2, inputList2) =>
            openAiLoop jb invokeTool maxToolCalls script inputList2 trace2
              (toolCallsUsed + functionCalls.length)

/-- `createOpenAiAdapter(config).invokeWithTools(req)`: missing API key
throws before the loop. -/
def openAiInvokeWithTools (jb : JsBuiltins) (apiKey : Option String) (keyEnv : String)
    (invokeTool : ProviderToolCall → Except String InvokeToolResult)
    (maxToolCalls : Nat) (input : JsonValue)
    (script : List (Except String JsonValue)) : AdapterOutcome :=
  match apiKey with
  | none =>
      AdapterOutcome.failure
        ("Missing OpenAI API key in environment variable " ++ keyEnv ++ ".") []
  | some _ => openAiLoop jb invokeTool maxToolCalls script (toInitialInput jb input) [] 0

/-! ### Anthropic adapter (`src/providers/anthropic.ts`) -/

/-- The `content` blocks of the latest response. -/
def anthropicContent (response : JsonValue) : List JsonValue :=
  match jsGetProp response "content" with
  | some (JsonValue.arr xs) => xs
  | _ => []

/-- `content.filter(object).filter(type === "tool_use")` (lines 87-90). -/
def anthropicToolUses (content : List JsonValue) : List JsonValue :=
  (content.filter isObjectLike).filter (fun item =>
    jsGetProp item "type" == some (JsonValue.str "tool_use"))

/-- `extractTextFromContent` (lines 24-36). -/
def extractTextFromContent (content : List JsonValue) : String :=
  joinLinesTrim (content.filterMap (fun item =>
    if isObjectLike item then
      match jsGetProp item "type", jsGetProp item "text" with
      | some (JsonValue.str "text"), some (JsonValue.str t) => some t
      | _, _ => none
    else none))

/-- The per-tool-use loop body (lines 117-151): accumulates the trace and
the `tool_result` blocks. -/
def anthropicProcessCalls (jb : JsBuiltins)
    (invokeTool : ProviderToolCall → Except String InvokeToolResult) :
    List JsonValue → List ToolCallTrace → List JsonValue →
    Except (List ToolCallTrace × String) (List ToolCallTrace × List JsonValue)
  | [], trace, toolResults => Except.ok (trace, toolResults)
  | toolCall :: rest, trace, toolResults =>
      let id := jsStringCoalesce (jsGetProp toolCall "id") none "call_0"
      let name := jsStringOrEmpty (jsGetProp toolCall "name")
      let args := match coalesceJs (jsGetProp toolCall "input") (some (JsonValue.obj [])) with
        | some v => v
        | none => JsonValue.obj []
      match invokeTool ⟨id, name, args⟩ with
      | Except.ok result =>
          anthropicProcessCalls jb invokeTool rest
            (trace ++ [okTrace id name args result.result])
            (toolResults ++ [JsonValue.obj [("type", JsonValue.str "tool_result"),
              ("tool_use_id", JsonValue.str id),
              ("content", JsonValue.str (resultAsText jb result.result))]])
      | Except.error message =>
          Except.error (trace ++ [errTrace id name args message], message)

/-- The `while (true)` loop of `createAnthropicAdapter.invokeWithTools`
(lines 66-157). -/
def anthropicLoop (jb : JsBuiltins)
    (invokeTool : ProviderToolCall → Except String InvokeToolResult)
    (maxToolCalls : Nat) :
    List (Except String JsonValue) → List JsonValue → List ToolCallTrace → Nat →
    AdapterOutcome
  | [], _, trace, _ => AdapterOutcome.pending trace
  | Except.error httpError :: _, _, trace, _ => AdapterOutcome.failure httpError trace
  | Except.ok response :: script, messages, trace, toolCallsUsed =>
      let content := anthropicContent response
      let toolUses := anthropicToolUses content
      if toolUses.isEmpty then
        let finalText := extractTextFromContent content
        AdapterOutcome.success
          { finalText := finalText
            finalOutput := parseMaybeJson jb finalText
            usage := nullToUndef (jsGetProp response "usage")
            rawResponse := response
            toolTrace := trace }
      else if maxToolCalls < toolCallsUsed + toolUses.length then
        AdapterOutcome.failure
          ("Anthropic tool-calling exceeded maxToolCalls=" ++ toString maxToolCalls ++ ".")
          trace
      else
        let messages := messages ++ [JsonValue.obj [("role", JsonValue.str "assistant"),
          ("content", JsonValue.arr content)]]
        match anthropicProcessCalls jb invokeTool toolUses trace [] with
        | Except.error (trace2, message) => AdapterOutcome.failure message trace2
        | Except.ok (trace2, toolResults) =>
            anthropicLoop jb invokeTool maxToolCalls script
              (messages ++ [JsonValue.obj [("role", JsonValue.str "user"),
                ("content", JsonValue.arr toolResults)]])
              trace2 (toolCallsUsed + toolUses.length)

/-- `createAnthropicAdapter(config).invokeWithTools(req)`. -/
def anthropicInvokeWithTools (jb : JsBuiltins) (apiKey : Option String) (keyEnv : String)
    (invokeTool : ProviderToolCall → Except String InvokeToolResult)
    (maxToolCalls : Nat) (input : JsonValue)
    (script : List (Except String JsonValue)) : AdapterOutcome :=
  match apiKey with
  | none =>
      AdapterOutcome.failure
        ("Missing Anthropic API key in environment variable " ++ keyEnv ++ ".") []
  | some _ =>
      anthropicLoop jb invokeTool maxToolCalls script
        [JsonValue.obj [("role", JsonValue.str "user"),
          ("content", JsonValue.arr [JsonValue.obj [("type", JsonValue.str "text"),
            ("text", JsonValue.str (inputAsText jb input))]])]]
        [] 0

/-! ### Google adapter (`src/providers/google.ts`) -/

/-- `extractParts` (lines 832-845): `candidates[0].content.parts` when
each level has the expected shape. -/
def extractParts (response : JsonValue) : List JsonValue :=
  match jsGetProp response "candidates" with
  | some (JsonValue.arr []) => []
  | some (JsonValue.arr (first :: _)) =>
      (match jsGetProp first "content" with
       | some content =>
           (match jsGetProp content "parts" with
            | some (JsonValue.arr parts) => parts
            | _ => [])
       | none => [])
  | _ => []

/-- `parts.map(p => p.functionCall).filter(object)` (lines 895-897). -/
def googleFunctionCalls (parts : List JsonValue) : List JsonValue :=
  (parts.filterMap (fun part => jsGetProp part "functionCall")).filter isObjectLike

/-- `extractText` (lines 847-853): the `text` parts joined by `"\n"` and
trimmed. -/
def googleExtractText (parts : List JsonValue) : String :=
  joinLinesTrim (parts.filterMap (fun part =>
    match jsGetProp part "text" with
    | some (JsonValue.str t) => some t
    | _ => none))

/-- The per-function-call loop body (lines 916-970): invoke, push the
trace entry, then append the `model` functionCall turn and the `user`
functionResponse turn. -/
def googleProcessCalls (invokeTool : ProviderToolCall → Except String InvokeToolResult) :
    List JsonValue → List ToolCallTrace → List JsonValue →
    Except (List ToolCallTrace × String) (List ToolCallTrace × List JsonValue)
  | [], trace, contents => Except.ok (trace, contents)
  | call :: rest, trace, contents =>
      let id := jsStringCoalesce (jsGetProp call "id") (jsGetProp call "name") "call_0"
      let name := jsStringOrEmpty (jsGetProp call "name")
      let args := match coalesceJs (jsGetProp call "args") (some (JsonValue.obj [])) with
        | some v => v
        | none => JsonValue.obj []
      match invokeTool ⟨id, name, args⟩ with
      | Except.ok result =>
          googleProcessCalls invokeTool rest
            (trace ++ [okTrace id name args result.result])
            (contents
              ++ [JsonValue.obj [("role", JsonValue.str "model"),
                    ("parts", JsonValue.arr [JsonValue.obj [("functionCall",
                      JsonValue.obj [("id", JsonValue.str id),
                        ("name", JsonValue.str name), ("args", args)])]])],
                  JsonValue.obj [("role", JsonValue.str "user"),
                    ("parts", JsonValue.arr [JsonValue.obj [("functionResponse",
                      JsonValue.obj [("name", JsonValue.str name),
                        ("response", JsonValue.obj [("result", result.result)])])]])]])
      | Except.error message =>
          Except.error (trace ++ [errTrace id name args message], message)

/-- The `while (true)` loop of `createGoogleAdapter.invokeWithTools`
(lines 880-971). -/
def googleLoop (jb : JsBuiltins)
    (invokeTool : ProviderToolCall → Except String InvokeToolResult)
    (maxToolCalls : Nat) :
    List (Except String JsonValue) → List JsonValue → List ToolCallTrace → Nat →
    AdapterOutcome
  | [], _, trace, _ => AdapterOutcome.pending trace
  | Except.error httpError :: _, _, trace, _ => AdapterOutcome.failure httpError trace
  | Except.ok response :: script, contents, trace, toolCallsUsed =>
      let parts := extractParts response
      let functionCalls := googleFunctionCalls parts
      if functionCalls.isEmpty then
        let finalText := googleExtractText parts
        AdapterOutcome.success
          { finalText := finalText
            finalOutput := parseMaybeJson jb finalText
            usage := nullToUndef (jsGetProp response "usageMetadata")
            rawResponse := response
            toolTrace := trace }
      else if maxToolCalls < toolCallsUsed + functionCalls.length then
        AdapterOutcome.failure
          ("Google tool-calling exceeded maxToolCalls=" ++ toString maxToolCalls ++ ".")
          trace
      else
        match googleProcessCalls invokeTool functionCalls trace contents with
        | Except.error (trace2, message) => AdapterOutcome.failure message trace2
        | Except.ok (trace2, contents2) =>
            googleLoop jb invokeTool maxToolCalls script contents2 trace2
              (toolCallsUsed + functionCalls.length)

/-- `createGoogleAdapter(config).invokeWithTools(req)` (the key falls
back from `keyEnv` to `GOOGLE_API_KEY`; both resolved keys are passed
here as one optional value). -/
def googleInvokeWithTools (jb : JsBuiltins) (apiKey : Option String)
    (keyEnv fallbackEnv : String)
    (invokeTool : ProviderToolCall → Except String InvokeToolResult)
    (maxToolCalls : Nat) (input : JsonValue)
    (script : List (Except String JsonValue)) : AdapterOutcome :=
  match apiKey with
  | none =>
      AdapterOutcome.failure
        ("Missing Google API key in " ++ keyEnv ++ " or " ++ fallbackEnv ++ ".") []
  | some _ =>
      googleLoop jb invokeTool maxToolCalls script
        [JsonValue.obj [("role", JsonValue.str "user"),
          ("parts", JsonValue.arr [JsonValue.obj [("text",
            JsonValue.str (inputAsText jb input))]])]]
        [] 0

/-! ## Bounded concurrency pool (`runPool`, `src/utils.ts` lines 99-124)

`runPool` spawns `min(max(1, ⌊concurrency⌋), |items|)` copies of the same
async closure `next()`, which atomically claims `cursor` (read, then
increment — synchronous, so atomic on the JS event loop), awaits the
worker on the claimed item, writes the result at the claimed index, and
recurses. The workers are identical closures, so the pool state tracks
how many are about to claim (`ready`), which indexes are being awaited
(`waiting`), and how many have finished (`done`); a schedule is the
nondeterministic order in which the event loop lets claims and promise
resolutions run. The worker function is pure (`f item index`), its
completion time environmental. -/

inductive PoolChoice where
  | claim
  | resolve (i : Nat)

structure PoolState (U : Type) where
  cursor : Nat
  results : List (Option U)
  writes : List Nat
  ready : Nat
  waiting : List Nat
  done : Nat
deriving Repr

/-- The state just after `runPool` has spawned its workers: `results` is
the preallocated array, nothing claimed yet. -/
def initPool (U : Type) {T : Type} (items : List T) (c : Nat) : PoolState U :=
  { cursor := 0
    results := List.replicate items.length none
    writes := List.replicate items.length 0
    ready := min (max 1 c) items.length
    waiting := []
    done := 0 }

/-- One scheduler step: a ready worker runs `next()` up to its await
(claiming `cursor`, finishing when the claimed index is past the end), or
the awaited promise for index `i` resolves (the worker writes
`results[index]` and recurses into `next()`). -/
def poolStep {T U : Type} (items : List T) (f : T → Nat → U) (s : PoolState U) :
    PoolChoice → Option (PoolState U)
  | PoolChoice.claim =>
      if s.ready = 0 then none
      else if s.cursor < items.length then
        some { s with
          cursor := s.cursor + 1
          ready := s.ready - 1
          waiting := s.waiting ++ [s.cursor] }
      else
        some { s with
          cursor := s.cursor + 1
          ready := s.ready - 1
          done := s.done + 1 }
  | PoolChoice.resolve i =>
      if i ∈ s.waiting then
        match items[i]? with
        | some item =>
            some { s with
              results := s.results.set i (some (f item i))
              writes := s.writes.set i (s.writes.getD i 0 + 1)
              ready := s.ready + 1
              waiting := s.waiting.erase i }
        | none => none
      else none

/-- Run a schedule to completion; `none` = the schedule picked an
impossible step. -/
def runPoolSteps {T U : Type} (items : List T) (f : T → Nat → U) :
    PoolState U → List PoolChoice → Option (PoolState U)
  | s, [] => some s
  | s, ch :: rest =>
      match poolStep items f s ch with
      | some s2 => runPoolSteps items f s2 rest
      | none => none

/-- All workers have returned (`Promise.all` resolved): none ready, none
awaited. -/
def poolDone {U : Type} (s : PoolState U) : Prop := s.ready = 0 ∧ s.waiting = []

/-! ## Theorems -/

theorem getByPathTokens_append (v : JsonValue) (ts₁ ts₂ : List String) :
    getByPathTokens v (ts₁ ++ ts₂)
      = (getByPathTokens v ts₁).bind (fun w => getByPathTokens w ts₂) := by
  induction ts₁ generalizing v with
  | nil => simp [getByPathTokens]
  | cons t ts ih =>
      cases v with
      | obj fields =>
          simp only [List.cons_append, getByPathTokens]
          cases objLookup fields t with
          | none => simp
          | some next => simpa using ih next
      | null => simp [getByPathTokens]
      | bool b => simp [getByPathTokens]
      | num n => simp [getByPathTokens]
      | str s => simp [getByPathTokens]
      | arr items => simp [getByPathTokens]

/-- C9: `getByPath` splits the path on `'.'` discarding empty tokens; a
non-empty token list against `null`, a primitive, or an array yields
`undefined` immediately; consequently a path that reaches an array with
tokens still remaining resolves to `undefined` (arrays are never indexed
into). -/
theorem getByPath_spec :
    (∀ (v : JsonValue) (p : String),
        getByPath v p
          = getByPathTokens v
              (((splitDotChars p.toList).map List.asString).filter (fun t => t ≠ ""))) ∧
    (∀ (v : JsonValue) (t : String) (ts : List String),
        (∀ fields, v ≠ JsonValue.obj fields) → getByPathTokens v (t :: ts) = none) ∧
    (∀ (v : JsonValue) (ts₁ ts₂ : List String) (xs : List JsonValue),
        getByPathTokens v ts₁ = some (JsonValue.arr xs) → ts₂ ≠ [] →
        getByPathTokens v (ts₁ ++ ts₂) = none) := by
  refine ⟨fun v p => rfl, ?_, ?_⟩
  · intro v t ts hne
    cases v with
    | obj fields => exact absurd rfl (hne fields)
    | null => rfl
    | bool b => rfl
    | num n => rfl
    | str s => rfl
    | arr items => rfl
  · intro v ts₁ ts₂ xs h hne
    rw [getByPathTokens_append, h]
    cases ts₂ with
    | nil => exact absurd rfl hne
    | cons t ts => rfl

/-- Witness for `getByPath_spec` at concrete inputs: the object
`{a: {b: [1]}}` with path `"a.b.c"` descends to an array and resolves to
`undefined`. -/
theorem getByPath_spec_witness :
    getByPath (JsonValue.obj [("a", JsonValue.obj [("b", JsonValue.arr [JsonValue.num 1])])])
        "a.b.c" = none ∧
    getByPathTokens (JsonValue.arr [JsonValue.num 1]) ["c"] = none ∧
    getByPathTokens (JsonValue.obj [("a", JsonValue.obj [("b", JsonValue.arr [JsonValue.num 1])])])
        (["a", "b"] ++ ["c"]) = none := by
  refine ⟨rfl, ?_, ?_⟩
  · exact (getByPath_spec).2.1 (JsonValue.arr [JsonValue.num 1]) "c" []
      (fun fields h => by cases h)
  · exact (getByPath_spec).2.2
      (JsonValue.obj [("a", JsonValue.obj [("b", JsonValue.arr [JsonValue.num 1])])])
      ["a", "b"] ["c"] [JsonValue.num 1] rfl (by decide)

/-- C1: in every `CaseResult` built by the per-case pipeline of
`runSuite`, `status = pass` iff `schemaValid ∧ assertionsPassed`;
`status = error` iff the pipeline threw before producing an output, in
which case `output` and `redactedOutput` are `null`, `schemaValid` and
`assertionsPassed` are `false`, and `errors` is the single string
`"<errorCode>:<message>"`; in every other case `status = fail`. -/
theorem runCase_status_spec (hash : String → String)
    (validate : JsonValue → SchemaValidationResult)
    (regexTest : String → String → Bool) (spec : AssertionSpec)
    (redactInReports : Bool) (includeToolTrace : Option Bool)
    (providerId model : String) (item : EvalCase)
    (outcome : Except ThrownError ProviderSuccess) :
    ((runCase hash validate regexTest spec redactInReports includeToolTrace
        providerId model item outcome).status = CaseStatus.pass ↔
      (runCase hash validate regexTest spec redactInReports includeToolTrace
        providerId model item outcome).schemaValid = true ∧
      (runCase hash validate regexTest spec redactInReports includeToolTrace
        providerId model item outcome).assertionsPassed = true) ∧
    ((runCase hash validate regexTest spec redactInReports includeToolTrace
        providerId model item outcome).status = CaseStatus.error ↔
      ∃ e, outcome = Except.error e) ∧
    (∀ e, outcome = Except.error e →
      (runCase hash validate regexTest spec redactInReports includeToolTrace
        providerId model item outcome).output = JsonValue.null ∧
      (runCase hash validate regexTest spec redactInReports includeToolTrace
        providerId model item outcome).redactedOutput = JsonValue.null ∧
      (runCase hash validate regexTest spec redactInReports includeToolTrace
        providerId model item outcome).schemaValid = false ∧
      (runCase hash validate regexTest spec redactInReports includeToolTrace
        providerId model item outcome).assertionsPassed = false ∧
      (runCase hash validate regexTest spec redactInReports includeToolTrace
        providerId model item outcome).errors
        = [thrownCode e ++ ":" ++ thrownMessage e]) ∧
    ((runCase hash validate regexTest spec redactInReports includeToolTrace
        providerId model item outcome).status ≠ CaseStatus.pass →
      (runCase hash validate regexTest spec redactInReports includeToolTrace
        providerId model item outcome).status ≠ CaseStatus.error →
      (runCase hash validate regexTest spec redactInReports includeToolTrace
        providerId model item outcome).status = CaseStatus.fail) := by
  cases outcome with
  | ok response =>
      have hred : ∀ st : CaseStatus,
          (runCase hash validate regexTest spec redactInReports includeToolTrace
            providerId model item (Except.ok response)).status = st ↔
          (if (validate response.finalOutput).valid
              && (evaluateAssertions regexTest response.finalOutput item.expected spec).passed
            then CaseStatus.pass else CaseStatus.fail) = st := fun _ => Iff.rfl
      by_cases h : ((validate response.finalOutput).valid
          && (evaluateAssertions regexTest response.finalOutput item.expected spec).passed)
          = true
      · have hparts : (validate response.finalOutput).valid = true ∧
            (evaluateAssertions regexTest response.finalOutput item.expected spec).passed
              = true := by simpa using h
        refine ⟨?_, ?_, ?_, ?_⟩
        · rw [hred, if_pos h]
          exact iff_of_true rfl hparts
        · rw [hred, if_pos h]
          constructor
          · intro hcontra
            cases hcontra
          · rintro ⟨e, he⟩
            cases he
        · intro e he
          cases he
        · intro hp _
          exact absurd ((hred CaseStatus.pass).mpr (by rw [if_pos h])) hp
      · refine ⟨?_, ?_, ?_, ?_⟩
        · rw [hred, if_neg h]
          constructor
          · intro hcontra
            cases hcontra
          · intro hrhs
            have h1 : (validate response.finalOutput).valid = true := hrhs.1
            have h2 : (evaluateAssertions regexTest response.finalOutput
                item.expected spec).passed = true := hrhs.2
            exact absurd (by simp [h1, h2]) h
        · rw [hred, if_neg h]
          constructor
          · intro hcontra
            cases hcontra
          · rintro ⟨e, he⟩
            cases he
        · intro e he
          cases he
        · intro _ _
          rw [hred, if_neg h]
  | error e =>
      refine ⟨?_, ?_, ?_, ?_⟩
      · constructor
        · intro h
          cases h
        · intro hrhs
          cases hrhs.1
      · exact iff_of_true rfl ⟨e, rfl⟩
      · intro e2 he2
        cases he2
        exact ⟨rfl, rfl, rfl, rfl, rfl⟩
      · intro _ herr
        exact absurd rfl herr

theorem hasKey_iff (fields : List (String × JsonValue)) (key : String) :
    hasKey fields key = true ↔ key ∈ objKeys fields := by
  constructor
  · intro h
    obtain ⟨kv, hkv, hk⟩ := List.any_eq_true.mp h
    exact List.mem_map.mpr ⟨kv, hkv, of_decide_eq_true hk⟩
  · intro h
    obtain ⟨kv, hkv, hk⟩ := List.mem_map.mp h
    exact List.any_eq_true.mpr ⟨kv, hkv, decide_eq_true hk⟩

/-- C2: `evaluateAssertions` computes `missingKeys` as the required keys
not present at the top level of the output (non-objects behaving as the
empty object), `unexpectedKeys` as the top-level output keys outside
`requiredKeys ∪ variableFields ∪ keys(fieldMatchers)` when
`allowAdditionalKeys` is false and `[]` when it is true, and `passed` as
the conjunction of no missing keys, no unexpected keys, and every
field-matcher check passing. -/
theorem evaluateAssertions_spec (regexTest : String → String → Bool)
    (output expectedOutput : JsonValue) (spec : AssertionSpec) :
    (evaluateAssertions regexTest output expectedOutput spec).missingKeys
        = spec.requiredKeys.filter (fun key => decide (key ∉ objKeys (asObject output))) ∧
    (evaluateAssertions regexTest output expectedOutput spec).unexpectedKeys
        = (if spec.allowAdditionalKeys then []
          else (objKeys (asObject output)).filter (fun key =>
            decide (key ∉ spec.requiredKeys ∧ key ∉ spec.variableFields ∧
              key ∉ spec.fieldMatchers.map Prod.fst))) ∧
    ((evaluateAssertions regexTest output expectedOutput spec).passed = true ↔
      (evaluateAssertions regexTest output expectedOutput spec).missingKeys = [] ∧
      (evaluateAssertions regexTest output expectedOutput spec).unexpectedKeys = [] ∧
      ∀ c ∈ (evaluateAssertions regexTest output expectedOutput spec).checks,
        c.passed = true) := by
  refine ⟨?_, ?_, ?_⟩
  · show spec.requiredKeys.filter (fun key => ¬ hasKey (asObject output) key) = _
    apply List.filter_congr
    intro k _
    rw [decide_eq_decide]
    exact not_congr (hasKey_iff _ _)
  · show (if spec.allowAdditionalKeys then []
        else (objKeys (asObject output)).filter (fun key =>
          ¬ (spec.requiredKeys ++ spec.variableFields
              ++ spec.fieldMatchers.map (fun kv => kv.1)).contains key)) = _
    by_cases ha : spec.allowAdditionalKeys
    · simp [ha]
    · simp only [ha, if_neg, Bool.false_eq_true, not_false_eq_true]
      apply List.filter_congr
      intro k _
      rw [decide_eq_decide]
      rw [List.contains, List.elem_eq_mem, decide_eq_true_eq]
      simp [List.mem_append, not_or, and_assoc]
  · simp only [evaluateAssertions, Bool.and_eq_true, List.isEmpty_iff,
      List.all_eq_true, and_assoc]

/-- C3 as stated is false on the code: with `matcher.value` undefined and
`matcher.expectedPath = "foo"` (defined but not starting with
`$expected.`), `resolveExpectedValue` resolves `"foo"` against `expected`,
not the matcher's own field path `"baz"` as the claim requires. -/
theorem resolveExpectedValue_c3_counterexample :
    (FieldMatcher.mk "equals" none (some "foo")).value = none ∧
    ("$expected.".toList.isPrefixOf "foo".toList) = false ∧
    resolveExpectedValue (FieldMatcher.mk "equals" none (some "foo")) "baz"
        (JsonValue.obj [("foo", JsonValue.num 1), ("baz", JsonValue.num 2)])
      = some (JsonValue.num 1) ∧
    getByPath (JsonValue.obj [("foo", JsonValue.num 1), ("baz", JsonValue.num 2)]) "baz"
      = some (JsonValue.num 2) ∧
    resolveExpectedValue (FieldMatcher.mk "equals" none (some "foo")) "baz"
        (JsonValue.obj [("foo", JsonValue.num 1), ("baz", JsonValue.num 2)])
      ≠ getByPath (JsonValue.obj [("foo", JsonValue.num 1), ("baz", JsonValue.num 2)]) "baz" := by
  refine ⟨rfl, rfl, rfl, rfl, ?_⟩
  intro h
  have h1 : some (JsonValue.num 1) = some (JsonValue.num 2) := h
  injection h1 with h2
  injection h2 with h3
  exact absurd h3 (by decide)

/-- C3 amended: when `matcher.value` is undefined, a defined non-empty
`expectedPath` is resolved against `expected` after stripping one leading
`$expected.` prefix if present (an unprefixed `expectedPath` is used
as-is); only an undefined or empty `expectedPath` falls back to resolving
the matcher's own field path against `expected`. -/
theorem resolveExpectedValue_amended (m : FieldMatcher) (field : String) (e : JsonValue)
    (hv : m.value = none) :
    (∀ p, m.expectedPath = some p → p ≠ "" →
        resolveExpectedValue m field e = getByPath e (stripExpectedPrefix p)) ∧
    (m.expectedPath = none ∨ m.expectedPath = some "" →
        resolveExpectedValue m field e = getByPath e field) := by
  constructor
  · intro p hp hne
    simp [resolveExpectedValue, hv, hp, hne]
  · rintro (hp | hp) <;> simp [resolveExpectedValue, hv, hp]

/-- Witness for `resolveExpectedValue_amended` at a concrete matcher with
a `$expected.`-prefixed path. -/
theorem resolveExpectedValue_amended_witness :
    resolveExpectedValue (FieldMatcher.mk "equals" none (some "$expected.foo")) "baz"
        (JsonValue.obj [("foo", JsonValue.num 1)])
      = getByPath (JsonValue.obj [("foo", JsonValue.num 1)])
          (stripExpectedPrefix "$expected.foo") :=
  (resolveExpectedValue_amended (FieldMatcher.mk "equals" none (some "$expected.foo"))
      "baz" (JsonValue.obj [("foo", JsonValue.num 1)]) rfl).1
    "$expected.foo" rfl (by decide)

theorem find?_map_replace (m : List (String × RunCaseResult)) (k : String)
    (v : RunCaseResult) (id : String) :
    (m.map (fun kv => if kv.1 = k then (k, v) else kv)).find? (fun kv => kv.1 = id)
      = if id = k then (if m.any (fun kv => kv.1 = k) then some (k, v) else none)
        else m.find? (fun kv => kv.1 = id) := by
  induction m with
  | nil => by_cases h : id = k <;> simp [h]
  | cons a m ih =>
      simp only [List.map_cons, List.any_cons]
      by_cases hak : a.1 = k
      · by_cases hid : id = k
        · simp [hak, hid]
        · have hne : ¬ (k = id) := fun hc => hid hc.symm
          rw [if_pos hak, List.find?_cons_of_neg _ (by simpa using hne),
            List.find?_cons_of_neg _ (by simpa using fun hc => hne (hak ▸ hc)), ih,
            if_neg hid, if_neg hid]
      · rw [if_neg hak]
        by_cases haid : a.1 = id
        · have hid : ¬ id = k := fun hc => hak (by rw [haid, hc])
          rw [List.find?_cons_of_pos _ (by simpa using haid), if_neg hid,
            List.find?_cons_of_pos _ (by simpa using haid)]
        · rw [List.find?_cons_of_neg _ (by simpa using haid),
            List.find?_cons_of_neg _ (by simpa using haid), ih]
          by_cases hid : id = k
          · rw [if_pos hid, if_pos hid]
            by_cases hm : (m.any fun kv => decide (kv.1 = k)) = true
            · rw [if_pos hm, if_pos (by simp [hm])]
            · have hcond : ¬ ((decide (a.1 = k) || m.any fun kv => decide (kv.1 = k))
                  = true) := by
                simp only [Bool.or_eq_true, decide_eq_true_eq]
                rintro (hc | hc)
                · exact hak hc
                · exact hm hc
              rw [if_neg hm, if_neg hcond]
          · rw [if_neg hid, if_neg hid]

theorem mapGet_mapSet (m : List (String × RunCaseResult)) (k : String)
    (v : RunCaseResult) (id : String) :
    mapGet (mapSet m k v) id = if id = k then some v else mapGet m id := by
  unfold mapSet
  by_cases hany : (m.any fun kv => decide (kv.1 = k)) = true
  · rw [if_pos hany]
    unfold mapGet
    rw [find?_map_replace]
    by_cases hid : id = k
    · rw [if_pos hid, if_pos hany, if_pos hid]
      rfl
    · rw [if_neg hid, if_neg hid]
  · rw [if_neg hany]
    unfold mapGet
    rw [List.find?_append]
    have hsingle : List.find? (fun kv => decide (kv.1 = id)) [(k, v)]
        = if id = k then some (k, v) else none := by
      by_cases hid : id = k
      · rw [if_pos hid, List.find?_cons_of_pos _ (by simp [hid])]
      · rw [if_neg hid,
          List.find?_cons_of_neg _ (by simpa using fun hc => hid hc.symm)]
        rfl
    rw [hsingle]
    by_cases hid : id = k
    · have hnone : m.find? (fun kv => decide (kv.1 = id)) = none := by
        rw [List.find?_eq_none]
        intro x hx hpx
        simp only [decide_eq_true_eq] at hpx
        exact hany (List.any_eq_true.mpr ⟨x, hx, by
          simp only [decide_eq_true_eq]
          rw [hpx, hid]⟩)
      rw [hnone, if_pos hid, if_pos hid]
      rfl
    · rw [if_neg hid, if_neg hid]
      simp

theorem mapGet_foldl (cases : List RunCaseResult) (m : List (String × RunCaseResult))
    (id : String) :
    mapGet (cases.foldl (fun acc item => mapSet acc item.hashedCaseId item) m) id
      = ((cases.reverse.find? (fun c => c.hashedCaseId = id)).map (fun c => c)).or
          (mapGet m id) := by
  induction cases generalizing m with
  | nil => simp
  | cons c cs ih =>
      simp only [List.foldl_cons, List.reverse_cons, List.find?_append]
      rw [ih, mapGet_mapSet]
      cases hX : cs.reverse.find? (fun x => x.hashedCaseId = id) with
      | some x => simp
      | none =>
          simp only [Option.map_none, Option.none_or, Option.map_some, id_eq]
          by_cases hc : c.hashedCaseId = id
          · rw [List.find?_cons_of_pos _ (by simpa using hc), if_pos hc.symm]
            simp
          · rw [List.find?_cons_of_neg _ (by simpa using hc),
              if_neg (fun hc2 => hc hc2.symm)]
            simp

theorem mapGet_buildCaseMap (cases : List RunCaseResult) (id : String) :
    mapGet (buildCaseMap cases) id
      = cases.reverse.find? (fun c => c.hashedCaseId = id) := by
  have h := mapGet_foldl cases [] id
  simp only [buildCaseMap] at *
  rw [h]
  simp [mapGet, List.find?]

theorem mem_mapKeys_mapSet (m : List (String × RunCaseResult)) (k : String)
    (v : RunCaseResult) (x : String) :
    x ∈ mapKeys (mapSet m k v) ↔ x ∈ mapKeys m ∨ x = k := by
  unfold mapSet mapKeys
  by_cases hany : m.any (fun kv => kv.1 = k) = true
  · rw [if_pos hany]
    have hkeys : (m.map (fun kv => if kv.1 = k then (k, v) else kv)).map (fun kv => kv.1)
        = m.map (fun kv => kv.1) := by
      rw [List.map_map]
      apply List.map_congr_left
      intro kv _
      by_cases hkv : kv.1 = k <;> simp [hkv]
    rw [hkeys]
    constructor
    · exact Or.inl
    · rintro (h | rfl)
      · exact h
      · obtain ⟨kv, hkv, hp⟩ := List.any_eq_true.mp hany
        exact List.mem_map.mpr ⟨kv, hkv, of_decide_eq_true hp⟩
  · rw [if_neg hany]
    simp

theorem mem_mapKeys_buildCaseMap (cases : List RunCaseResult) (x : String) :
    x ∈ mapKeys (buildCaseMap cases) ↔ x ∈ cases.map (fun c => c.hashedCaseId) := by
  suffices h : ∀ (cs : List RunCaseResult) (m : List (String × RunCaseResult)),
      x ∈ mapKeys (cs.foldl (fun acc item => mapSet acc item.hashedCaseId item) m)
        ↔ x ∈ mapKeys m ∨ x ∈ cs.map (fun c => c.hashedCaseId) by
    have := h cases []
    simpa [buildCaseMap, mapKeys] using this
  intro cs
  induction cs with
  | nil => simp
  | cons c rest ih =>
      intro m
      simp only [List.foldl_cons, List.map_cons, List.mem_cons]
      rw [ih, mem_mapKeys_mapSet]
      tauto

theorem mem_setAddFold (l acc : List String) (x : String) :
    x ∈ l.foldl setAdd acc ↔ x ∈ acc ∨ x ∈ l := by
  induction l generalizing acc with
  | nil => simp
  | cons a rest ih =>
      simp only [List.foldl_cons, List.mem_cons]
      rw [ih]
      unfold setAdd
      by_cases ha : a ∈ acc
      · rw [if_pos ha]
        constructor
        · rintro (h | h)
          · exact Or.inl h
          · exact Or.inr (Or.inr h)
        · rintro (h | rfl | h)
          · exact Or.inl h
          · exact Or.inl ha
          · exact Or.inr h
      · rw [if_neg ha]
        simp only [List.mem_append, List.mem_singleton]
        tauto

theorem nodup_setAddFold (l acc : List String) (h : acc.Nodup) :
    (l.foldl setAdd acc).Nodup := by
  induction l generalizing acc with
  | nil => exact h
  | cons a rest ih =>
      simp only [List.foldl_cons]
      apply ih
      unfold setAdd
      by_cases ha : a ∈ acc
      · rwa [if_pos ha]
      · rw [if_neg ha, List.nodup_append]
        refine ⟨h, List.nodup_singleton a, ?_⟩
        intro x hx hxa
        rw [List.mem_singleton] at hxa
        subst hxa
        exact ha hx

theorem mem_buildSet (l : List String) (x : String) : x ∈ buildSet l ↔ x ∈ l := by
  unfold buildSet
  rw [mem_setAddFold]
  simp

theorem nodup_buildSet (l : List String) : (buildSet l).Nodup :=
  nodup_setAddFold l [] List.nodup_nil

/-- The effect of the classification loop: regressions and improvements
are the order-preserving selections of ids at which both lookups succeed
and the ranks regress resp. improve, and `unchanged` counts the ids at
which both lookups give equal statuses. -/
theorem diffLoop_eq (bmap cmap : List (String × RunCaseResult)) (ids : List String) :
    diffLoop bmap cmap ids =
      (ids.filterMap (fun id => match mapGet bmap id, mapGet cmap id with
          | some left, some right =>
              if left.status = right.status then none
              else if statusRank right.status < statusRank left.status then
                some (DiffEntry.mk id left.status right.status)
              else none
          | _, _ => none),
       ids.filterMap (fun id => match mapGet bmap id, mapGet cmap id with
          | some left, some right =>
              if left.status = right.status then none
              else if statusRank right.status < statusRank left.status then none
              else some (DiffEntry.mk id left.status right.status)
          | _, _ => none),
       ids.countP (fun id => match mapGet bmap id, mapGet cmap id with
          | some left, some right => left.status = right.status
          | _, _ => false)) := by
  induction ids with
  | nil => rfl
  | cons id rest ih =>
      unfold diffLoop
      rw [ih]
      cases hb : mapGet bmap id with
      | none =>
          cases hc : mapGet cmap id <;>
            simp [List.filterMap_cons, List.countP_cons, hb, hc]
      | some left =>
          cases hc : mapGet cmap id with
          | none => simp [List.filterMap_cons, List.countP_cons, hb, hc]
          | some right =>
              by_cases heq : left.status = right.status
              · simp [List.filterMap_cons, List.countP_cons, hb, hc, heq]
              · by_cases hrank : statusRank right.status < statusRank left.status <;>
                  simp [List.filterMap_cons, List.countP_cons, hb, hc, heq, hrank]

theorem lastWinsStatus_eq (cases : List RunCaseResult) (id : String) :
    lastWinsStatus cases id
      = (mapGet (buildCaseMap cases) id).map (fun c => c.status) := by
  rw [mapGet_buildCaseMap]
  rfl

theorem lastWins_mem (cases : List RunCaseResult) (id : String) (c : RunCaseResult)
    (h : cases.reverse.find? (fun x => x.hashedCaseId = id) = some c) :
    id ∈ cases.map (fun x => x.hashedCaseId) := by
  have hmem := List.mem_of_find?_eq_some h
  have hpred := List.find?_some h
  rw [List.mem_reverse] at hmem
  simp only [decide_eq_true_eq] at hpred
  exact List.mem_map.mpr ⟨c, hmem, hpred⟩

theorem mapGet_some_mem (cases : List RunCaseResult) (id : String) (c : RunCaseResult)
    (h : mapGet (buildCaseMap cases) id = some c) :
    id ∈ cases.map (fun x => x.hashedCaseId) := by
  rw [mapGet_buildCaseMap] at h
  exact lastWins_mem cases id c h

theorem mem_ids_iff (baseline candidate : RunReport) (x : String) :
    x ∈ buildSet (mapKeys (buildCaseMap baseline.cases)
        ++ mapKeys (buildCaseMap candidate.cases))
      ↔ x ∈ baseline.cases.map (fun c => c.hashedCaseId)
        ∨ x ∈ candidate.cases.map (fun c => c.hashedCaseId) := by
  rw [mem_buildSet, List.mem_append, mem_mapKeys_buildCaseMap, mem_mapKeys_buildCaseMap]

theorem ids_toFinset (baseline candidate : RunReport) :
    (buildSet (mapKeys (buildCaseMap baseline.cases)
        ++ mapKeys (buildCaseMap candidate.cases))).toFinset
      = caseIdFinset baseline ∪ caseIdFinset candidate := by
  ext x
  rw [List.mem_toFinset, mem_ids_iff]
  simp [caseIdFinset]

theorem diffRuns_regressions_iff (baseline candidate : RunReport) (e : DiffEntry) :
    e ∈ (diffRuns baseline candidate).regressions ↔
      lastWinsStatus baseline.cases e.hashedCaseId = some e.baselineStatus ∧
      lastWinsStatus candidate.cases e.hashedCaseId = some e.candidateStatus ∧
      statusRank e.candidateStatus < statusRank e.baselineStatus := by
  obtain ⟨eid, ebs, ecs⟩ := e
  have h1 : (diffRuns baseline candidate).regressions
      = (diffLoop (buildCaseMap baseline.cases) (buildCaseMap candidate.cases)
          (buildSet (mapKeys (buildCaseMap baseline.cases)
            ++ mapKeys (buildCaseMap candidate.cases)))).1 := rfl
  rw [h1, diffLoop_eq, List.mem_filterMap]
  constructor
  · rintro ⟨id, hid, hf⟩
    cases hbl : mapGet (buildCaseMap baseline.cases) id with
    | none =>
        rw [hbl] at hf
        exact Option.noConfusion
          (show (none : Option DiffEntry) = some ⟨eid, ebs, ecs⟩ from hf)
    | some left =>
        cases hcl : mapGet (buildCaseMap candidate.cases) id with
        | none =>
            rw [hbl, hcl] at hf
            exact Option.noConfusion
              (show (none : Option DiffEntry) = some ⟨eid, ebs, ecs⟩ from hf)
        | some right =>
            rw [hbl, hcl] at hf
            have hf2 : (if left.status = right.status then (none : Option DiffEntry)
                else if statusRank right.status < statusRank left.status then
                  some ⟨id, left.status, right.status⟩
                else none) = some ⟨eid, ebs, ecs⟩ := hf
            by_cases heq : left.status = right.status
            · rw [if_pos heq] at hf2
              cases hf2
            · by_cases hrank : statusRank right.status < statusRank left.status
              · rw [if_neg heq, if_pos hrank] at hf2
                injection hf2 with hf2
                cases hf2
                refine ⟨?_, ?_, hrank⟩
                · rw [lastWinsStatus_eq, hbl]
                  rfl
                · rw [lastWinsStatus_eq, hcl]
                  rfl
              · rw [if_neg heq, if_neg hrank] at hf2
                cases hf2
  · rintro ⟨hb, hc, hrank⟩
    simp only [lastWinsStatus_eq] at hb hc
    cases hbl : mapGet (buildCaseMap baseline.cases) eid with
    | none => rw [hbl] at hb; cases hb
    | some left =>
        cases hcl : mapGet (buildCaseMap candidate.cases) eid with
        | none => rw [hcl] at hc; cases hc
        | some right =>
            rw [hbl] at hb
            rw [hcl] at hc
            have hb2 : left.status = ebs := Option.some.inj hb
            have hc2 : right.status = ecs := Option.some.inj hc
            refine ⟨eid, ?_, ?_⟩
            · rw [mem_ids_iff]
              exact Or.inl (mapGet_some_mem _ _ _ hbl)
            · rw [hbl, hcl]
              show (if left.status = right.status then (none : Option DiffEntry)
                else if statusRank right.status < statusRank left.status then
                  some ⟨eid, left.status, right.status⟩
                else none) = some ⟨eid, ebs, ecs⟩
              have hne : ¬ left.status = right.status := by
                intro hcontra
                rw [hb2, hc2] at hcontra
                rw [hcontra] at hrank
                exact lt_irrefl _ hrank
              rw [if_neg hne, if_pos (by rw [hb2, hc2]; exact hrank), hb2, hc2]

theorem diffRuns_improvements_iff (baseline candidate : RunReport) (e : DiffEntry) :
    e ∈ (diffRuns baseline candidate).improvements ↔
      lastWinsStatus baseline.cases e.hashedCaseId = some e.baselineStatus ∧
      lastWinsStatus candidate.cases e.hashedCaseId = some e.candidateStatus ∧
      e.baselineStatus ≠ e.candidateStatus ∧
      ¬ statusRank e.candidateStatus < statusRank e.baselineStatus := by
  obtain ⟨eid, ebs, ecs⟩ := e
  have h1 : (diffRuns baseline candidate).improvements
      = (diffLoop (buildCaseMap baseline.cases) (buildCaseMap candidate.cases)
          (buildSet (mapKeys (buildCaseMap baseline.cases)
            ++ mapKeys (buildCaseMap candidate.cases)))).2.1 := rfl
  rw [h1, diffLoop_eq, List.mem_filterMap]
  constructor
  · rintro ⟨id, hid, hf⟩
    cases hbl : mapGet (buildCaseMap baseline.cases) id with
    | none =>
        rw [hbl] at hf
        exact Option.noConfusion
          (show (none : Option DiffEntry) = some ⟨eid, ebs, ecs⟩ from hf)
    | some left =>
        cases hcl : mapGet (buildCaseMap candidate.cases) id with
        | none =>
            rw [hbl, hcl] at hf
            exact Option.noConfusion
              (show (none : Option DiffEntry) = some ⟨eid, ebs, ecs⟩ from hf)
        | some right =>
            rw [hbl, hcl] at hf
            have hf2 : (if left.status = right.status then (none : Option DiffEntry)
                else if statusRank right.status < statusRank left.status then none
                else some ⟨id, left.status, right.status⟩) = some ⟨eid, ebs, ecs⟩ := hf
            by_cases heq : left.status = right.status
            · rw [if_pos heq] at hf2
              cases hf2
            · by_cases hrank : statusRank right.status < statusRank left.status
              · rw [if_neg heq, if_pos hrank] at hf2
                cases hf2
              · rw [if_neg heq, if_neg hrank] at hf2
                injection hf2 with hf2
                cases hf2
                refine ⟨?_, ?_, heq, hrank⟩
                · rw [lastWinsStatus_eq, hbl]
                  rfl
                · rw [lastWinsStatus_eq, hcl]
                  rfl
  · rintro ⟨hb, hc, hne, hrank⟩
    simp only [lastWinsStatus_eq] at hb hc
    cases hbl : mapGet (buildCaseMap baseline.cases) eid with
    | none => rw [hbl] at hb; cases hb
    | some left =>
        cases hcl : mapGet (buildCaseMap candidate.cases) eid with
        | none => rw [hcl] at hc; cases hc
        | some right =>
            rw [hbl] at hb
            rw [hcl] at hc
            have hb2 : left.status = ebs := Option.some.inj hb
            have hc2 : right.status = ecs := Option.some.inj hc
            refine ⟨eid, ?_, ?_⟩
            · rw [mem_ids_iff]
              exact Or.inl (mapGet_some_mem _ _ _ hbl)
            · rw [hbl, hcl]
              show (if left.status = right.status then (none : Option DiffEntry)
                else if statusRank right.status < statusRank left.status then none
                else some ⟨eid, left.status, right.status⟩) = some ⟨eid, ebs, ecs⟩
              rw [if_neg (by rw [hb2, hc2]; exact hne),
                if_neg (by rw [hb2, hc2]; exact hrank), hb2, hc2]

theorem diffRuns_unchanged_eq (baseline candidate : RunReport) :
    (diffRuns baseline candidate).unchanged
      = ((caseIdFinset baseline ∪ caseIdFinset candidate).filter (fun id =>
          (lastWinsStatus baseline.cases id).isSome ∧
          lastWinsStatus baseline.cases id = lastWinsStatus candidate.cases id)).card := by
  have h1 : (diffRuns baseline candidate).unchanged
      = (diffLoop (buildCaseMap baseline.cases) (buildCaseMap candidate.cases)
          (buildSet (mapKeys (buildCaseMap baseline.cases)
            ++ mapKeys (buildCaseMap candidate.cases)))).2.2 := rfl
  rw [h1, diffLoop_eq]
  dsimp only
  rw [List.countP_eq_length_filter]
  have hnodup := nodup_buildSet (mapKeys (buildCaseMap baseline.cases)
    ++ mapKeys (buildCaseMap candidate.cases))
  rw [← List.toFinset_card_of_nodup (hnodup.filter _), List.toFinset_filter,
    ids_toFinset]
  congr 1
  apply Finset.filter_congr
  intro id _
  cases hbl : mapGet (buildCaseMap baseline.cases) id with
  | none => simp [hbl, lastWinsStatus_eq]
  | some left =>
      cases hcl : mapGet (buildCaseMap candidate.cases) id with
      | none => simp [hbl, hcl, lastWinsStatus_eq]
      | some right => simp [hbl, hcl, lastWinsStatus_eq]

theorem diffRuns_totalCompared_eq (baseline candidate : RunReport) :
    (diffRuns baseline candidate).totalCompared
      = (caseIdFinset baseline ∪ caseIdFinset candidate).card := by
  have h1 : (diffRuns baseline candidate).totalCompared
      = (buildSet (mapKeys (buildCaseMap baseline.cases)
          ++ mapKeys (buildCaseMap candidate.cases))).length := rfl
  rw [h1, ← List.toFinset_card_of_nodup (nodup_buildSet _), ids_toFinset]

/-- C4: `diffRuns` indexes both reports by `hashedCaseId` with last-wins
on duplicate keys (`lastWinsStatus`); an entry is a regression exactly
when both lookups succeed and the candidate rank (pass=2, fail=1,
error=0) is strictly below the baseline rank; an improvement exactly when
both lookups succeed, the statuses differ and the rank does not drop;
`unchanged` counts the ids at which both lookups succeed with equal
statuses; each characterization requires membership in both reports, so
one-sided ids contribute to none of the three; and `totalCompared` is the
size of the union of the two id sets. -/
theorem diffRuns_spec (baseline candidate : RunReport) :
    (∀ e, e ∈ (diffRuns baseline candidate).regressions ↔
      lastWinsStatus baseline.cases e.hashedCaseId = some e.baselineStatus ∧
      lastWinsStatus candidate.cases e.hashedCaseId = some e.candidateStatus ∧
      statusRank e.candidateStatus < statusRank e.baselineStatus) ∧
    (∀ e, e ∈ (diffRuns baseline candidate).improvements ↔
      lastWinsStatus baseline.cases e.hashedCaseId = some e.baselineStatus ∧
      lastWinsStatus candidate.cases e.hashedCaseId = some e.candidateStatus ∧
      e.baselineStatus ≠ e.candidateStatus ∧
      ¬ statusRank e.candidateStatus < statusRank e.baselineStatus) ∧
    (diffRuns baseline candidate).unchanged
      = ((caseIdFinset baseline ∪ caseIdFinset candidate).filter (fun id =>
          (lastWinsStatus baseline.cases id).isSome ∧
          lastWinsStatus baseline.cases id = lastWinsStatus candidate.cases id)).card ∧
    (diffRuns baseline candidate).totalCompared
      = (caseIdFinset baseline ∪ caseIdFinset candidate).card :=
  ⟨fun e => diffRuns_regressions_iff baseline candidate e,
   fun e => diffRuns_improvements_iff baseline candidate e,
   diffRuns_unchanged_eq baseline candidate,
   diffRuns_totalCompared_eq baseline candidate⟩

/-- C5 as stated fails on the code: a report whose two cases share a
`hashedCaseId` self-diffs to `unchanged = 1`, not `|cases| = 2` (the JS
`Map` collapses duplicate ids). -/
theorem diffRuns_self_counterexample :
    (diffRuns dupReport dupReport).regressions = [] ∧
    (diffRuns dupReport dupReport).improvements = [] ∧
    (diffRuns dupReport dupReport).unchanged = 1 ∧
    dupReport.cases.length = 2 ∧
    (diffRuns dupReport dupReport).unchanged ≠ dupReport.cases.length := by
  refine ⟨rfl, rfl, rfl, rfl, ?_⟩
  intro h
  have h2 : (1 : Nat) = 2 := h
  cases h2

/-- C5 amended: for every report whose cases carry pairwise-distinct
`hashedCaseId`s (the spec forbids collisions within a dataset), diffing
the report against itself yields no regressions, no improvements, and
`unchanged = |cases|`. -/
theorem diffRuns_self_amended (A : RunReport)
    (h : (A.cases.map (fun c => c.hashedCaseId)).Nodup) :
    (diffRuns A A).regressions = [] ∧ (diffRuns A A).improvements = [] ∧
    (diffRuns A A).unchanged = A.cases.length := by
  refine ⟨?_, ?_, ?_⟩
  · rw [List.eq_nil_iff_forall_not_mem]
    intro e he
    obtain ⟨hb, hc, hrank⟩ := (diffRuns_regressions_iff A A e).mp he
    rw [hb] at hc
    injection hc with hc
    rw [hc] at hrank
    exact lt_irrefl _ hrank
  · rw [List.eq_nil_iff_forall_not_mem]
    intro e he
    obtain ⟨hb, hc, hne, _⟩ := (diffRuns_improvements_iff A A e).mp he
    rw [hb] at hc
    injection hc with hc
    exact hne hc
  · rw [diffRuns_unchanged_eq]
    have hfull : (caseIdFinset A ∪ caseIdFinset A).filter (fun id =>
        (lastWinsStatus A.cases id).isSome ∧
        lastWinsStatus A.cases id = lastWinsStatus A.cases id)
        = caseIdFinset A := by
      rw [Finset.union_self]
      apply Finset.filter_true_of_mem
      intro id hid
      refine ⟨?_, rfl⟩
      rw [caseIdFinset, List.mem_toFinset] at hid
      obtain ⟨c, hcmem, hcid⟩ := List.mem_map.mp hid
      rw [lastWinsStatus]
      have hfind : (A.cases.reverse.find? (fun x => x.hashedCaseId = id)).isSome := by
        rw [List.find?_isSome]
        exact ⟨c, List.mem_reverse.mpr hcmem, by simpa using hcid⟩
      cases hf : A.cases.reverse.find? (fun x => x.hashedCaseId = id) with
      | none => rw [hf] at hfind; cases hfind
      | some c2 => rfl
    rw [hfull, caseIdFinset, List.toFinset_card_of_nodup h, List.length_map]

/-- Witness for `diffRuns_self_amended` on a concrete two-case report with
distinct ids. -/
theorem diffRuns_self_amended_witness :
    (diffRuns selfReport selfReport).regressions = [] ∧
    (diffRuns selfReport selfReport).improvements = [] ∧
    (diffRuns selfReport selfReport).unchanged = selfReport.cases.length :=
  diffRuns_self_amended selfReport (by decide)

theorem buildSanitizedEnv_agree (allowlist : List String)
    (parent1 parent2 : String → Option String)
    (hagree : ∀ k, k ≠ "PROMPTMGR_BLOCK_NETWORK" → parent1 k = parent2 k) :
    ∀ k, k ≠ "PROMPTMGR_BLOCK_NETWORK" →
      buildSanitizedEnv allowlist parent1 k = buildSanitizedEnv allowlist parent2 k := by
  unfold buildSanitizedEnv
  suffices h : ∀ (l : List String) (e1 e2 : String → Option String),
      (∀ k, k ≠ "PROMPTMGR_BLOCK_NETWORK" → e1 k = e2 k) →
      ∀ k, k ≠ "PROMPTMGR_BLOCK_NETWORK" →
        (l.foldl (fun env key =>
            if (parent1 key).isSome then (fun k => if k = key then parent1 key else env k)
            else env) e1) k
          = (l.foldl (fun env key =>
              if (parent2 key).isSome then (fun k => if k = key then parent2 key else env k)
              else env) e2) k by
    apply h
    intro k hk
    by_cases hp : k = "PATH"
    · rw [if_pos hp, if_pos hp]
      exact hagree "PATH" (by decide) ▸ rfl
    · rw [if_neg hp, if_neg hp]
  intro l
  induction l with
  | nil => intro e1 e2 hagg k hk; exact hagg k hk
  | cons key rest ih =>
      intro e1 e2 hagg k hk
      simp only [List.foldl_cons]
      refine ih _ _ ?_ k hk
      intro k2 hk2
      by_cases hkey : key = "PROMPTMGR_BLOCK_NETWORK"
      · have hnk : ¬ k2 = key := fun hc => hk2 (hc.trans hkey)
        by_cases h1 : (parent1 key).isSome
        · rw [if_pos h1]
          by_cases h2 : (parent2 key).isSome
          · rw [if_pos h2]
            simp only [if_neg hnk]
            exact hagg k2 hk2
          · rw [if_neg h2]
            simp only [if_neg hnk]
            exact hagg k2 hk2
        · rw [if_neg h1]
          by_cases h2 : (parent2 key).isSome
          · rw [if_pos h2]
            simp only [if_neg hnk]
            exact hagg k2 hk2
          · rw [if_neg h2]
            exact hagg k2 hk2
      · have hpar : parent1 key = parent2 key := hagree key hkey
        rw [hpar]
        by_cases h2 : (parent2 key).isSome
        · rw [if_pos h2, if_pos h2]
          by_cases hkk : k2 = key
          · simp only [if_pos hkk]
          · simp only [if_neg hkk]
            exact hagg k2 hk2
        · rw [if_neg h2, if_neg h2]
          exact hagg k2 hk2

/-- C10: the spawned child binds `PROMPTMGR_BLOCK_NETWORK` to `"true"`
regardless of the parent environment: the literal binding spreads after
the allow-listed copy, so two runs whose parents differ only in
`PROMPTMGR_BLOCK_NETWORK` (for example one setting it to `"false"` with
the variable allow-listed) spawn children with identical environments. -/
theorem spawnChildEnv_spec (allowlist : List String)
    (parent1 parent2 : String → Option String)
    (hagree : ∀ k, k ≠ "PROMPTMGR_BLOCK_NETWORK" → parent1 k = parent2 k) :
    spawnChildEnv allowlist parent1 "PROMPTMGR_BLOCK_NETWORK" = some "true" ∧
    spawnChildEnv allowlist parent2 "PROMPTMGR_BLOCK_NETWORK" = some "true" ∧
    ∀ k, spawnChildEnv allowlist parent1 k = spawnChildEnv allowlist parent2 k := by
  refine ⟨rfl, rfl, ?_⟩
  intro k
  unfold spawnChildEnv
  by_cases hk : k = "PROMPTMGR_BLOCK_NETWORK"
  · rw [if_pos hk, if_pos hk]
  · rw [if_neg hk, if_neg hk]
    exact buildSanitizedEnv_agree allowlist parent1 parent2 hagree k hk

/-- Witness for `spawnChildEnv_spec`: the allowlist contains
`PROMPTMGR_BLOCK_NETWORK` and one parent sets it to `"false"`, the other
leaves it unset; the children get identical environments with the
variable bound to `"true"`. -/
theorem spawnChildEnv_spec_witness :
    spawnChildEnv ["PROMPTMGR_BLOCK_NETWORK", "HOME"] parentWithBlockNetwork
        "PROMPTMGR_BLOCK_NETWORK" = some "true" ∧
    spawnChildEnv ["PROMPTMGR_BLOCK_NETWORK", "HOME"] parentWithoutBlockNetwork
        "PROMPTMGR_BLOCK_NETWORK" = some "true" ∧
    ∀ k, spawnChildEnv ["PROMPTMGR_BLOCK_NETWORK", "HOME"] parentWithBlockNetwork k
        = spawnChildEnv ["PROMPTMGR_BLOCK_NETWORK", "HOME"] parentWithoutBlockNetwork k :=
  spawnChildEnv_spec ["PROMPTMGR_BLOCK_NETWORK", "HOME"]
    parentWithBlockNetwork parentWithoutBlockNetwork
    (by
      intro k hk
      unfold parentWithBlockNetwork parentWithoutBlockNetwork
      rw [if_neg hk])

theorem openAiProcessCalls_len (jb : JsBuiltins)
    (invokeTool : ProviderToolCall → Except String InvokeToolResult)
    (calls : List JsonValue) :
    ∀ (trace : List ToolCallTrace) (inputList : List JsonValue),
      (pcTrace (openAiProcessCalls jb invokeTool calls trace inputList)).length
        ≤ trace.length + calls.length := by
  induction calls with
  | nil => intro trace inputList; simp [openAiProcessCalls, pcTrace]
  | cons call rest ih =>
      intro trace inputList
      rw [openAiProcessCalls]
      split
      · refine le_trans (ih _ _) ?_
        simp [List.length_append]
        omega
      · simp [pcTrace, List.length_append]

theorem anthropicProcessCalls_len (jb : JsBuiltins)
    (invokeTool : ProviderToolCall → Except String InvokeToolResult)
    (calls : List JsonValue) :
    ∀ (trace : List ToolCallTrace) (toolResults : List JsonValue),
      (pcTrace (anthropicProcessCalls jb invokeTool calls trace toolResults)).length
        ≤ trace.length + calls.length := by
  induction calls with
  | nil => intro trace toolResults; simp [anthropicProcessCalls, pcTrace]
  | cons call rest ih =>
      intro trace toolResults
      rw [anthropicProcessCalls]
      split
      · refine le_trans (ih _ _) ?_
        simp [List.length_append]
        omega
      · simp [pcTrace, List.length_append]

theorem googleProcessCalls_len
    (invokeTool : ProviderToolCall → Except String InvokeToolResult)
    (calls : List JsonValue) :
    ∀ (trace : List ToolCallTrace) (contents : List JsonValue),
      (pcTrace (googleProcessCalls invokeTool calls trace contents)).length
        ≤ trace.length + calls.length := by
  induction calls with
  | nil => intro trace contents; simp [googleProcessCalls, pcTrace]
  | cons call rest ih =>
      intro trace contents
      rw [googleProcessCalls]
      split
      · refine le_trans (ih _ _) ?_
        simp [List.length_append]
        omega
      · simp [pcTrace, List.length_append]

theorem openAiLoop_trace_le (jb : JsBuiltins)
    (invokeTool : ProviderToolCall → Except String InvokeToolResult)
    (maxToolCalls : Nat) (script : List (Except String JsonValue)) :
    ∀ (inputList : List JsonValue) (trace : List ToolCallTrace) (used : Nat),
      trace.length ≤ used → used ≤ maxToolCalls →
      (outcomeTrace (openAiLoop jb invokeTool maxToolCalls script inputList trace
        used)).length ≤ maxToolCalls := by
  induction script with
  | nil =>
      intro inputList trace used h1 h2
      simpa [openAiLoop, outcomeTrace] using le_trans h1 h2
  | cons entry script ih =>
      intro inputList trace used h1 h2
      cases entry with
      | error e => simpa [openAiLoop, outcomeTrace] using le_trans h1 h2
      | ok response =>
          rw [openAiLoop]
          split
          · simpa [outcomeTrace] using le_trans h1 h2
          · split
            · simpa [outcomeTrace] using le_trans h1 h2
            next hcount =>
              have hused : used + (getFunctionCalls (getOutputItems response)).length
                  ≤ maxToolCalls := Nat.le_of_not_lt hcount
              have hlen := openAiProcessCalls_len jb invokeTool
                (getFunctionCalls (getOutputItems response)) trace
                (inputList ++ getOutputItems response)
              split
              next trace2 message heq =>
                rw [heq] at hlen
                simp only [pcTrace] at hlen
                simp only [outcomeTrace]
                omega
              next trace2 inputList2 heq =>
                rw [heq] at hlen
                simp only [pcTrace] at hlen
                exact ih _ _ _ (by omega) hused

theorem anthropicLoop_trace_le (jb : JsBuiltins)
    (invokeTool : ProviderToolCall → Except String InvokeToolResult)
    (maxToolCalls : Nat) (script : List (Except String JsonValue)) :
    ∀ (messages : List JsonValue) (trace : List ToolCallTrace) (used : Nat),
      trace.length ≤ used → used ≤ maxToolCalls →
      (outcomeTrace (anthropicLoop jb invokeTool maxToolCalls script messages trace
        used)).length ≤ maxToolCalls := by
  induction script with
  | nil =>
      intro messages trace used h1 h2
      simpa [anthropicLoop, outcomeTrace] using le_trans h1 h2
  | cons entry script ih =>
      intro messages trace used h1 h2
      cases entry with
      | error e => simpa [anthropicLoop, outcomeTrace] using le_trans h1 h2
      | ok response =>
          rw [anthropicLoop]
          split
          · simpa [outcomeTrace] using le_trans h1 h2
          · split
            · simpa [outcomeTrace] using le_trans h1 h2
            next hcount =>
              have hused : used + (anthropicToolUses (anthropicContent response)).length
                  ≤ maxToolCalls := Nat.le_of_not_lt hcount
              have hlen := anthropicProcessCalls_len jb invokeTool
                (anthropicToolUses (anthropicContent response)) trace []
              split
              next trace2 message heq =>
                rw [heq] at hlen
                simp only [pcTrace] at hlen
                simp only [outcomeTrace]
                omega
              next trace2 toolResults heq =>
                rw [heq] at hlen
                simp only [pcTrace] at hlen
                exact ih _ _ _ (by omega) hused

theorem googleLoop_trace_le (jb : JsBuiltins)
    (invokeTool : ProviderToolCall → Except String InvokeToolResult)
    (maxToolCalls : Nat) (script : List (Except String JsonValue)) :
    ∀ (contents : List JsonValue) (trace : List ToolCallTrace) (used : Nat),
      trace.length ≤ used → used ≤ maxToolCalls →
      (outcomeTrace (googleLoop jb invokeTool maxToolCalls script contents trace
        used)).length ≤ maxToolCalls := by
  induction script with
  | nil =>
      intro contents trace used h1 h2
      simpa [googleLoop, outcomeTrace] using le_trans h1 h2
  | cons entry script ih =>
      intro contents trace used h1 h2
      cases entry with
      | error e => simpa [googleLoop, outcomeTrace] using le_trans h1 h2
      | ok response =>
          rw [googleLoop]
          split
          · simpa [outcomeTrace] using le_trans h1 h2
          · split
            · simpa [outcomeTrace] using le_trans h1 h2
            next hcount =>
              have hused : used + (googleFunctionCalls (extractParts response)).length
                  ≤ maxToolCalls := Nat.le_of_not_lt hcount
              have hlen := googleProcessCalls_len invokeTool
                (googleFunctionCalls (extractParts response)) trace contents
              split
              next trace2 message heq =>
                rw [heq] at hlen
                simp only [pcTrace] at hlen
                simp only [outcomeTrace]
                omega
              next trace2 contents2 heq =>
                rw [heq] at hlen
                simp only [pcTrace] at hlen
                exact ih _ _ _ (by omega) hused

/-- C6: for each of the three provider adapters the number of entries
accumulated in `toolTrace` never exceeds `maxToolCalls`, on every exit of
`invokeWithTools` (success, thrown error, or awaiting a further round
trip): the `toolCallsUsed + newCalls ≤ maxToolCalls` check throws before
any of an over-budget response's tools is invoked or traced. -/
theorem adapters_toolTrace_bound (jb : JsBuiltins) (apiKey : Option String)
    (keyEnv fallbackEnv : String)
    (invokeTool : ProviderToolCall → Except String InvokeToolResult)
    (maxToolCalls : Nat) (input : JsonValue)
    (script : List (Except String JsonValue)) :
    (outcomeTrace (openAiInvokeWithTools jb apiKey keyEnv invokeTool maxToolCalls
      input script)).length ≤ maxToolCalls ∧
    (outcomeTrace (anthropicInvokeWithTools jb apiKey keyEnv invokeTool maxToolCalls
      input script)).length ≤ maxToolCalls ∧
    (outcomeTrace (googleInvokeWithTools jb apiKey keyEnv fallbackEnv invokeTool
      maxToolCalls input script)).length ≤ maxToolCalls := by
  refine ⟨?_, ?_, ?_⟩
  · cases apiKey with
    | none => simp [openAiInvokeWithTools, outcomeTrace]
    | some key =>
        exact openAiLoop_trace_le jb invokeTool maxToolCalls script _ [] 0
          (Nat.le_refl 0) (Nat.zero_le _)
  · cases apiKey with
    | none => simp [anthropicInvokeWithTools, outcomeTrace]
    | some key =>
        exact anthropicLoop_trace_le jb invokeTool maxToolCalls script _ [] 0
          (Nat.le_refl 0) (Nat.zero_le _)
  · cases apiKey with
    | none => simp [googleInvokeWithTools, outcomeTrace]
    | some key =>
        exact googleLoop_trace_le jb invokeTool maxToolCalls script _ [] 0
          (Nat.le_refl 0) (Nat.zero_le _)

/-- The pool invariant: array lengths are fixed; awaited indexes are
distinct, claimed, in range, and unwritten; claimed non-awaited in-range
indexes hold the worker's result, written exactly once; unclaimed indexes
are untouched; and while unclaimed input remains some worker is alive. -/
structure PoolInv {T U : Type} (items : List T) (f : T → Nat → U)
    (s : PoolState U) : Prop where
  results_len : s.results.length = items.length
  writes_len : s.writes.length = items.length
  waiting_nodup : s.waiting.Nodup
  waiting_range : ∀ i ∈ s.waiting, i < items.length ∧ i < s.cursor
  waiting_blank : ∀ i ∈ s.waiting, s.results[i]? = some none ∧ s.writes[i]? = some 0
  settled : ∀ i, i < s.cursor → i < items.length → i ∉ s.waiting →
      s.results[i]? = some ((items[i]?).map (fun x => f x i)) ∧ s.writes[i]? = some 1
  fresh : ∀ i, s.cursor ≤ i → i < items.length →
      s.results[i]? = some none ∧ s.writes[i]? = some 0
  active : s.cursor < items.length → 0 < s.ready + s.waiting.length

theorem initPool_inv {T U : Type} (items : List T) (f : T → Nat → U) (c : Nat) :
    PoolInv items f (initPool U items c) := by
  refine ⟨?_, ?_, ?_, ?_, ?_, ?_, ?_, ?_⟩
  · simp [initPool]
  · simp [initPool]
  · simp [initPool]
  · intro i hi
    simp [initPool] at hi
  · intro i hi
    simp [initPool] at hi
  · intro i hic _ _
    simp only [initPool] at hic
    omega
  · intro i _ hin
    simp [initPool, List.getElem?_replicate, hin]
  · intro h
    simp only [initPool] at h ⊢
    simp only [List.length_nil]
    omega

theorem poolStep_inv {T U : Type} (items : List T) (f : T → Nat → U)
    (s s2 : PoolState U) (ch : PoolChoice)
    (hstep : poolStep items f s ch = some s2) (hinv : PoolInv items f s) :
    PoolInv items f s2 := by
  cases ch with
  | claim =>
      unfold poolStep at hstep
      by_cases hr : s.ready = 0
      · rw [if_pos hr] at hstep
        cases hstep
      · rw [if_neg hr] at hstep
        by_cases hc : s.cursor < items.length
        · rw [if_pos hc] at hstep
          injection hstep with hstep
          subst hstep
          refine ⟨hinv.results_len, hinv.writes_len, ?_, ?_, ?_, ?_, ?_, ?_⟩
          · refine List.Nodup.append hinv.waiting_nodup (List.nodup_singleton _) ?_
            intro a ha hb
            rw [List.mem_singleton] at hb
            subst hb
            exact absurd (hinv.waiting_range _ ha).2 (lt_irrefl _)
          · intro i hi
            rcases List.mem_append.mp hi with h | h
            · obtain ⟨h1, h2⟩ := hinv.waiting_range i h
              exact ⟨h1, Nat.lt_succ_of_lt h2⟩
            · rw [List.mem_singleton] at h
              subst h
              exact ⟨hc, Nat.lt_succ_self _⟩
          · intro i hi
            rcases List.mem_append.mp hi with h | h
            · exact hinv.waiting_blank i h
            · rw [List.mem_singleton] at h
              subst h
              exact hinv.fresh _ (le_refl _) hc
          · intro i hlt hin hnw
            have hnw1 : i ∉ s.waiting := fun h => hnw (List.mem_append.mpr (Or.inl h))
            have hne : i ≠ s.cursor := fun h =>
              hnw (List.mem_append.mpr (Or.inr (by rw [h]; exact List.mem_singleton_self _)))
            have hlt2 : i < s.cursor := by
              simp only at hlt
              omega
            exact hinv.settled i hlt2 hin hnw1
          · intro i hge hin
            refine hinv.fresh i ?_ hin
            simp only at hge
            omega
          · intro _
            simp only [List.length_append, List.length_singleton]
            omega
        · rw [if_neg hc] at hstep
          injection hstep with hstep
          subst hstep
          refine ⟨hinv.results_len, hinv.writes_len, hinv.waiting_nodup, ?_,
            hinv.waiting_blank, ?_, ?_, ?_⟩
          · intro i hi
            obtain ⟨h1, h2⟩ := hinv.waiting_range i hi
            exact ⟨h1, Nat.lt_succ_of_lt h2⟩
          · intro i hlt hin hnw
            have hlt2 : i < s.cursor + 1 := hlt
            refine hinv.settled i (by omega) hin hnw
          · intro i hge hin
            have hge2 : s.cursor + 1 ≤ i := hge
            exact hinv.fresh i (by omega) hin
          · intro hlt
            have hlt2 : s.cursor + 1 < items.length := hlt
            exact absurd (by omega : s.cursor < items.length) hc
  | resolve i =>
      replace hstep : (if i ∈ s.waiting then
          match items[i]? with
          | some item =>
              some { s with
                results := s.results.set i (some (f item i))
                writes := s.writes.set i (s.writes.getD i 0 + 1)
                ready := s.ready + 1
                waiting := s.waiting.erase i }
          | none => none
        else none) = some s2 := hstep
      by_cases hw : i ∈ s.waiting
      · rw [if_pos hw] at hstep
        cases hitem : items[i]? with
        | none =>
            rw [hitem] at hstep
            cases hstep
        | some item =>
            rw [hitem] at hstep
            injection hstep with hstep
            subst hstep
            have hiblank := hinv.waiting_blank i hw
            have hirange := hinv.waiting_range i hw
            refine ⟨?_, ?_, ?_, ?_, ?_, ?_, ?_, ?_⟩
            · simp [hinv.results_len]
            · simp [hinv.writes_len]
            · exact hinv.waiting_nodup.erase i
            · intro j hj
              exact hinv.waiting_range j (List.mem_of_mem_erase hj)
            · intro j hj
              have hj2 := List.mem_of_mem_erase hj
              have hjne : j ≠ i := (hinv.waiting_nodup.mem_erase_iff.mp hj).1
              constructor
              · rw [List.getElem?_set_ne (Ne.symm hjne)]
                exact (hinv.waiting_blank j hj2).1
              · rw [List.getElem?_set_ne (Ne.symm hjne)]
                exact (hinv.waiting_blank j hj2).2
            · intro j hlt hjn hnw
              by_cases hji : j = i
              · subst hji
                constructor
                · rw [List.getElem?_set_self (hinv.results_len ▸ hjn), hitem]
                  rfl
                · rw [List.getElem?_set_self (hinv.writes_len ▸ hjn)]
                  have hz : s.writes.getD j 0 = 0 := by
                    rw [List.getD_eq_getElem?_getD, hiblank.2]
                    rfl
                  rw [hz]
              · have hnw2 : j ∉ s.waiting := fun h =>
                  hnw ((hinv.waiting_nodup.mem_erase_iff).mpr ⟨hji, h⟩)
                have hs := hinv.settled j hlt hjn hnw2
                constructor
                · rw [List.getElem?_set_ne (Ne.symm hji)]
                  exact hs.1
                · rw [List.getElem?_set_ne (Ne.symm hji)]
                  exact hs.2
            · intro j hge hjn
              have hji : j ≠ i := by
                intro h
                subst h
                simp only at hge
                omega
              constructor
              · rw [List.getElem?_set_ne (Ne.symm hji)]
                exact (hinv.fresh j hge hjn).1
              · rw [List.getElem?_set_ne (Ne.symm hji)]
                exact (hinv.fresh j hge hjn).2
            · intro _
              simp only
              omega
      · rw [if_neg hw] at hstep
        cases hstep

theorem runPoolSteps_inv {T U : Type} (items : List T) (f : T → Nat → U)
    (sched : List PoolChoice) :
    ∀ (s s2 : PoolState U), runPoolSteps items f s sched = some s2 →
      PoolInv items f s → PoolInv items f s2 := by
  induction sched with
  | nil =>
      intro s s2 h hi
      injection h with h
      subst h
      exact hi
  | cons ch rest ih =>
      intro s s2 h hi
      unfold runPoolSteps at h
      cases hstep : poolStep items f s ch with
      | none =>
          rw [hstep] at h
          cases h
      | some smid =>
          rw [hstep] at h
          exact ih smid s2 h (poolStep_inv items f s smid ch hstep hi)

theorem poolInv_done_results {T U : Type} (items : List T) (f : T → Nat → U)
    (s : PoolState U) (hinv : PoolInv items f s) (hdone : poolDone s) :
    s.results = (List.range items.length).map (fun i => (items[i]?).map (fun x => f x i)) ∧
    s.writes = List.replicate items.length 1 := by
  obtain ⟨hr, hwt⟩ := hdone
  have hcur : items.length ≤ s.cursor := by
    by_contra hlt
    have h := hinv.active (by omega)
    rw [hr, hwt] at h
    simp at h
  constructor
  · apply List.ext_getElem?
    intro n
    by_cases hn : n < items.length
    · have h := (hinv.settled n (by omega) hn (by rw [hwt]; simp)).1
      rw [h, List.getElem?_map, List.getElem?_range hn]
      rfl
    · have hrl := hinv.results_len
      rw [List.getElem?_eq_none (by omega), List.getElem?_eq_none]
      rw [List.length_map, List.length_range]
      omega
  · apply List.ext_getElem?
    intro n
    by_cases hn : n < items.length
    · have h := (hinv.settled n (by omega) hn (by rw [hwt]; simp)).2
      rw [h, List.getElem?_replicate, if_pos hn]
    · have hwl := hinv.writes_len
      rw [List.getElem?_eq_none (by omega), List.getElem?_eq_none]
      rw [List.length_replicate]
      omega

/-- C8: for every item list, every concurrency, every pure worker and
every schedule of the event loop that runs the pool to completion, the
final results array has the input's length and its `i`-th element is the
worker's result on the `i`-th item — the pool is result-equivalent to the
sequential map in input order — and every index was written exactly
once. -/
theorem runPool_spec {T U : Type} (items : List T) (f : T → Nat → U) (c : Nat)
    (sched : List PoolChoice) (s : PoolState U)
    (hrun : runPoolSteps items f (initPool U items c) sched = some s)
    (hdone : poolDone s) :
    s.results = (List.range items.length).map (fun i => (items[i]?).map (fun x => f x i)) ∧
    s.writes = List.replicate items.length 1 :=
  poolInv_done_results items f s
    (runPoolSteps_inv items f sched _ s hrun (initPool_inv items f c))
    hdone

/-- Witness for `runPool_spec`: one worker (`concurrency = 1`) over two
items, running the five-step schedule to completion. -/
theorem runPool_spec_witness :
    (PoolState.mk 3 [some ("a", 0), some ("b", 1)] [1, 1] 0 [] 1).results
      = (List.range (["a", "b"] : List String).length).map
          (fun i => ((["a", "b"] : List String)[i]?).map (fun x => (x, i))) ∧
    (PoolState.mk 3 [some (("a" : String), 0), some ("b", 1)] [1, 1] 0 [] 1).writes
      = List.replicate (["a", "b"] : List String).length 1 :=
  runPool_spec ["a", "b"] (fun x i => (x, i)) 1
    [PoolChoice.claim, PoolChoice.resolve 0, PoolChoice.claim,
      PoolChoice.resolve 1, PoolChoice.claim]
    (PoolState.mk 3 [some ("a", 0), some ("b", 1)] [1, 1] 0 [] 1)
    rfl ⟨rfl, rfl⟩

/-! ### Run-length and prefix helper lemmas for the redaction proofs -/

theorem runLen_le_length (p : Char → Bool) (s : List Char) : runLen p s ≤ s.length := by
  induction s with
  | nil => simp [runLen]
  | cons c rest ih =>
      rw [runLen]
      by_cases h : p c
      · rw [if_pos h]
        simpa using ih
      · rw [if_neg h]
        simp

theorem runLen_get (p : Char → Bool) (s : List Char) :
    ∀ i, i < runLen p s → ∃ ci, s.get? i = some ci ∧ p ci = true := by
  induction s with
  | nil => intro i hi; rw [runLen] at hi; omega
  | cons c rest ih =>
      intro i hi
      rw [runLen] at hi
      by_cases h : p c
      · rw [if_pos h] at hi
        cases i with
        | zero => exact ⟨c, rfl, h⟩
        | succ j =>
            obtain ⟨ci, h1, h2⟩ := ih j (by omega)
            exact ⟨ci, h1, h2⟩
      · rw [if_neg h] at hi
        omega

theorem runLen_stop (p : Char → Bool) (s : List Char)
    (h : runLen p s < s.length) :
    ∃ c, s.get? (runLen p s) = some c ∧ p c = false := by
  induction s with
  | nil => simp at h
  | cons c rest ih =>
      rw [runLen] at h ⊢
      by_cases hp : p c
      · rw [if_pos hp] at h ⊢
        simp only [List.length_cons] at h
        obtain ⟨ci, h1, h2⟩ := ih (by omega)
        exact ⟨ci, h1, h2⟩
      · rw [if_neg hp] at h ⊢
        exact ⟨c, rfl, by simp [hp]⟩

theorem runLen_eq_of (p : Char → Bool) (s : List Char) (j : Nat)
    (hloc : ∀ i, i < j → ∃ ci, s.get? i = some ci ∧ p ci = true)
    (hstop : ∀ c, s.get? j = some c → p c = false) :
    runLen p s = j := by
  induction s generalizing j with
  | nil =>
      cases j with
      | zero => rfl
      | succ j0 =>
          obtain ⟨ci, h1, _⟩ := hloc 0 (by omega)
          cases h1
  | cons c rest ih =>
      cases j with
      | zero =>
          rw [runLen, if_neg]
          intro hp
          have := hstop c rfl
          rw [hp] at this
          cases this
      | succ j0 =>
          obtain ⟨c0, hc0, hp0⟩ := hloc 0 (by omega)
          have hc0e : c0 = c := by
            injection hc0 with h
            exact h.symm
          subst hc0e
          rw [runLen, if_pos hp0]
          congr 1
          exact ih j0 (fun i hi => hloc (i + 1) (by omega)) (fun ci hci => hstop ci hci)

theorem runLen_eq_takeWhile_length (p : Char → Bool) (s : List Char) :
    runLen p s = (s.takeWhile p).length := by
  induction s with
  | nil => rfl
  | cons c rest ih =>
      rw [runLen, List.takeWhile]
      by_cases h : p c
      · simp [h, ih]
      · simp [h]

theorem runLen_takeWhile (p q : Char → Bool) (s : List Char)
    (hpq : ∀ c, p c = true → q c = true) :
    runLen p (s.takeWhile q) = runLen p s := by
  induction s with
  | nil => rfl
  | cons c rest ih =>
      by_cases hq : q c
      · have h1 : (c :: rest).takeWhile q = c :: rest.takeWhile q := by
          simp [List.takeWhile, hq]
        rw [h1, runLen, runLen]
        by_cases hp : p c
        · rw [if_pos hp, if_pos hp, ih]
        · rw [if_neg hp, if_neg hp]
      · have h1 : (c :: rest).takeWhile q = [] := by simp [List.takeWhile, hq]
        have hp : ¬ p c = true := fun hp => hq (hpq c hp)
        rw [h1]
        show 0 = runLen p (c :: rest)
        rw [runLen, if_neg hp]

theorem runLen_take (p : Char → Bool) (s : List Char) (k : Nat) :
    runLen p (s.take k) = min (runLen p s) k := by
  induction s generalizing k with
  | nil => simp [runLen]
  | cons c rest ih =>
      cases k with
      | zero => simp [runLen]
      | succ k0 =>
          rw [List.take_succ_cons, runLen, runLen]
          by_cases hp : p c
          · rw [if_pos hp, if_pos hp, ih]
            omega
          · rw [if_neg hp, if_neg hp]
            simp

theorem takeWhile_drop (q : Char → Bool) (s : List Char) (l : Nat)
    (hl : l ≤ runLen q s) :
    (s.takeWhile q).drop l = (s.drop l).takeWhile q := by
  induction s generalizing l with
  | nil => simp
  | cons c rest ih =>
      cases l with
      | zero => simp
      | succ l0 =>
          rw [runLen] at hl
          by_cases hq : q c
          · rw [if_pos hq] at hl
            have h1 : (c :: rest).takeWhile q = c :: rest.takeWhile q := by
              simp [List.takeWhile, hq]
            rw [h1, List.drop_succ_cons, List.drop_succ_cons, ih l0 (by omega)]
          · rw [if_neg hq] at hl
            omega

/-! ### Basic matcher facts -/

theorem emailLen_nil : emailLen [] = none := rfl

theorem phoneLen_nil : phoneLen [] = none := rfl

theorem numberMatch_nil (pw : Bool) : numberMatch pw [] = none := by
  cases pw <;> rfl

theorem emailLen_none_of_head (c : Char) (s : List Char)
    (hc : isLocalChar c = false) : emailLen (c :: s) = none := by
  unfold emailLen
  have h : runLen isLocalChar (c :: s) = 0 := by rw [runLen, hc]; simp
  simp [h]

theorem phoneBody_none_of_head (c : Char) (s : List Char)
    (hd : isDigitChar c = false) : phoneBody (c :: s) = none := by
  have h : phoneBody (c :: s) =
      if isDigitChar c = true then
        (match phoneDigitSearch s (runLen isPhoneInnerChar s) with
         | some inner => some (1 + inner + 1)
         | none => none)
      else none := rfl
  rw [h, hd]
  simp

theorem phoneLen_none_of_head (c : Char) (s : List Char)
    (hd : isDigitChar c = false) (hp : c ≠ '+') : phoneLen (c :: s) = none := by
  unfold phoneLen
  split
  · next rest heq =>
      injection heq with h1 h2
      exact absurd h1 hp
  · exact phoneBody_none_of_head c s hd

theorem numberMatch_none_of_head (pw : Bool) (c : Char) (s : List Char)
    (hd : isDigitChar c = false) : numberMatch pw (c :: s) = none := by
  unfold numberMatch
  cases pw with
  | true => simp
  | false =>
      have h : runLen isDigitChar (c :: s) = 0 := by rw [runLen, hd]; simp
      rw [h]
      simp [numberSearch]

theorem numberSearch_none_lt (s : List Char) :
    ∀ d, d < runLen isDigitChar s → numberSearch s d = none := by
  intro d
  induction d with
  | zero => intro _; rfl
  | succ d0 ih =>
      intro hlt
      unfold numberSearch
      by_cases h12 : d0 + 1 < 12
      · rw [if_pos h12]
      · rw [if_neg h12]
        have hb : boundaryOk (s.get? (d0 + 1)) = false := by
          obtain ⟨ci, hci, hdig⟩ := runLen_get isDigitChar s (d0 + 1) hlt
          rw [hci]
          have hw : isWordChar ci = true := by
            unfold isWordChar
            rw [hdig]
            simp
          simp [boundaryOk, hw]
        rw [hb]
        simp only [Bool.false_eq_true, if_false]
        exact ih (by omega)

theorem numberSearch_at_run (s : List Char) :
    numberSearch s (runLen isDigitChar s) =
      if 12 ≤ runLen isDigitChar s ∧
          boundaryOk (s.get? (runLen isDigitChar s)) = true
      then some (runLen isDigitChar s) else none := by
  cases hr : runLen isDigitChar s with
  | zero => simp [numberSearch]
  | succ d0 =>
      unfold numberSearch
      by_cases h12 : d0 + 1 < 12
      · rw [if_pos h12, if_neg (fun h => by omega)]
      · rw [if_neg h12]
        by_cases hb : boundaryOk (s.get? (d0 + 1)) = true
        · rw [if_pos hb, if_pos ⟨by omega, hb⟩]
        · rw [if_neg hb, if_neg (fun h => hb h.2)]
          exact numberSearch_none_lt s d0 (by omega)

theorem numberMatch_eq (pw : Bool) (s : List Char) :
    numberMatch pw s =
      if pw = false ∧ 12 ≤ runLen isDigitChar s ∧ runLen isDigitChar s ≤ 19 ∧
          boundaryOk (s.get? (runLen isDigitChar s)) = true
      then some (runLen isDigitChar s) else none := by
  unfold numberMatch
  cases pw with
  | true =>
      rw [if_pos rfl, if_neg (fun h => by cases h.1)]
  | false =>
      rw [if_neg (by simp)]
      by_cases h19 : runLen isDigitChar s ≤ 19
      · have hmn : min (runLen isDigitChar s) 19 = runLen isDigitChar s := by omega
        rw [hmn, numberSearch_at_run]
        by_cases hA : 12 ≤ runLen isDigitChar s ∧
            boundaryOk (s.get? (runLen isDigitChar s)) = true
        · rw [if_pos hA, if_pos ⟨rfl, hA.1, h19, hA.2⟩]
        · rw [if_neg hA, if_neg (fun h => hA ⟨h.2.1, h.2.2.2⟩)]
      · have hmn : min (runLen isDigitChar s) 19 = 19 := by omega
        rw [hmn, if_neg (fun h => h19 h.2.2.1)]
        exact numberSearch_none_lt s 19 (by omega)

/-! ### Indexing helpers -/

theorem get?_drop (s : List Char) : ∀ i j, (s.drop i).get? j = s.get? (i + j) := by
  induction s with
  | nil => intro i j; simp
  | cons c rest ih =>
      intro i j
      cases i with
      | zero => simp
      | succ i0 =>
          rw [List.drop_succ_cons, ih i0 j]
          have h : i0 + 1 + j = i0 + j + 1 := by omega
          rw [h, List.get?_cons_succ]

theorem get?_eq_head_drop (s : List Char) (i : Nat) : s.get? i = (s.drop i).head? := by
  induction s generalizing i with
  | nil => simp
  | cons c rest ih =>
      cases i with
      | zero => simp
      | succ i0 => rw [List.get?_cons_succ, List.drop_succ_cons, ih i0]

theorem drop_cons_of_get? (s : List Char) (i : Nat) (c : Char)
    (h : s.get? i = some c) : s.drop i = c :: s.drop (i + 1) := by
  induction s generalizing i with
  | nil => cases h
  | cons a rest ih =>
      cases i with
      | zero =>
          rw [List.get?_cons_zero] at h
          injection h with h
          subst h
          rfl
      | succ i0 =>
          rw [List.get?_cons_succ] at h
          rw [List.drop_succ_cons, ih i0 h, List.drop_succ_cons]

theorem get?_take_lt (s : List Char) : ∀ k i, i < k → (s.take k).get? i = s.get? i := by
  induction s with
  | nil => intro k i _; simp
  | cons c rest ih =>
      intro k i hik
      cases k with
      | zero => omega
      | succ k0 =>
          rw [List.take_succ_cons]
          cases i with
          | zero => simp
          | succ i0 => rw [List.get?_cons_succ, List.get?_cons_succ, ih k0 i0 (by omega)]

theorem get?_none_of_len_le (s : List Char) : ∀ i, s.length ≤ i → s.get? i = none := by
  induction s with
  | nil => intro i _; simp
  | cons c rest ih =>
      intro i hi
      simp only [List.length_cons] at hi
      cases i with
      | zero => omega
      | succ i0 => rw [List.get?_cons_succ]; exact ih i0 (by omega)

theorem get?_append_left {α : Type} (l1 l2 : List α) :
    ∀ i, i < l1.length → (l1 ++ l2).get? i = l1.get? i := by
  induction l1 with
  | nil => intro i hi; simp at hi
  | cons c rest ih =>
      intro i hi
      cases i with
      | zero => simp
      | succ i0 =>
          rw [List.cons_append, List.get?_cons_succ, List.get?_cons_succ]
          exact ih i0 (by simp only [List.length_cons] at hi; omega)

theorem runLen_mono (p q : Char → Bool) (s : List Char)
    (hpq : ∀ c, p c = true → q c = true) : runLen p s ≤ runLen q s := by
  induction s with
  | nil => simp [runLen]
  | cons c rest ih =>
      rw [runLen, runLen]
      by_cases hp : p c
      · rw [if_pos hp, if_pos (hpq c hp)]
        omega
      · rw [if_neg hp]
        omega

/-! ### Bracket truncation: the part of a string a matcher can inspect -/

/-- Not an opening bracket (replacement tokens all start with `[`). -/
def notLB (c : Char) : Bool := c ≠ '['

/-- Truncate at the first `[`. -/
def truncB (s : List Char) : List Char := s.takeWhile notLB

theorem isLocalChar_imp_notLB (c : Char) (h : isLocalChar c = true) : notLB c = true := by
  by_cases hc : c = '['
  · subst hc; cases h
  · simp [notLB, hc]

theorem isDomainChar_imp_notLB (c : Char) (h : isDomainChar c = true) : notLB c = true := by
  by_cases hc : c = '['
  · subst hc; cases h
  · simp [notLB, hc]

theorem isAsciiAlpha_imp_notLB (c : Char) (h : isAsciiAlpha c = true) : notLB c = true := by
  by_cases hc : c = '['
  · subst hc; cases h
  · simp [notLB, hc]

theorem isDigitChar_imp_notLB (c : Char) (h : isDigitChar c = true) : notLB c = true := by
  by_cases hc : c = '['
  · subst hc; cases h
  · simp [notLB, hc]

theorem isPhoneInnerChar_imp_notLB (c : Char) (h : isPhoneInnerChar c = true) :
    notLB c = true := by
  by_cases hc : c = '['
  · subst hc; cases h
  · simp [notLB, hc]

theorem truncB_length_eq_runLen (s : List Char) :
    (truncB s).length = runLen notLB s := by
  rw [runLen_eq_takeWhile_length]
  rfl

theorem truncB_get_lt (s : List Char) (i : Nat) (hi : i < runLen notLB s) :
    (truncB s).get? i = s.get? i := by
  induction s generalizing i with
  | nil => rw [runLen] at hi; omega
  | cons c rest ih =>
      rw [runLen] at hi
      by_cases hc : notLB c
      · rw [if_pos hc] at hi
        have h1 : truncB (c :: rest) = c :: truncB rest := by
          simp [truncB, List.takeWhile, hc]
        rw [h1]
        cases i with
        | zero => simp
        | succ i0 =>
            rw [List.get?_cons_succ, List.get?_cons_succ]
            exact ih i0 (by omega)
      · rw [if_neg hc] at hi
        omega

theorem truncB_get_boundary (s : List Char) (i : Nat) (hi : runLen notLB s ≤ i) :
    (truncB s).get? i = none ∧ (s.get? i = none ∨ i = runLen notLB s ∧ s.get? i = some '[') ∨
    (truncB s).get? i = none ∧ runLen notLB s < i := by
  by_cases heq : i = runLen notLB s
  · left
    constructor
    · exact get?_none_of_len_le _ i (by rw [truncB_length_eq_runLen]; omega)
    · by_cases hlen : i < s.length
      · obtain ⟨c, hc, hnc⟩ := runLen_stop notLB s (by omega)
        right
        refine ⟨heq, ?_⟩
        have hcb : c = '[' := by
          by_cases h : c = '['
          · exact h
          · exfalso
            rw [show notLB c = true by simp [notLB, h]] at hnc
            cases hnc
        rw [heq, ← hcb]
        exact hc
      · left
        exact get?_none_of_len_le s i (by omega)
  · right
    exact ⟨get?_none_of_len_le _ i (by rw [truncB_length_eq_runLen]; omega), by omega⟩

/-! ### If-based expansions of the matchers -/

theorem emailLen_expand (s : List Char) :
    emailLen s =
      (if runLen isLocalChar s = 0 then none
       else
         match s.drop (runLen isLocalChar s) with
         | '@' :: rest =>
             (match emailDomainSearch rest (runLen isDomainChar rest) with
              | some n => some (runLen isLocalChar s + 1 + n)
              | none => none)
         | _ => none) := rfl

theorem emailLen_eq (s : List Char) :
    emailLen s =
      if runLen isLocalChar s = 0 then none
      else if s.get? (runLen isLocalChar s) = some '@' then
        match emailDomainSearch (s.drop (runLen isLocalChar s + 1))
            (runLen isDomainChar (s.drop (runLen isLocalChar s + 1))) with
        | some n => some (runLen isLocalChar s + 1 + n)
        | none => none
      else none := by
  rw [emailLen_expand]
  by_cases h0 : runLen isLocalChar s = 0
  · rw [if_pos h0, if_pos h0]
  · rw [if_neg h0, if_neg h0]
    by_cases hat : s.get? (runLen isLocalChar s) = some '@'
    · rw [if_pos hat, drop_cons_of_get? s _ _ hat]
      rfl
    · rw [if_neg hat]
      cases hd : s.drop (runLen isLocalChar s) with
      | nil => rfl
      | cons a tl =>
          have ha : a ≠ '@' := by
            intro h
            subst h
            exact hat (by rw [get?_eq_head_drop, hd]; rfl)
          split
          · next rest heq =>
              injection heq with h1 h2
              exact absurd h1 ha
          · rfl

theorem phoneLen_eq (s : List Char) :
    phoneLen s =
      if s.get? 0 = some '+' then
        (match phoneBody (s.drop 1) with
         | some n => some (n + 1)
         | none => none)
      else phoneBody s := by
  cases s with
  | nil => simp [phoneLen, phoneBody]
  | cons c rest =>
      by_cases hc : c = '+'
      · subst hc
        rw [if_pos (by rfl)]
        rfl
      · rw [if_neg (by simp [hc])]
        unfold phoneLen
        split
        · next rest2 heq =>
            injection heq with h1 h2
            exact absurd h1 hc
        · rfl

theorem phoneBody_cons (c : Char) (rest : List Char) :
    phoneBody (c :: rest) =
      if isDigitChar c = true then
        (match phoneDigitSearch rest (runLen isPhoneInnerChar rest) with
         | some inner => some (1 + inner + 1)
         | none => none)
      else none := rfl

/-! ### CUT: each matcher only inspects the string up to the first `[` -/

theorem truncB_drop (s : List Char) (l : Nat) (hl : l ≤ runLen notLB s) :
    (truncB s).drop l = truncB (s.drop l) := by
  unfold truncB
  exact takeWhile_drop notLB s l hl

theorem truncB_nil_of (s : List Char) (h : runLen notLB s = 0) : truncB s = [] := by
  have := truncB_length_eq_runLen s
  rw [h] at this
  exact List.length_eq_zero.mp this

theorem emailDomainSearch_succ (after : List Char) (d : Nat) :
    emailDomainSearch after (d + 1) =
      match after.drop (d + 1) with
      | '.' :: tl =>
          if 2 ≤ runLen isAsciiAlpha tl
          then some (d + 1 + 1 + runLen isAsciiAlpha tl)
          else emailDomainSearch after d
      | _ => emailDomainSearch after d := rfl

theorem emailDomainSearch_eq (after : List Char) (d : Nat) :
    emailDomainSearch after (d + 1) =
      if after.get? (d + 1) = some '.' ∧
          2 ≤ runLen isAsciiAlpha (after.drop (d + 2))
      then some (d + 1 + 1 + runLen isAsciiAlpha (after.drop (d + 2)))
      else emailDomainSearch after d := by
  rw [emailDomainSearch_succ]
  cases hd : after.drop (d + 1) with
  | nil =>
      have hg : after.get? (d + 1) = none := by rw [get?_eq_head_drop, hd]; rfl
      rw [if_neg (fun h => by rw [hg] at h; cases h.1)]
  | cons a tl =>
      have hg : after.get? (d + 1) = some a := by rw [get?_eq_head_drop, hd]; rfl
      have htl : after.drop (d + 2) = tl := by
        have h1 : after.drop (d + 2) = (after.drop (d + 1)).drop 1 := by
          rw [List.drop_drop]
        rw [h1, hd]
        rfl
      by_cases ha : a = '.'
      · subst ha
        rw [htl]
        show (if 2 ≤ runLen isAsciiAlpha tl
              then some (d + 1 + 1 + runLen isAsciiAlpha tl)
              else emailDomainSearch after d) = _
        by_cases h2 : 2 ≤ runLen isAsciiAlpha tl
        · rw [if_pos h2, if_pos ⟨hg, h2⟩]
        · rw [if_neg h2, if_neg (fun h => h2 h.2)]
      · rw [if_neg (fun h => ha (by injection hg.symm.trans h.1))]
        split
        · next tl2 heq =>
            injection heq with h1 h2
            exact absurd h1 ha
        · rfl

theorem emailDomainSearch_trunc (after : List Char) :
    ∀ d, d ≤ runLen notLB after →
      emailDomainSearch (truncB after) d = emailDomainSearch after d := by
  intro d
  induction d with
  | zero => intro _; rfl
  | succ d0 ih =>
      intro hle
      rw [emailDomainSearch_eq, emailDomainSearch_eq]
      by_cases hget : d0 + 1 < runLen notLB after
      · have hg : (truncB after).get? (d0 + 1) = after.get? (d0 + 1) :=
          truncB_get_lt after _ hget
        have hdrop : (truncB after).drop (d0 + 2) = truncB (after.drop (d0 + 2)) :=
          truncB_drop after _ (by omega)
        have halpha : runLen isAsciiAlpha (truncB (after.drop (d0 + 2))) =
            runLen isAsciiAlpha (after.drop (d0 + 2)) :=
          runLen_takeWhile _ _ _ isAsciiAlpha_imp_notLB
        rw [hg, hdrop, halpha]
        by_cases hA : after.get? (d0 + 1) = some '.' ∧
            2 ≤ runLen isAsciiAlpha (after.drop (d0 + 2))
        · rw [if_pos hA, if_pos hA]
        · rw [if_neg hA, if_neg hA]
          exact ih (by omega)
      · have h1 : (truncB after).get? (d0 + 1) = none :=
          get?_none_of_len_le _ _ (by rw [truncB_length_eq_runLen]; omega)
        have h2 : after.get? (d0 + 1) ≠ some '.' := by
          rcases truncB_get_boundary after (d0 + 1) (by omega) with
            ⟨_, h | ⟨_, h⟩⟩ | ⟨_, hlt⟩
          · rw [h]; simp
          · rw [h]; simp
          · omega
        rw [if_neg (fun h => by rw [h1] at h; cases h.1), if_neg (fun h => h2 h.1)]
        exact ih (by omega)

theorem emailLen_trunc (s : List Char) : emailLen (truncB s) = emailLen s := by
  rw [emailLen_eq, emailLen_eq]
  have hl : runLen isLocalChar (truncB s) = runLen isLocalChar s :=
    runLen_takeWhile _ _ _ isLocalChar_imp_notLB
  rw [hl]
  by_cases h0 : runLen isLocalChar s = 0
  · rw [if_pos h0, if_pos h0]
  · rw [if_neg h0, if_neg h0]
    have hlle : runLen isLocalChar s ≤ runLen notLB s :=
      runLen_mono _ _ _ isLocalChar_imp_notLB
    by_cases hlt : runLen isLocalChar s < runLen notLB s
    · rw [truncB_get_lt s _ hlt]
      by_cases hat : s.get? (runLen isLocalChar s) = some '@'
      · rw [if_pos hat, if_pos hat]
        have hdrop : (truncB s).drop (runLen isLocalChar s + 1) =
            truncB (s.drop (runLen isLocalChar s + 1)) :=
          truncB_drop s _ (by omega)
        rw [hdrop]
        have hdm : runLen isDomainChar (truncB (s.drop (runLen isLocalChar s + 1))) =
            runLen isDomainChar (s.drop (runLen isLocalChar s + 1)) :=
          runLen_takeWhile _ _ _ isDomainChar_imp_notLB
        rw [hdm, emailDomainSearch_trunc _ _
          (runLen_mono _ _ _ isDomainChar_imp_notLB)]
      · rw [if_neg hat, if_neg hat]
    · have h1 : (truncB s).get? (runLen isLocalChar s) = none :=
        get?_none_of_len_le _ _ (by rw [truncB_length_eq_runLen]; omega)
      have h2 : s.get? (runLen isLocalChar s) ≠ some '@' := by
        rcases truncB_get_boundary s (runLen isLocalChar s) (by omega) with
          ⟨_, h | ⟨_, h⟩⟩ | ⟨_, hlt2⟩
        · rw [h]; simp
        · rw [h]; simp
        · omega
      rw [if_neg (by rw [h1]; simp), if_neg h2]

theorem phoneDigitSearch_trunc (after : List Char) :
    ∀ cnt, cnt ≤ runLen notLB after →
      phoneDigitSearch (truncB after) cnt = phoneDigitSearch after cnt := by
  intro cnt
  induction cnt with
  | zero => intro _; rfl
  | succ c0 ih =>
      intro hle
      unfold phoneDigitSearch
      by_cases h7 : c0 + 1 < 7
      · rw [if_pos h7, if_pos h7]
      · rw [if_neg h7, if_neg h7]
        by_cases hget : c0 + 1 < runLen notLB after
        · rw [truncB_get_lt after _ hget]
          cases hg : after.get? (c0 + 1) with
          | none => exact ih (by omega)
          | some ch =>
              by_cases hdig : isDigitChar ch
              · simp only [hdig, if_true]
              · simp only [hdig, Bool.false_eq_true, if_false]
                exact ih (by omega)
        · have h1 : (truncB after).get? (c0 + 1) = none :=
            get?_none_of_len_le _ _ (by rw [truncB_length_eq_runLen]; omega)
          rw [h1]
          rcases truncB_get_boundary after (c0 + 1) (by omega) with
            ⟨_, h | ⟨_, h⟩⟩ | ⟨_, hlt⟩
          · rw [h]
            exact ih (by omega)
          · rw [h]
            have hdig : isDigitChar '[' = false := by decide
            simp only [hdig, Bool.false_eq_true, if_false]
            exact ih (by omega)
          · omega

theorem phoneBody_trunc (u : List Char) : phoneBody (truncB u) = phoneBody u := by
  cases u with
  | nil => rfl
  | cons c rest =>
      by_cases hc : notLB c
      · have h1 : truncB (c :: rest) = c :: truncB rest := by
          simp [truncB, List.takeWhile, hc]
        rw [h1, phoneBody_cons, phoneBody_cons]
        by_cases hdig : isDigitChar c
        · rw [if_pos hdig, if_pos hdig]
          have hm : runLen isPhoneInnerChar (truncB rest) = runLen isPhoneInnerChar rest :=
            runLen_takeWhile _ _ _ isPhoneInnerChar_imp_notLB
          rw [hm, phoneDigitSearch_trunc rest _
            (runLen_mono _ _ _ isPhoneInnerChar_imp_notLB)]
        · rw [if_neg hdig, if_neg hdig]
      · have hcb : c = '[' := by
          by_cases h : c = '['
          · exact h
          · exact absurd (by simp [notLB, h]) hc
        subst hcb
        have h1 : truncB ('[' :: rest) = [] := by
          simp [truncB, List.takeWhile, notLB]
        rw [h1, phoneBody_cons]
        rw [if_neg (by decide)]
        rfl

theorem phoneLen_trunc (s : List Char) : phoneLen (truncB s) = phoneLen s := by
  by_cases h0 : runLen notLB s = 0
  · rw [truncB_nil_of s h0, phoneLen_nil]
    cases s with
    | nil => rfl
    | cons c rest =>
        rw [runLen] at h0
        by_cases hc : notLB c
        · rw [if_pos hc] at h0
          omega
        · have hcb : c = '[' := by
            by_cases h : c = '['
            · exact h
            · exact absurd (by simp [notLB, h]) hc
          subst hcb
          exact (phoneLen_none_of_head '[' rest (by decide) (by decide)).symm
  · rw [phoneLen_eq, phoneLen_eq]
    rw [truncB_get_lt s 0 (by omega)]
    by_cases hp : s.get? 0 = some '+'
    · rw [if_pos hp, if_pos hp]
      have hdrop : (truncB s).drop 1 = truncB (s.drop 1) := truncB_drop s 1 (by omega)
      rw [hdrop, phoneBody_trunc]
    · rw [if_neg hp, if_neg hp, phoneBody_trunc]

theorem numberMatch_trunc (pw : Bool) (s : List Char) :
    numberMatch pw (truncB s) = numberMatch pw s := by
  rw [numberMatch_eq, numberMatch_eq]
  have hr : runLen isDigitChar (truncB s) = runLen isDigitChar s :=
    runLen_takeWhile _ _ _ isDigitChar_imp_notLB
  rw [hr]
  have hb : boundaryOk ((truncB s).get? (runLen isDigitChar s)) =
      boundaryOk (s.get? (runLen isDigitChar s)) := by
    have hle : runLen isDigitChar s ≤ runLen notLB s :=
      runLen_mono _ _ _ isDigitChar_imp_notLB
    by_cases hlt : runLen isDigitChar s < runLen notLB s
    · rw [truncB_get_lt s _ hlt]
    · have h1 : (truncB s).get? (runLen isDigitChar s) = none :=
        get?_none_of_len_le _ _ (by rw [truncB_length_eq_runLen]; omega)
      rw [h1]
      rcases truncB_get_boundary s (runLen isDigitChar s) (by omega) with
        ⟨_, h | ⟨_, h⟩⟩ | ⟨_, hlt2⟩
      · rw [h]
      · rw [h]
        decide
      · omega
  rw [hb]

/-! ### EXT: a match inside a prefix extends to a match of the full string -/

theorem take_drop_comm (s : List Char) : ∀ k i, (s.take k).drop i = (s.drop i).take (k - i) := by
  induction s with
  | nil => intro k i; simp
  | cons c rest ih =>
      intro k i
      cases k with
      | zero => simp
      | succ k0 =>
          cases i with
          | zero => simp
          | succ i0 =>
              rw [List.take_succ_cons, List.drop_succ_cons, List.drop_succ_cons, ih k0 i0]
              have h : k0 + 1 - (i0 + 1) = k0 - i0 := by omega
              rw [h]

theorem get?_take_some (s : List Char) (k i : Nat) (c : Char)
    (h : (s.take k).get? i = some c) : i < k ∧ s.get? i = some c := by
  by_cases hik : i < k
  · exact ⟨hik, by rw [← get?_take_lt s k i hik]; exact h⟩
  · exfalso
    have hlen : (s.take k).length ≤ i := by
      have := List.length_take k s
      have h2 : (s.take k).length ≤ k := by rw [this]; omega
      omega
    rw [get?_none_of_len_le _ i hlen] at h
    cases h

theorem emailDomainSearch_success (after : List Char) :
    ∀ start n, emailDomainSearch after start = some n →
      ∃ dd, 1 ≤ dd ∧ dd ≤ start ∧ after.get? dd = some '.' ∧
        2 ≤ runLen isAsciiAlpha (after.drop (dd + 1)) := by
  intro start
  induction start with
  | zero => intro n h; cases h
  | succ d0 ih =>
      intro n h
      rw [emailDomainSearch_eq] at h
      by_cases hc : after.get? (d0 + 1) = some '.' ∧
          2 ≤ runLen isAsciiAlpha (after.drop (d0 + 2))
      · exact ⟨d0 + 1, by omega, by omega, hc.1, hc.2⟩
      · rw [if_neg hc] at h
        obtain ⟨dd, h1, h2, h3, h4⟩ := ih n h
        exact ⟨dd, h1, by omega, h3, h4⟩

theorem emailDomainSearch_of_candidate (after : List Char) :
    ∀ start, (∃ dd, 1 ≤ dd ∧ dd ≤ start ∧ after.get? dd = some '.' ∧
        2 ≤ runLen isAsciiAlpha (after.drop (dd + 1))) →
      emailDomainSearch after start ≠ none := by
  intro start
  induction start with
  | zero =>
      intro ⟨dd, h1, h2, _, _⟩
      omega
  | succ d0 ih =>
      intro ⟨dd, h1, h2, h3, h4⟩
      rw [emailDomainSearch_eq]
      by_cases hc : after.get? (d0 + 1) = some '.' ∧
          2 ≤ runLen isAsciiAlpha (after.drop (d0 + 2))
      · rw [if_pos hc]
        simp
      · rw [if_neg hc]
        refine ih ⟨dd, h1, ?_, h3, h4⟩
        by_cases hdd : dd = d0 + 1
        · subst hdd
          exact absurd ⟨h3, h4⟩ hc
        · omega

theorem emailLen_ext (s : List Char) (k : Nat)
    (h : emailLen (s.take k) ≠ none) : emailLen s ≠ none := by
  rw [emailLen_eq] at h
  by_cases h0 : runLen isLocalChar (s.take k) = 0
  · rw [if_pos h0] at h
    exact absurd rfl h
  · rw [if_neg h0] at h
    by_cases hat : (s.take k).get? (runLen isLocalChar (s.take k)) = some '@'
    · rw [if_pos hat] at h
      obtain ⟨hlt, hat2⟩ := get?_take_some s k _ _ hat
      have hrt : runLen isLocalChar (s.take k) = runLen isLocalChar s := by
        rw [runLen_take] at h0 hlt hat2 ⊢
        by_cases hmin : runLen isLocalChar s ≤ k
        · omega
        · exfalso
          have hk : min (runLen isLocalChar s) k = k := by omega
          rw [hk] at hat2
          obtain ⟨ci, hci, hloc⟩ := runLen_get isLocalChar s k (by omega)
          rw [hci] at hat2
          injection hat2 with hc
          subst hc
          cases hloc
      rw [hrt] at h0 hat2
      rw [emailLen_eq, if_neg h0, if_pos hat2]
      rw [hrt, take_drop_comm] at h
      cases hsearch : emailDomainSearch
          ((s.drop (runLen isLocalChar s + 1)).take (k - (runLen isLocalChar s + 1)))
          (runLen isDomainChar
            ((s.drop (runLen isLocalChar s + 1)).take (k - (runLen isLocalChar s + 1)))) with
      | none =>
          rw [hsearch] at h
          exact absurd rfl h
      | some n =>
          obtain ⟨dd, hd1, hd2, hd3, hd4⟩ := emailDomainSearch_success _ _ n hsearch
          obtain ⟨hddlt, hdot⟩ := get?_take_some _ _ _ _ hd3
          have halpha : 2 ≤ runLen isAsciiAlpha
              ((s.drop (runLen isLocalChar s + 1)).drop (dd + 1)) := by
            rw [take_drop_comm, runLen_take] at hd4
            omega
          have hdmax : dd ≤ runLen isDomainChar (s.drop (runLen isLocalChar s + 1)) := by
            rw [runLen_take] at hd2
            omega
          have hres := emailDomainSearch_of_candidate (s.drop (runLen isLocalChar s + 1))
            _ ⟨dd, hd1, hdmax, hdot, halpha⟩
          cases hres2 : emailDomainSearch (s.drop (runLen isLocalChar s + 1))
              (runLen isDomainChar (s.drop (runLen isLocalChar s + 1))) with
          | none => exact absurd hres2 hres
          | some n2 => simp
    · rw [if_neg hat] at h
      exact absurd rfl h

theorem phoneDigitSearch_succ (after : List Char) (c : Nat) :
    phoneDigitSearch after (c + 1) =
      if c + 1 < 7 then none
      else
        match after.get? (c + 1) with
        | some ch => if isDigitChar ch then some (c + 1) else phoneDigitSearch after c
        | none => phoneDigitSearch after c := rfl

theorem phoneDigitSearch_success (after : List Char) :
    ∀ start n, phoneDigitSearch after start = some n →
      ∃ cc ch, 7 ≤ cc ∧ cc ≤ start ∧ after.get? cc = some ch ∧ isDigitChar ch = true := by
  intro start
  induction start with
  | zero => intro n h; cases h
  | succ d0 ih =>
      intro n h
      rw [phoneDigitSearch_succ] at h
      by_cases h7 : d0 + 1 < 7
      · rw [if_pos h7] at h
        cases h
      · rw [if_neg h7] at h
        cases hg : after.get? (d0 + 1) with
        | none =>
            rw [hg] at h
            obtain ⟨cc, ch, a1, a2, a3, a4⟩ := ih n h
            exact ⟨cc, ch, a1, by omega, a3, a4⟩
        | some ch2 =>
            rw [hg] at h
            replace h : (if isDigitChar ch2 = true then some (d0 + 1)
                else phoneDigitSearch after d0) = some n := h
            by_cases hdig : isDigitChar ch2
            · exact ⟨d0 + 1, ch2, by omega, by omega, hg, hdig⟩
            · rw [if_neg hdig] at h
              obtain ⟨cc, ch, a1, a2, a3, a4⟩ := ih n h
              exact ⟨cc, ch, a1, by omega, a3, a4⟩

theorem phoneDigitSearch_of_candidate (after : List Char) :
    ∀ start, (∃ cc ch, 7 ≤ cc ∧ cc ≤ start ∧ after.get? cc = some ch ∧
        isDigitChar ch = true) →
      phoneDigitSearch after start ≠ none := by
  intro start
  induction start with
  | zero =>
      intro ⟨cc, ch, h1, h2, _, _⟩
      omega
  | succ d0 ih =>
      intro ⟨cc, ch, h1, h2, h3, h4⟩
      rw [phoneDigitSearch_succ, if_neg (by omega)]
      cases hg : after.get? (d0 + 1) with
      | none =>
          refine ih ⟨cc, ch, h1, ?_, h3, h4⟩
          by_cases hcc : cc = d0 + 1
          · subst hcc
            rw [hg] at h3
            cases h3
          · omega
      | some ch2 =>
          show (if isDigitChar ch2 = true then some (d0 + 1)
              else phoneDigitSearch after d0) ≠ none
          by_cases hdig : isDigitChar ch2
          · rw [if_pos hdig]
            simp
          · rw [if_neg hdig]
            refine ih ⟨cc, ch, h1, ?_, h3, h4⟩
            by_cases hcc : cc = d0 + 1
            · subst hcc
              rw [hg] at h3
              injection h3 with h3
              subst h3
              exact absurd h4 hdig
            · omega

theorem phoneBody_ext (u : List Char) (j : Nat)
    (h : phoneBody (u.take j) ≠ none) : phoneBody u ≠ none := by
  cases u with
  | nil =>
      rw [List.take_nil] at h
      exact absurd rfl h
  | cons c rest =>
      cases j with
      | zero => exact absurd rfl h
      | succ j0 =>
          rw [List.take_succ_cons, phoneBody_cons] at h
          rw [phoneBody_cons]
          by_cases hdig : isDigitChar c
          · rw [if_pos hdig] at h ⊢
            cases hs : phoneDigitSearch (rest.take j0)
                (runLen isPhoneInnerChar (rest.take j0)) with
            | none =>
                rw [hs] at h
                exact absurd rfl h
            | some n =>
                obtain ⟨cc, ch, a1, a2, a3, a4⟩ := phoneDigitSearch_success _ _ n hs
                obtain ⟨hlt, hget⟩ := get?_take_some _ _ _ _ a3
                have hle : cc ≤ runLen isPhoneInnerChar rest := by
                  rw [runLen_take] at a2
                  omega
                have hres := phoneDigitSearch_of_candidate rest
                  (runLen isPhoneInnerChar rest) ⟨cc, ch, a1, hle, hget, a4⟩
                cases hres2 : phoneDigitSearch rest (runLen isPhoneInnerChar rest) with
                | none => exact absurd hres2 hres
                | some n2 => simp
          · rw [if_neg hdig] at h
            exact absurd rfl h

theorem phoneLen_ext (s : List Char) (k : Nat)
    (h : phoneLen (s.take k) ≠ none) : phoneLen s ≠ none := by
  cases k with
  | zero =>
      rw [List.take_zero] at h
      exact absurd rfl h
  | succ k0 =>
      rw [phoneLen_eq, get?_take_lt s (k0 + 1) 0 (by omega)] at h
      rw [phoneLen_eq]
      by_cases hp : s.get? 0 = some '+'
      · rw [if_pos hp] at h ⊢
        rw [take_drop_comm] at h
        cases hb : phoneBody ((s.drop 1).take (k0 + 1 - 1)) with
        | none =>
            rw [hb] at h
            exact absurd rfl h
        | some n =>
            have hres := phoneBody_ext (s.drop 1) (k0 + 1 - 1) (by rw [hb]; simp)
            cases hres2 : phoneBody (s.drop 1) with
            | none => exact absurd hres2 hres
            | some n2 => simp
      · rw [if_neg hp] at h ⊢
        exact phoneBody_ext s (k0 + 1) h

/-! ### Token safety: no nonempty suffix of a replacement token starts a match -/

theorem mem_of_get? (s : List Char) : ∀ i c, s.get? i = some c → c ∈ s := by
  induction s with
  | nil => intro i c h; cases h
  | cons a rest ih =>
      intro i c h
      cases i with
      | zero =>
          rw [List.get?_cons_zero] at h
          injection h with h
          subst h
          exact List.mem_cons_self a rest
      | succ i0 =>
          rw [List.get?_cons_succ] at h
          exact List.mem_cons_of_mem a (ih i0 c h)

theorem get?_of_mem (s : List Char) (c : Char) (h : c ∈ s) :
    ∃ i, s.get? i = some c := by
  induction s with
  | nil => cases h
  | cons a rest ih =>
      rcases List.mem_cons.mp h with h1 | h2
      · exact ⟨0, by rw [h1]; rfl⟩
      · obtain ⟨i, hi⟩ := ih h2
        exact ⟨i + 1, by rw [List.get?_cons_succ]; exact hi⟩

theorem get?_some_lt (s : List Char) (i : Nat) (c : Char) (h : s.get? i = some c) :
    i < s.length := by
  by_contra hle
  rw [get?_none_of_len_le s i (by omega)] at h
  cases h

theorem runLen_lt_of_exists (p : Char → Bool) (t1 : List Char)
    (h : ∃ c ∈ t1, p c = false) : runLen p t1 < t1.length := by
  obtain ⟨c, hmem, hpc⟩ := h
  by_contra hge
  have hlen := runLen_le_length p t1
  obtain ⟨i, hi⟩ := get?_of_mem t1 c hmem
  have hilt := get?_some_lt t1 i c hi
  obtain ⟨ci, hci, hpci⟩ := runLen_get p t1 i (by omega)
  rw [hi] at hci
  injection hci with hci
  subst hci
  rw [hpci] at hpc
  cases hpc

theorem emailLen_none_of_chunk (t1 X : List Char) (hne : t1 ≠ [])
    (hno : ∀ c ∈ t1, c ≠ '@') (hstop : ∃ c ∈ t1, isLocalChar c = false) :
    emailLen (t1 ++ X) = none := by
  have hjlt : runLen isLocalChar t1 < t1.length := runLen_lt_of_exists _ _ hstop
  obtain ⟨cj, hcj, hcjloc⟩ := runLen_stop isLocalChar t1 hjlt
  have hrun : runLen isLocalChar (t1 ++ X) = runLen isLocalChar t1 := by
    refine runLen_eq_of _ _ _ (fun i hi => ?_) (fun c hc => ?_)
    · obtain ⟨ci, h1, h2⟩ := runLen_get isLocalChar t1 i hi
      refine ⟨ci, ?_, h2⟩
      rw [get?_append_left t1 X i (by omega), h1]
    · rw [get?_append_left t1 X _ (by omega), hcj] at hc
      injection hc with hc
      subst hc
      exact hcjloc
  rw [emailLen_eq, hrun]
  by_cases h0 : runLen isLocalChar t1 = 0
  · rw [if_pos h0]
  · rw [if_neg h0, if_neg]
    intro hat
    rw [get?_append_left t1 X _ (by omega), hcj] at hat
    injection hat with hat
    exact hno cj (mem_of_get? t1 _ cj hcj) hat

theorem email_safe_of_token (tok : List Char)
    (htok : ∀ t1 ∈ tok.tails, t1 ≠ [] →
      ((∀ c ∈ t1, c ≠ '@') ∧ ∃ c ∈ t1, isLocalChar c = false)) :
    ∀ t1 X, t1 ≠ [] → t1 <:+ tok → emailLen (t1 ++ X) = none := by
  intro t1 X hne hsuf
  have h := htok t1 ((List.mem_tails t1 tok).mpr hsuf) hne
  exact emailLen_none_of_chunk t1 X hne h.1 h.2

theorem phone_safe_of_token (tok : List Char)
    (htok : ∀ t1 ∈ tok.tails,
      t1.head?.all (fun c => !isDigitChar c && c ≠ '+') = true) :
    ∀ t1 X, t1 ≠ [] → t1 <:+ tok → phoneLen (t1 ++ X) = none := by
  intro t1 X hne hsuf
  have h := htok t1 ((List.mem_tails t1 tok).mpr hsuf)
  cases t1 with
  | nil => exact absurd rfl hne
  | cons c r =>
      have h2 : ((!isDigitChar c) && decide (c ≠ '+')) = true := h
      cases hd : isDigitChar c with
      | true =>
          rw [hd] at h2
          simp at h2
      | false =>
          by_cases hp : c = '+'
          · subst hp
            simp at h2
          · rw [List.cons_append]
            exact phoneLen_none_of_head c (r ++ X) hd hp

theorem number_safe_of_token (tok : List Char)
    (htok : ∀ t1 ∈ tok.tails, t1.head?.all (fun c => !isDigitChar c) = true) :
    ∀ pw t1 X, t1 ≠ [] → t1 <:+ tok → numberMatch pw (t1 ++ X) = none := by
  intro pw t1 X hne hsuf
  have h := htok t1 ((List.mem_tails t1 tok).mpr hsuf)
  cases t1 with
  | nil => exact absurd rfl hne
  | cons c r =>
      have h2 : (!isDigitChar c) = true := h
      cases hd : isDigitChar c with
      | true =>
          rw [hd] at h2
          simp at h2
      | false =>
          rw [List.cons_append]
          exact numberMatch_none_of_head pw c (r ++ X) hd

theorem email_safe_emailToken :
    ∀ t1 X, t1 ≠ [] → t1 <:+ emailToken → emailLen (t1 ++ X) = none :=
  email_safe_of_token emailToken (by decide)

theorem email_safe_phoneToken :
    ∀ t1 X, t1 ≠ [] → t1 <:+ phoneToken → emailLen (t1 ++ X) = none :=
  email_safe_of_token phoneToken (by decide)

theorem email_safe_numberToken :
    ∀ t1 X, t1 ≠ [] → t1 <:+ numberToken → emailLen (t1 ++ X) = none :=
  email_safe_of_token numberToken (by decide)

theorem phone_safe_phoneToken :
    ∀ t1 X, t1 ≠ [] → t1 <:+ phoneToken → phoneLen (t1 ++ X) = none :=
  phone_safe_of_token phoneToken (by decide)

theorem phone_safe_numberToken :
    ∀ t1 X, t1 ≠ [] → t1 <:+ numberToken → phoneLen (t1 ++ X) = none :=
  phone_safe_of_token numberToken (by decide)

theorem number_safe_numberToken :
    ∀ pw t1 X, t1 ≠ [] → t1 <:+ numberToken → numberMatch pw (t1 ++ X) = none :=
  number_safe_of_token numberToken (by decide)

/-! ### Scanner unfolding lemmas and the no-match invariant -/

theorem scanReplace_nil (m : List Char → Option Nat) (hm : ∀ s n, m s = some n → 0 < n)
    (tok : List Char) : scanReplace m hm tok [] = [] := by
  rw [scanReplace]

theorem scanReplace_cons_some (m : List Char → Option Nat)
    (hm : ∀ s n, m s = some n → 0 < n) (tok : List Char) (c : Char) (rest : List Char)
    (n : Nat) (h : m (c :: rest) = some n) :
    scanReplace m hm tok (c :: rest) =
      tok ++ scanReplace m hm tok ((c :: rest).drop n) := by
  rw [scanReplace]
  split
  · next n2 heq =>
      rw [h] at heq
      injection heq with heq
      rw [heq]
  · next heq =>
      rw [h] at heq
      cases heq

theorem scanReplace_cons_none (m : List Char → Option Nat)
    (hm : ∀ s n, m s = some n → 0 < n) (tok : List Char) (c : Char) (rest : List Char)
    (h : m (c :: rest) = none) :
    scanReplace m hm tok (c :: rest) = c :: scanReplace m hm tok rest := by
  rw [scanReplace]
  split
  · next n2 heq =>
      rw [h] at heq
      cases heq
  · rfl

theorem scanCtx_nil (m : Bool → List Char → Option Nat)
    (hm : ∀ pw s n, m pw s = some n → 0 < n) (tok : List Char) (pw : Bool) :
    scanReplaceCtx m hm tok pw [] = [] := by
  rw [scanReplaceCtx]

theorem scanCtx_cons_some (m : Bool → List Char → Option Nat)
    (hm : ∀ pw s n, m pw s = some n → 0 < n) (tok : List Char) (pw : Bool) (c : Char)
    (rest : List Char) (n : Nat) (h : m pw (c :: rest) = some n) :
    scanReplaceCtx m hm tok pw (c :: rest) =
      tok ++ scanReplaceCtx m hm tok
        (match (c :: rest).get? (n - 1) with
         | some ch => isWordChar ch
         | none => false) ((c :: rest).drop n) := by
  rw [scanReplaceCtx]
  split
  · next n2 heq =>
      rw [h] at heq
      injection heq with heq
      rw [heq]
  · next heq =>
      rw [h] at heq
      cases heq

theorem scanCtx_cons_none (m : Bool → List Char → Option Nat)
    (hm : ∀ pw s n, m pw s = some n → 0 < n) (tok : List Char) (pw : Bool) (c : Char)
    (rest : List Char) (h : m pw (c :: rest) = none) :
    scanReplaceCtx m hm tok pw (c :: rest) =
      c :: scanReplaceCtx m hm tok (isWordChar c) rest := by
  rw [scanReplaceCtx]
  split
  · next n2 heq =>
      rw [h] at heq
      cases heq
  · rfl

/-- No suffix of `u` starts a match of the context-free matcher `m`. -/
def NoMatchCF (m : List Char → Option Nat) (u : List Char) : Prop :=
  ∀ v, v <:+ u → m v = none

theorem nomatch_suffix (m : List Char → Option Nat) (s u : List Char)
    (h : NoMatchCF m s) (hu : u <:+ s) : NoMatchCF m u :=
  fun v hv => h v (hv.trans hu)

theorem suffix_append_cases {α : Type} (v l1 l2 : List α) (h : v <:+ l1 ++ l2) :
    v <:+ l2 ∨ ∃ t1, t1 ≠ [] ∧ t1 <:+ l1 ∧ v = t1 ++ l2 := by
  induction l1 with
  | nil =>
      left
      simpa using h
  | cons a l1x ih =>
      rw [List.cons_append] at h
      rcases List.suffix_cons_iff.mp h with h1 | h2
      · right
        exact ⟨a :: l1x, by simp, List.suffix_refl _, by rw [h1, List.cons_append]⟩
      · rcases ih h2 with h3 | ⟨t1, ht1, ht2, ht3⟩
        · left
          exact h3
        · right
          exact ⟨t1, ht1, ht2.trans (List.suffix_cons a l1x), ht3⟩

theorem truncB_cons_pos (c : Char) (x : List Char) (hc : notLB c = true) :
    truncB (c :: x) = c :: truncB x := by
  simp [truncB, List.takeWhile, hc]

theorem truncB_cons_neg (x : List Char) : truncB ('[' :: x) = [] := by
  simp [truncB, List.takeWhile, notLB]

theorem notLB_false_eq (c : Char) (hc : ¬ notLB c = true) : c = '[' := by
  by_cases h : c = '['
  · exact h
  · exact absurd (by simp [notLB, h]) hc

theorem scanReplace_share (m : List Char → Option Nat)
    (hm : ∀ s n, m s = some n → 0 < n) (tok : List Char)
    (hhead : ∃ tokt, tok = '[' :: tokt) :
    ∀ s, ∃ K, truncB (scanReplace m hm tok s) = (truncB s).take K := by
  obtain ⟨tokt, rfl⟩ := hhead
  suffices hstep : ∀ L s, s.length ≤ L →
      ∃ K, truncB (scanReplace m hm ('[' :: tokt) s) = (truncB s).take K by
    intro s
    exact hstep s.length s le_rfl
  intro L
  induction L with
  | zero =>
      intro s hs
      have hsz : s = [] := List.length_eq_zero.mp (by omega)
      subst hsz
      exact ⟨0, by rw [scanReplace_nil]; rfl⟩
  | succ L0 ih =>
      intro s hs
      cases s with
      | nil => exact ⟨0, by rw [scanReplace_nil]; rfl⟩
      | cons c rest =>
          cases hmc : m (c :: rest) with
          | some n =>
              rw [scanReplace_cons_some m hm _ c rest n hmc]
              refine ⟨0, ?_⟩
              rw [List.take_zero, List.cons_append, truncB_cons_neg]
          | none =>
              rw [scanReplace_cons_none m hm _ c rest hmc]
              by_cases hc : notLB c
              · obtain ⟨K, hK⟩ := ih rest (by simp only [List.length_cons] at hs; omega)
                refine ⟨K + 1, ?_⟩
                rw [truncB_cons_pos c _ hc, truncB_cons_pos c rest hc,
                  List.take_succ_cons, hK]
              · have hcb : c = '[' := notLB_false_eq c hc
                subst hcb
                exact ⟨0, by rw [List.take_zero, truncB_cons_neg]⟩

theorem scanCtx_share (m : Bool → List Char → Option Nat)
    (hm : ∀ pw s n, m pw s = some n → 0 < n) (tok : List Char)
    (hhead : ∃ tokt, tok = '[' :: tokt) :
    ∀ s pw, ∃ K, truncB (scanReplaceCtx m hm tok pw s) = (truncB s).take K := by
  obtain ⟨tokt, rfl⟩ := hhead
  suffices hstep : ∀ L s pw, s.length ≤ L →
      ∃ K, truncB (scanReplaceCtx m hm ('[' :: tokt) pw s) = (truncB s).take K by
    intro s pw
    exact hstep s.length s pw le_rfl
  intro L
  induction L with
  | zero =>
      intro s pw hs
      have hsz : s = [] := List.length_eq_zero.mp (by omega)
      subst hsz
      exact ⟨0, by rw [scanCtx_nil]; rfl⟩
  | succ L0 ih =>
      intro s pw hs
      cases s with
      | nil => exact ⟨0, by rw [scanCtx_nil]; rfl⟩
      | cons c rest =>
          cases hmc : m pw (c :: rest) with
          | some n =>
              rw [scanCtx_cons_some m hm _ pw c rest n hmc]
              refine ⟨0, ?_⟩
              rw [List.take_zero, List.cons_append, truncB_cons_neg]
          | none =>
              rw [scanCtx_cons_none m hm _ pw c rest hmc]
              by_cases hc : notLB c
              · obtain ⟨K, hK⟩ := ih rest (isWordChar c)
                  (by simp only [List.length_cons] at hs; omega)
                refine ⟨K + 1, ?_⟩
                rw [truncB_cons_pos c _ hc, truncB_cons_pos c rest hc,
                  List.take_succ_cons, hK]
              · have hcb : c = '[' := notLB_false_eq c hc
                subst hcb
                exact ⟨0, by rw [List.take_zero, truncB_cons_neg]⟩

/-! ### SELF, PRESERVE and FIX for the context-free scanners -/

theorem scanReplace_self (m : List Char → Option Nat)
    (hm : ∀ s n, m s = some n → 0 < n) (tok : List Char)
    (hhead : ∃ tokt, tok = '[' :: tokt)
    (hcut : ∀ s, m (truncB s) = m s)
    (hext : ∀ s k, m (s.take k) ≠ none → m s ≠ none)
    (hnil : m [] = none)
    (hsafe : ∀ t1 X, t1 ≠ [] → t1 <:+ tok → m (t1 ++ X) = none) :
    ∀ s, NoMatchCF m (scanReplace m hm tok s) := by
  suffices hstep : ∀ L s, s.length ≤ L → NoMatchCF m (scanReplace m hm tok s) by
    intro s
    exact hstep s.length s le_rfl
  intro L
  induction L with
  | zero =>
      intro s hs
      have hsz : s = [] := List.length_eq_zero.mp (by omega)
      subst hsz
      rw [scanReplace_nil]
      intro v hv
      rw [List.suffix_nil.mp hv]
      exact hnil
  | succ L0 ih =>
      intro s hs
      cases s with
      | nil =>
          rw [scanReplace_nil]
          intro v hv
          rw [List.suffix_nil.mp hv]
          exact hnil
      | cons c rest =>
          cases hmc : m (c :: rest) with
          | some n =>
              rw [scanReplace_cons_some m hm _ c rest n hmc]
              intro v hv
              have hout1 : NoMatchCF m (scanReplace m hm tok ((c :: rest).drop n)) := by
                refine ih ((c :: rest).drop n) ?_
                have hn := hm _ _ hmc
                simp only [List.length_drop, List.length_cons]
                simp only [List.length_cons] at hs
                omega
              rcases suffix_append_cases v _ _ hv with h1 | ⟨t1, ht1, ht2, ht3⟩
              · exact hout1 v h1
              · rw [ht3]
                exact hsafe t1 _ ht1 ht2
          | none =>
              rw [scanReplace_cons_none m hm _ c rest hmc]
              intro v hv
              have hout1 : NoMatchCF m (scanReplace m hm tok rest) :=
                ih rest (by simp only [List.length_cons] at hs; omega)
              rcases List.suffix_cons_iff.mp hv with h1 | h2
              · rw [h1]
                by_contra hne
                have hne2 : m (truncB (c :: scanReplace m hm tok rest)) ≠ none := by
                  rw [hcut]
                  exact hne
                by_cases hc : notLB c
                · obtain ⟨K, hK⟩ := scanReplace_share m hm tok hhead rest
                  rw [truncB_cons_pos c _ hc, hK] at hne2
                  have heq2 : c :: (truncB rest).take K =
                      (truncB (c :: rest)).take (K + 1) := by
                    rw [truncB_cons_pos c rest hc, List.take_succ_cons]
                  rw [heq2] at hne2
                  have hfull := hext (truncB (c :: rest)) (K + 1) hne2
                  rw [hcut] at hfull
                  exact hfull hmc
                · have hcb : c = '[' := notLB_false_eq c hc
                  subst hcb
                  rw [truncB_cons_neg] at hne2
                  exact hne2 hnil
              · exact hout1 v h2

theorem scanReplace_preserve (m1 m2 : List Char → Option Nat)
    (hm2 : ∀ s n, m2 s = some n → 0 < n) (tok : List Char)
    (hhead : ∃ tokt, tok = '[' :: tokt)
    (hcut : ∀ s, m1 (truncB s) = m1 s)
    (hext : ∀ s k, m1 (s.take k) ≠ none → m1 s ≠ none)
    (hnil : m1 [] = none)
    (hsafe : ∀ t1 X, t1 ≠ [] → t1 <:+ tok → m1 (t1 ++ X) = none) :
    ∀ s, NoMatchCF m1 s → NoMatchCF m1 (scanReplace m2 hm2 tok s) := by
  suffices hstep : ∀ L s, s.length ≤ L → NoMatchCF m1 s →
      NoMatchCF m1 (scanReplace m2 hm2 tok s) by
    intro s
    exact hstep s.length s le_rfl
  intro L
  induction L with
  | zero =>
      intro s hs hnm
      have hsz : s = [] := List.length_eq_zero.mp (by omega)
      subst hsz
      rw [scanReplace_nil]
      exact hnm
  | succ L0 ih =>
      intro s hs hnm
      cases s with
      | nil =>
          rw [scanReplace_nil]
          exact hnm
      | cons c rest =>
          cases hmc : m2 (c :: rest) with
          | some n =>
              rw [scanReplace_cons_some m2 hm2 _ c rest n hmc]
              intro v hv
              have hout1 : NoMatchCF m1 (scanReplace m2 hm2 tok ((c :: rest).drop n)) := by
                refine ih ((c :: rest).drop n) ?_
                  (nomatch_suffix m1 _ _ hnm (List.drop_suffix n (c :: rest)))
                have hn := hm2 _ _ hmc
                simp only [List.length_drop, List.length_cons]
                simp only [List.length_cons] at hs
                omega
              rcases suffix_append_cases v _ _ hv with h1 | ⟨t1, ht1, ht2, ht3⟩
              · exact hout1 v h1
              · rw [ht3]
                exact hsafe t1 _ ht1 ht2
          | none =>
              rw [scanReplace_cons_none m2 hm2 _ c rest hmc]
              intro v hv
              have hout1 : NoMatchCF m1 (scanReplace m2 hm2 tok rest) :=
                ih rest (by simp only [List.length_cons] at hs; omega)
                  (nomatch_suffix m1 _ _ hnm (List.suffix_cons c rest))
              rcases List.suffix_cons_iff.mp hv with h1 | h2
              · rw [h1]
                by_contra hne
                have hne2 : m1 (truncB (c :: scanReplace m2 hm2 tok rest)) ≠ none := by
                  rw [hcut]
                  exact hne
                by_cases hc : notLB c
                · obtain ⟨K, hK⟩ := scanReplace_share m2 hm2 tok hhead rest
                  rw [truncB_cons_pos c _ hc, hK] at hne2
                  have heq2 : c :: (truncB rest).take K =
                      (truncB (c :: rest)).take (K + 1) := by
                    rw [truncB_cons_pos c rest hc, List.take_succ_cons]
                  rw [heq2] at hne2
                  have hfull := hext (truncB (c :: rest)) (K + 1) hne2
                  rw [hcut] at hfull
                  exact hfull (hnm (c :: rest) (List.suffix_refl _))
                · have hcb : c = '[' := notLB_false_eq c hc
                  subst hcb
                  rw [truncB_cons_neg] at hne2
                  exact hne2 hnil
              · exact hout1 v h2

theorem scanCtx_preserve (m1 : List Char → Option Nat)
    (mN : Bool → List Char → Option Nat)
    (hmN : ∀ pw s n, mN pw s = some n → 0 < n) (tok : List Char)
    (hhead : ∃ tokt, tok = '[' :: tokt)
    (hcut : ∀ s, m1 (truncB s) = m1 s)
    (hext : ∀ s k, m1 (s.take k) ≠ none → m1 s ≠ none)
    (hnil : m1 [] = none)
    (hsafe : ∀ t1 X, t1 ≠ [] → t1 <:+ tok → m1 (t1 ++ X) = none) :
    ∀ s pw, NoMatchCF m1 s → NoMatchCF m1 (scanReplaceCtx mN hmN tok pw s) := by
  suffices hstep : ∀ L s pw, s.length ≤ L → NoMatchCF m1 s →
      NoMatchCF m1 (scanReplaceCtx mN hmN tok pw s) by
    intro s pw
    exact hstep s.length s pw le_rfl
  intro L
  induction L with
  | zero =>
      intro s pw hs hnm
      have hsz : s = [] := List.length_eq_zero.mp (by omega)
      subst hsz
      rw [scanCtx_nil]
      exact hnm
  | succ L0 ih =>
      intro s pw hs hnm
      cases s with
      | nil =>
          rw [scanCtx_nil]
          exact hnm
      | cons c rest =>
          cases hmc : mN pw (c :: rest) with
          | some n =>
              rw [scanCtx_cons_some mN hmN _ pw c rest n hmc]
              intro v hv
              have hout1 : NoMatchCF m1 (scanReplaceCtx mN hmN tok
                  (match (c :: rest).get? (n - 1) with
                   | some ch => isWordChar ch
                   | none => false) ((c :: rest).drop n)) := by
                refine ih ((c :: rest).drop n) _ ?_
                  (nomatch_suffix m1 _ _ hnm (List.drop_suffix n (c :: rest)))
                have hn := hmN _ _ _ hmc
                simp only [List.length_drop, List.length_cons]
                simp only [List.length_cons] at hs
                omega
              rcases suffix_append_cases v _ _ hv with h1 | ⟨t1, ht1, ht2, ht3⟩
              · exact hout1 v h1
              · rw [ht3]
                exact hsafe t1 _ ht1 ht2
          | none =>
              rw [scanCtx_cons_none mN hmN _ pw c rest hmc]
              intro v hv
              have hout1 : NoMatchCF m1 (scanReplaceCtx mN hmN tok (isWordChar c) rest) :=
                ih rest _ (by simp only [List.length_cons] at hs; omega)
                  (nomatch_suffix m1 _ _ hnm (List.suffix_cons c rest))
              rcases List.suffix_cons_iff.mp hv with h1 | h2
              · rw [h1]
                by_contra hne
                have hne2 : m1 (truncB (c :: scanReplaceCtx mN hmN tok
                    (isWordChar c) rest)) ≠ none := by
                  rw [hcut]
                  exact hne
                by_cases hc : notLB c
                · obtain ⟨K, hK⟩ := scanCtx_share mN hmN tok hhead rest (isWordChar c)
                  rw [truncB_cons_pos c _ hc, hK] at hne2
                  have heq2 : c :: (truncB rest).take K =
                      (truncB (c :: rest)).take (K + 1) := by
                    rw [truncB_cons_pos c rest hc, List.take_succ_cons]
                  rw [heq2] at hne2
                  have hfull := hext (truncB (c :: rest)) (K + 1) hne2
                  rw [hcut] at hfull
                  exact hfull (hnm (c :: rest) (List.suffix_refl _))
                · have hcb : c = '[' := notLB_false_eq c hc
                  subst hcb
                  rw [truncB_cons_neg] at hne2
                  exact hne2 hnil
              · exact hout1 v h2

theorem scanReplace_fix (m : List Char → Option Nat)
    (hm : ∀ s n, m s = some n → 0 < n) (tok : List Char) :
    ∀ s, NoMatchCF m s → scanReplace m hm tok s = s := by
  intro s
  induction s with
  | nil => intro _; rw [scanReplace_nil]
  | cons c rest ih =>
      intro h
      have hmc : m (c :: rest) = none := h (c :: rest) (List.suffix_refl _)
      rw [scanReplace_cons_none m hm tok c rest hmc,
        ih (nomatch_suffix m _ rest h (List.suffix_cons c rest))]

/-! ### Word-boundary bookkeeping for the `\b\d{12,19}\b` scanner -/

theorem bool_false_of_not (b : Bool) (h : ¬ b = true) : b = false := by
  cases b
  · rfl
  · exact absurd rfl h

theorem numberMatch_true (s : List Char) : numberMatch true s = none := rfl

theorem isWordChar_of_digit (c : Char) (h : isDigitChar c = true) :
    isWordChar c = true := by
  simp [isWordChar, h]

theorem boundary_some_word (c : Char) (h : boundaryOk (some c) = true) :
    isWordChar c = false := by
  have h2 : decide (¬ isWordChar c = true) = true := h
  exact bool_false_of_not _ (of_decide_eq_true h2)

theorem getLast?_some_of_ne_nil {α : Type} (l : List α) (h : l ≠ []) :
    ∃ c, l.getLast? = some c := by
  induction l with
  | nil => exact absurd rfl h
  | cons a t ih =>
      cases t with
      | nil => exact ⟨a, rfl⟩
      | cons b t2 =>
          obtain ⟨c, hc⟩ := ih (by simp)
          exact ⟨c, by rw [List.getLast?_cons_cons]; exact hc⟩

theorem getLast?_append_right {α : Type} (l1 l2 : List α) (h : l2 ≠ []) :
    (l1 ++ l2).getLast? = l2.getLast? := by
  induction l1 with
  | nil => rw [List.nil_append]
  | cons a l1x ih =>
      rw [List.cons_append]
      cases hx : l1x ++ l2 with
      | nil =>
          rcases List.append_eq_nil.mp hx with ⟨_, h2⟩
          exact absurd h2 h
      | cons b t =>
          calc (a :: b :: t).getLast? = (b :: t).getLast? := List.getLast?_cons_cons
            _ = (l1x ++ l2).getLast? := by rw [hx]
            _ = l2.getLast? := ih

/-- The word-status of the character just before the rest of the string:
`pw` when nothing has been emitted yet, else the last emitted character. -/
def wordEndC (pw : Bool) (a : List Char) : Bool :=
  match a.getLast? with
  | some c => isWordChar c
  | none => pw

theorem wordEndC_nil (pw : Bool) : wordEndC pw [] = pw := rfl

theorem wordEndC_cons (pw : Bool) (c : Char) (a : List Char) :
    wordEndC pw (c :: a) = wordEndC (isWordChar c) a := by
  cases a with
  | nil => rfl
  | cons b t =>
      unfold wordEndC
      rw [List.getLast?_cons_cons]
      obtain ⟨x, hx⟩ := getLast?_some_of_ne_nil (b :: t) (by simp)
      rw [hx]

theorem wordEndC_append (pw pw2 : Bool) (a1 a2 : List Char) (h : a2 ≠ []) :
    wordEndC pw (a1 ++ a2) = wordEndC pw2 a2 := by
  unfold wordEndC
  rw [getLast?_append_right a1 a2 h]
  obtain ⟨c, hc⟩ := getLast?_some_of_ne_nil a2 h
  rw [hc]

theorem wordEndC_numberToken (pw : Bool) : wordEndC pw numberToken = false := by
  cases pw <;> rfl

/-- SHARE for the number scanner: its output either is the input, or agrees
with the input up to the first replacement, whose position carries a left
word boundary (or the inherited context `pw = false` at position 0). -/
theorem scanCtxN_share :
    ∀ L u pw, u.length ≤ L →
      scanReplaceCtx numberMatch numberMatch_pos numberToken pw u = u ∨
      ∃ J, (scanReplaceCtx numberMatch numberMatch_pos numberToken pw u).take J =
            u.take J ∧
        (J = 0 → pw = false) ∧
        ∀ j, J = j + 1 → ∃ ch, u.get? j = some ch ∧ isWordChar ch = false := by
  intro L
  induction L with
  | zero =>
      intro u pw hs
      left
      have hsz : u = [] := List.length_eq_zero.mp (by omega)
      subst hsz
      rw [scanCtx_nil]
  | succ L0 ih =>
      intro u pw hs
      cases u with
      | nil =>
          left
          rw [scanCtx_nil]
      | cons c rest =>
          cases hmc : numberMatch pw (c :: rest) with
          | some n =>
              right
              refine ⟨0, ?_, ?_, ?_⟩
              · rw [List.take_zero, List.take_zero]
              · intro _
                cases pw
                · rfl
                · rw [numberMatch_true] at hmc
                  cases hmc
              · intro j hj
                exact absurd hj (by omega)
          | none =>
              rw [scanCtx_cons_none numberMatch numberMatch_pos numberToken pw c rest hmc]
              rcases ih rest (isWordChar c)
                  (by simp only [List.length_cons] at hs; omega) with
                h1 | ⟨J, hJ1, hJ2, hJ3⟩
              · left
                rw [h1]
              · right
                refine ⟨J + 1, ?_, ?_, ?_⟩
                · rw [List.take_succ_cons, List.take_succ_cons, hJ1]
                · intro h0
                  exact absurd h0 (by omega)
                · intro j hj
                  cases J with
                  | zero =>
                      have hj0 : j = 0 := by omega
                      subst hj0
                      exact ⟨c, rfl, hJ2 rfl⟩
                  | succ J0 =>
                      have hj0 : j = J0 + 1 := by omega
                      subst hj0
                      obtain ⟨ch, hh1, hh2⟩ := hJ3 J0 rfl
                      exact ⟨ch, by rw [List.get?_cons_succ]; exact hh1, hh2⟩

theorem not_digit_of_not_word (c : Char) (h : isWordChar c = false) :
    isDigitChar c = false := by
  by_cases hd : isDigitChar c
  · rw [isWordChar_of_digit c hd] at h
    cases h
  · exact bool_false_of_not _ hd

/-- SELF for the number scanner: in its output, no position (with the
correct inherited left context) starts a `\b\d{12,19}\b` match. -/
theorem scanCtxN_self :
    ∀ L u pw, u.length ≤ L → ∀ a v,
      scanReplaceCtx numberMatch numberMatch_pos numberToken pw u = a ++ v →
      numberMatch (wordEndC pw a) v = none := by
  intro L
  induction L with
  | zero =>
      intro u pw hs a v h
      have hsz : u = [] := List.length_eq_zero.mp (by omega)
      subst hsz
      rw [scanCtx_nil] at h
      rcases List.append_eq_nil.mp h.symm with ⟨ha, hv⟩
      subst hv
      exact numberMatch_nil _
  | succ L0 ih =>
      intro u pw hs a v h
      cases u with
      | nil =>
          rw [scanCtx_nil] at h
          rcases List.append_eq_nil.mp h.symm with ⟨ha, hv⟩
          subst hv
          exact numberMatch_nil _
      | cons c rest =>
          cases hmc : numberMatch pw (c :: rest) with
          | some n =>
              rw [scanCtx_cons_some numberMatch numberMatch_pos numberToken
                pw c rest n hmc] at h
              rw [numberMatch_eq] at hmc
              by_cases hcond : pw = false ∧ 12 ≤ runLen isDigitChar (c :: rest) ∧
                  runLen isDigitChar (c :: rest) ≤ 19 ∧
                  boundaryOk ((c :: rest).get? (runLen isDigitChar (c :: rest))) = true
              case neg =>
                rw [if_neg hcond] at hmc
                cases hmc
              rw [if_pos hcond] at hmc
              injection hmc with hmc
              obtain ⟨hpw, h12, h19, hbd⟩ := hcond
              subst hmc
              obtain ⟨ch, hch, hchd⟩ := runLen_get isDigitChar (c :: rest)
                (runLen isDigitChar (c :: rest) - 1) (by omega)
              have hctx : (match (c :: rest).get? (runLen isDigitChar (c :: rest) - 1) with
                  | some ch2 => isWordChar ch2
                  | none => false) = isWordChar ch := by rw [hch]
              rw [hctx, isWordChar_of_digit ch hchd] at h
              have hv0 : numberMatch false
                  (scanReplaceCtx numberMatch numberMatch_pos numberToken true
                    ((c :: rest).drop (runLen isDigitChar (c :: rest)))) = none := by
                cases hdrop : (c :: rest).drop (runLen isDigitChar (c :: rest)) with
                | nil =>
                    rw [scanCtx_nil]
                    exact numberMatch_nil _
                | cons c2 tl2 =>
                    have hg2 : (c :: rest).get? (runLen isDigitChar (c :: rest)) =
                        some c2 := by
                      rw [get?_eq_head_drop, hdrop]
                      rfl
                    rw [hg2] at hbd
                    have hw2 : isWordChar c2 = false := boundary_some_word c2 hbd
                    have hd2 : isDigitChar c2 = false := not_digit_of_not_word c2 hw2
                    rw [scanCtx_cons_none numberMatch numberMatch_pos numberToken
                      true c2 tl2 (numberMatch_true _)]
                    exact numberMatch_none_of_head false c2 _ hd2
              have hlen : ((c :: rest).drop (runLen isDigitChar (c :: rest))).length ≤ L0 := by
                simp only [List.length_drop, List.length_cons]
                simp only [List.length_cons] at hs
                omega
              rcases List.append_eq_append_iff.mp h with ⟨a2, ha2, hout⟩ | ⟨w, hw1, hw2⟩
              · by_cases ha2nil : a2 = []
                · subst ha2nil
                  rw [List.append_nil] at ha2
                  rw [List.nil_append] at hout
                  subst ha2
                  rw [wordEndC_numberToken, ← hout]
                  exact hv0
                · subst ha2
                  rw [wordEndC_append pw true numberToken a2 ha2nil]
                  exact ih _ true hlen a2 v hout
              · by_cases hwnil : w = []
                · subst hwnil
                  rw [List.append_nil] at hw1
                  rw [List.nil_append] at hw2
                  subst hw1
                  subst hw2
                  rw [wordEndC_numberToken]
                  exact hv0
                · subst hw2
                  exact number_safe_numberToken (wordEndC pw a) w _ hwnil ⟨a, hw1.symm⟩
          | none =>
              rw [scanCtx_cons_none numberMatch numberMatch_pos numberToken
                pw c rest hmc] at h
              cases a with
              | nil =>
                  rw [List.nil_append] at h
                  subst h
                  rw [wordEndC_nil]
                  cases pw with
                  | true => exact numberMatch_true _
                  | false =>
                      by_cases hdig : isDigitChar c
                      case neg =>
                        exact numberMatch_none_of_head false c _ (bool_false_of_not _ hdig)
                      rcases scanCtxN_share rest.length rest (isWordChar c) le_rfl with
                        h1 | ⟨J, hJ1, hJ2, hJ3⟩
                      · rw [h1]
                        exact hmc
                      · cases J with
                        | zero =>
                            have hJ0 := hJ2 rfl
                            rw [isWordChar_of_digit c hdig] at hJ0
                            cases hJ0
                        | succ j0 =>
                            obtain ⟨ch, hch, hchw⟩ := hJ3 j0 rfl
                            have hA : ∀ i, i < j0 + 1 →
                                (scanReplaceCtx numberMatch numberMatch_pos numberToken
                                  (isWordChar c) rest).get? i = rest.get? i := by
                              intro i hi
                              rw [← get?_take_lt _ (j0 + 1) i hi, hJ1,
                                get?_take_lt rest (j0 + 1) i hi]
                            have hr2pos : runLen isDigitChar (c :: rest) =
                                runLen isDigitChar rest + 1 := by
                              rw [runLen, if_pos hdig]
                            have hB : runLen isDigitChar (c :: rest) ≤ j0 + 1 := by
                              by_contra hBc
                              obtain ⟨ci, hci, hcid⟩ := runLen_get isDigitChar (c :: rest)
                                (j0 + 1) (by omega)
                              rw [List.get?_cons_succ, hch] at hci
                              injection hci with hci
                              subst hci
                              exact absurd (isWordChar_of_digit _ hcid) (by simp [hchw])
                            have hE : (c :: scanReplaceCtx numberMatch numberMatch_pos
                                  numberToken (isWordChar c) rest).get?
                                  (runLen isDigitChar (c :: rest)) =
                                (c :: rest).get? (runLen isDigitChar (c :: rest)) := by
                              rw [hr2pos, List.get?_cons_succ, List.get?_cons_succ]
                              exact hA (runLen isDigitChar rest) (by omega)
                            have hC : runLen isDigitChar (c :: scanReplaceCtx numberMatch
                                  numberMatch_pos numberToken (isWordChar c) rest) =
                                runLen isDigitChar (c :: rest) := by
                              refine runLen_eq_of _ _ _ ?_ ?_
                              · intro i hi
                                cases i with
                                | zero => exact ⟨c, rfl, hdig⟩
                                | succ i0 =>
                                    obtain ⟨ci, hci, hcid⟩ :=
                                      runLen_get isDigitChar (c :: rest) (i0 + 1) hi
                                    refine ⟨ci, ?_, hcid⟩
                                    rw [List.get?_cons_succ] at hci
                                    rw [List.get?_cons_succ, hA i0 (by omega)]
                                    exact hci
                              · intro cs hcs
                                rw [hE] at hcs
                                have hlt := get?_some_lt _ _ _ hcs
                                obtain ⟨cs2, hcs2, hcs2d⟩ :=
                                  runLen_stop isDigitChar (c :: rest) hlt
                                rw [hcs] at hcs2
                                injection hcs2 with hcs2
                                subst hcs2
                                exact hcs2d
                            rw [numberMatch_eq, hC, hE]
                            rw [numberMatch_eq] at hmc
                            exact hmc
              | cons ac a1 =>
                  rw [List.cons_append] at h
                  injection h with h1 h2
                  subst h1
                  rw [wordEndC_cons]
                  exact ih rest (isWordChar c)
                    (by simp only [List.length_cons] at hs; omega) a1 v h2

/-- FIX for the number scanner. -/
theorem scanCtxN_fix :
    ∀ u pw, (∀ a v, u = a ++ v → numberMatch (wordEndC pw a) v = none) →
      scanReplaceCtx numberMatch numberMatch_pos numberToken pw u = u := by
  intro u
  induction u with
  | nil =>
      intro pw _
      rw [scanCtx_nil]
  | cons c rest ih =>
      intro pw h
      have hmc : numberMatch pw (c :: rest) = none := by
        have h2 := h [] (c :: rest) rfl
        rwa [wordEndC_nil] at h2
      rw [scanCtx_cons_none numberMatch numberMatch_pos numberToken pw c rest hmc]
      rw [ih (isWordChar c) ?_]
      intro a v hav
      have h2 := h (c :: a) v (by rw [List.cons_append, ← hav])
      rwa [wordEndC_cons] at h2

/-! ### Idempotence of the full redaction pipeline -/

theorem redactChars_idem (s : List Char) :
    redactChars (redactChars s) = redactChars s := by
  have hheadE : ∃ tokt, emailToken = '[' :: tokt := ⟨"REDACTED_EMAIL]".toList, rfl⟩
  have hheadP : ∃ tokt, phoneToken = '[' :: tokt := ⟨"REDACTED_PHONE]".toList, rfl⟩
  have hheadN : ∃ tokt, numberToken = '[' :: tokt := ⟨"REDACTED_NUMBER]".toList, rfl⟩
  have hE1 : NoMatchCF emailLen
      (scanReplace emailLen emailLen_pos emailToken s) :=
    scanReplace_self emailLen emailLen_pos emailToken hheadE emailLen_trunc
      emailLen_ext emailLen_nil email_safe_emailToken s
  have hE2 : NoMatchCF emailLen
      (scanReplace phoneLen phoneLen_pos phoneToken
        (scanReplace emailLen emailLen_pos emailToken s)) :=
    scanReplace_preserve emailLen phoneLen phoneLen_pos phoneToken hheadP
      emailLen_trunc emailLen_ext emailLen_nil email_safe_phoneToken _ hE1
  have hE3 : NoMatchCF emailLen (redactChars s) :=
    scanCtx_preserve emailLen numberMatch numberMatch_pos numberToken hheadN
      emailLen_trunc emailLen_ext emailLen_nil email_safe_numberToken _ false hE2
  have hP1 : NoMatchCF phoneLen
      (scanReplace phoneLen phoneLen_pos phoneToken
        (scanReplace emailLen emailLen_pos emailToken s)) :=
    scanReplace_self phoneLen phoneLen_pos phoneToken hheadP phoneLen_trunc
      phoneLen_ext phoneLen_nil phone_safe_phoneToken _
  have hP3 : NoMatchCF phoneLen (redactChars s) :=
    scanCtx_preserve phoneLen numberMatch numberMatch_pos numberToken hheadN
      phoneLen_trunc phoneLen_ext phoneLen_nil phone_safe_numberToken _ false hP1
  have hN3 : ∀ a v, redactChars s = a ++ v →
      numberMatch (wordEndC false a) v = none :=
    fun a v hav =>
      scanCtxN_self
        (scanReplace phoneLen phoneLen_pos phoneToken
          (scanReplace emailLen emailLen_pos emailToken s)).length
        (scanReplace phoneLen phoneLen_pos phoneToken
          (scanReplace emailLen emailLen_pos emailToken s)) false le_rfl a v
        (by exact hav)
  have e1 : scanReplace emailLen emailLen_pos emailToken (redactChars s) =
      redactChars s :=
    scanReplace_fix emailLen emailLen_pos emailToken _ hE3
  have e2 : scanReplace phoneLen phoneLen_pos phoneToken (redactChars s) =
      redactChars s :=
    scanReplace_fix phoneLen phoneLen_pos phoneToken _ hP3
  have e3 : scanReplaceCtx numberMatch numberMatch_pos numberToken false
      (redactChars s) = redactChars s :=
    scanCtxN_fix (redactChars s) false hN3
  calc redactChars (redactChars s)
      = scanReplaceCtx numberMatch numberMatch_pos numberToken false
          (scanReplace phoneLen phoneLen_pos phoneToken
            (scanReplace emailLen emailLen_pos emailToken (redactChars s))) := rfl
    _ = scanReplaceCtx numberMatch numberMatch_pos numberToken false
          (scanReplace phoneLen phoneLen_pos phoneToken (redactChars s)) := by
          rw [e1]
    _ = scanReplaceCtx numberMatch numberMatch_pos numberToken false
          (redactChars s) := by
          rw [e2]
    _ = redactChars s := e3

theorem redactString_idem (s : String) :
    redactString (redactString s) = redactString s := by
  show (redactChars ((redactChars s.toList).asString).toList).asString =
    (redactChars s.toList).asString
  have h1 : ((redactChars s.toList).asString).toList = redactChars s.toList := rfl
  rw [h1, redactChars_idem]

mutual

theorem redactSensitive_idem_aux :
    (v : JsonValue) → redactSensitive (redactSensitive v) = redactSensitive v
  | JsonValue.null => by rw [redactSensitive, redactSensitive]
  | JsonValue.bool b => by rw [redactSensitive, redactSensitive]
  | JsonValue.num n => by rw [redactSensitive, redactSensitive]
  | JsonValue.str s => by
      rw [redactSensitive, redactSensitive, redactString_idem]
  | JsonValue.arr items => by
      rw [redactSensitive, redactSensitive, redactArr_idem_aux items]
  | JsonValue.obj fields => by
      rw [redactSensitive, redactSensitive, redactObj_idem_aux fields]

theorem redactArr_idem_aux :
    (l : List JsonValue) → redactArr (redactArr l) = redactArr l
  | [] => by rw [redactArr, redactArr]
  | v :: rest => by
      rw [redactArr, redactArr, redactSensitive_idem_aux v, redactArr_idem_aux rest]

theorem redactObj_idem_aux :
    (l : List (String × JsonValue)) → redactObj (redactObj l) = redactObj l
  | [] => by rw [redactObj, redactObj]
  | kv :: rest => by
      rw [redactObj, redactObj, redactSensitive_idem_aux kv.2, redactObj_idem_aux rest]

end

/-- C7: `redactSensitive` is idempotent: redacting an already-redacted
JSON value (emails to `[REDACTED_EMAIL]`, long phone-like runs to
`[REDACTED_PHONE]`, word-bounded 12-19 digit runs to `[REDACTED_NUMBER]`,
recursing structurally through arrays and objects, normalizing
`null`/`undefined` to `null`) changes nothing. -/
theorem redactSensitive_idempotent (v : JsonValue) :
    redactSensitive (redactSensitive v) = redactSensitive v :=
  redactSensitive_idem_aux v

end PromptMgr
